import Mathlib

/-!
# K-Means clustering engine (Sample / Cluster / KMeans)

A shallow embedding of the three classes of the repository and a verification
development over it.

The program computes with `double`. The classes are embedded twice.

* `Binary64.Sample`, `Binary64.Cluster`, `Binary64.KMeans` are the classes as the program
  runs them. A coordinate is a `Double`, an IEEE 754 binary64 value, and each `+`, `-`,
  `/`, `std::sqrt` and the conversion of `samples.size()` gives the double nearest to the
  exact result, the even one on a tie, with overflow to an infinity and gradual underflow
  (`nearest_spec`, `isqrt_spec`); each operation rounds by itself, to `double`; `<` and
  `!=` compare as IEEE 754 says. What the program stores and returns (the center
  `calculateCenter` writes, the labels and centers a run ends with, the number of
  iterations) is stated over these.
* `Sample`, `Cluster`, `KMeans` are the same classes with the coordinates taken as exact
  rationals (`ℚ`). They carry the results on the control flow (the constructor's checks,
  the faults, what a step leaves untouched), the results stated for coordinates taken as
  exact numbers, and evaluations on inputs on which no operation of the program rounds.

Conventions of both embeddings.

* A `Sample*` held by a `Cluster` is the position of the pointee inside the engine's
  `samples` vector (the vector is never resized after loading, so a position is an
  address). Dereferencing a position outside the vector is undefined behaviour and is
  reported as `Fault.out_of_range`.
* `int` values are unbounded integers; the only counter of the code (`clusterId++`)
  never exceeds `K + 1`.
* The constructors `Sample::Sample`, `Cluster::Cluster`, `KMeans::KMeans` are named `ctor`.
* The `do ... while (changed)` loop of `updateKM` takes a fuel argument that bounds the
  number of iterations; running out of it is `Fault.out_of_fuel`.

Conventions of the embedding over `ℚ`.

* `std::sqrt` is strictly monotone on non-negative numbers, so the test
  `distance < minDistance` of the scan is carried out on the squares: the scan state
  holds `minDistance ^ 2`, starting from `numeric_limits<double>::max() ^ 2`.

Conventions of the embedding over `Double`.

* A finite double is held as the integer number of units of 2^-1074 it is made of.
* +0 and -0 are one value: the program only adds, subtracts, squares, takes roots,
  divides by a positive count and compares, and none of these tells the zeros apart.
* `std::pow(·, 2)` is an argument `pow2` of the scan and of everything that runs it: C++
  leaves the rounding of the library function to the implementation. The general results
  hold for every `pow2` with `Double.IsPow2` (the square of a NaN is a NaN, the square of
  0 is 0, the square of an infinity is +inf, any other square is +inf or finite and not
  negative). The evaluated runs take the correctly rounded square `Double.square`, what
  `x * x` gives.
* A record of the input file holds the doubles that `file >> x >> y` has stored.
-/

set_option linter.unusedVariables false

namespace KM

/-- What can interrupt the engine: the two exception classes it throws, undefined
behaviour by an access outside a vector, and the end of the fuel of the model. -/
inductive Fault where
  | invalid_argument
  | runtime_error
  | out_of_range
  | out_of_fuel
  deriving DecidableEq, Repr

/-! ## Sample.h / Sample.cpp -/

/-- Fields of `class Sample`. `cID` is `none` as long as it has never been written:
the constructor's initialiser list is `idx(i), x(X), y(Y)` and leaves `cID`
indeterminate. -/
structure Sample where
  idx : Int
  cID : Option Int
  x : ℚ
  y : ℚ
  deriving DecidableEq, Repr

/-- `Sample::Sample(int i, int clusterID, double X, double Y) : idx(i), x(X), y(Y)`. -/
def Sample.ctor (i : Int) (clusterID : Int) (X Y : ℚ) : Sample :=
  { idx := i, cID := none, x := X, y := Y }

/-- `Sample::setClusterID`. -/
def Sample.setClusterID (s : Sample) (clusterID : Int) : Sample :=
  { s with cID := some clusterID }

/-- `Sample::getIndex`. -/
def Sample.getIndex (s : Sample) : Int := s.idx

/-- `Sample::getClusterID`; `none` is the read of a never written `cID`. -/
def Sample.getClusterID (s : Sample) : Option Int := s.cID

/-- `Sample::getX`. -/
def Sample.getX (s : Sample) : ℚ := s.x

/-- `Sample::getY`. -/
def Sample.getY (s : Sample) : ℚ := s.y

/-! ## Cluster.h / Cluster.cpp -/

/-- Fields of `class Cluster`; `samples` is the `vector<Sample*>`. -/
structure Cluster where
  clusterID : Int
  centerX : ℚ
  centerY : ℚ
  samples : List Nat
  deriving DecidableEq, Repr

/-- `Cluster::Cluster(int ID, double X, double Y)`. -/
def Cluster.ctor (ID : Int) (X Y : ℚ) : Cluster :=
  { clusterID := ID, centerX := X, centerY := Y, samples := [] }

/-- `Cluster::addSample`: `samples.push_back(sample)`. -/
def Cluster.addSample (c : Cluster) (sample : Nat) : Cluster :=
  { c with samples := c.samples ++ [sample] }

/-- `Cluster::clearSamples`: `samples.clear()`. -/
def Cluster.clearSamples (c : Cluster) : Cluster :=
  { c with samples := [] }

/-- `Cluster::getXofCluster`. -/
def Cluster.getXofCluster (c : Cluster) : ℚ := c.centerX

/-- `Cluster::getYofCluster`. -/
def Cluster.getYofCluster (c : Cluster) : ℚ := c.centerY

/-- `Cluster::getIDofCluster`. -/
def Cluster.getIDofCluster (c : Cluster) : Int := c.clusterID

/-- The summation loop of `calculateCenter`:
`for (const auto& sample : samples) { sumX += sample->getX(); sumY += sample->getY(); }`,
reading the pointees in the vector `mem`. The sums are exact here;
`Binary64.Cluster.sumLoop` is the loop with every `+=` rounding. -/
def Cluster.sumLoop (mem : List Sample) : List Nat → ℚ × ℚ → Except Fault (ℚ × ℚ)
  | [], acc => .ok acc
  | p :: ps, acc =>
    match mem[p]? with
    | none => .error Fault.out_of_range
    | some s => Cluster.sumLoop mem ps (acc.1 + s.x, acc.2 + s.y)

/-- `Cluster::calculateCenter`: the returned pair is the `bool` result and the cluster
after the call. The quotients are exact here; `Binary64.Cluster.calculateCenter` is the
function in the arithmetic of `double`. -/
def Cluster.calculateCenter (mem : List Sample) (c : Cluster) :
    Except Fault (Bool × Cluster) :=
  if c.samples.isEmpty then .ok (false, c)
  else
    match Cluster.sumLoop mem c.samples (0, 0) with
    | .error e => .error e
    | .ok (sumX, sumY) =>
      let newCenterX : ℚ := sumX / (c.samples.length : ℚ)
      let newCenterY : ℚ := sumY / (c.samples.length : ℚ)
      let changed : Bool := decide (newCenterX ≠ c.centerX ∨ newCenterY ≠ c.centerY)
      .ok (changed, { c with centerX := newCenterX, centerY := newCenterY })

/-! ## KMeans.h / KMeans.cpp -/

/-- One well-formed record `index x y` of the input file. -/
abbrev Record := Int × ℚ × ℚ

/-- Fields of `class KMeans`. -/
structure KMeans where
  K : Int
  samples : List Sample
  clusters : List Cluster
  fileName : String
  outputfileName : String
  deriving DecidableEq, Repr

/-- `KMeans::getFileName`. -/
def KMeans.getFileName (km : KMeans) : String := km.fileName

/-- `KMeans::setFileName`. -/
def KMeans.setFileName (km : KMeans) (fileName : String) : KMeans :=
  { km with fileName := fileName }

/-- `KMeans::getOutputFileName`. -/
def KMeans.getOutputFileName (km : KMeans) : String := km.outputfileName

/-- `KMeans::setOutputFileName`. -/
def KMeans.setOutputFileName (km : KMeans) (OutputfileName : String) : KMeans :=
  { km with outputfileName := OutputfileName }

/-- `KMeans::getSamples`. -/
def KMeans.getSamples (km : KMeans) : List Sample := km.samples

/-- `KMeans::getClusters`. -/
def KMeans.getClusters (km : KMeans) : List Cluster := km.clusters

/-- `KMeans::loadSamples`. The file is `none` when it cannot be opened, otherwise the
records that `file >> index >> x >> y` reads before its first failure. -/
def KMeans.loadSamples (km : KMeans) (file : Option (List Record)) : Except Fault KMeans :=
  match file with
  | none => .error Fault.runtime_error
  | some records =>
    .ok { km with
      samples := km.samples ++ records.map (fun r => Sample.ctor r.1 (-1) r.2.1 r.2.2) }

/-- The body of the `for_each` of `initialize`:
`clusters.emplace_back(clusterId++, sample.getX(), sample.getY())`. -/
def initLoop : Int → List Sample → List Cluster
  | _, [] => []
  | clusterId, sample :: rest =>
    Cluster.ctor clusterId sample.x sample.y :: initLoop (clusterId + 1) rest

/-- `KMeans::initialize`: `for_each(samples.begin(), samples.begin() + K, ...)`. The
range is valid only when `0 ≤ K ≤ samples.size()`. -/
def KMeans.initialize (km : KMeans) : Except Fault KMeans :=
  if km.K < 0 ∨ (km.samples.length : Int) < km.K then .error Fault.out_of_range
  else .ok { km with clusters := km.clusters ++ initLoop 1 (km.samples.take km.K.toNat) }

/-- `numeric_limits<double>::max()`. -/
def maxDouble : ℚ := 2 ^ 1024 - 2 ^ 971

/-- The square of `sqrt(pow(sample.getX() - cluster.getXofCluster(), 2) +
pow(sample.getY() - cluster.getYofCluster(), 2))`, exact; `Binary64.distance` is the
value the program computes in `double`. -/
def distSq (sample : Sample) (cluster : Cluster) : ℚ :=
  (sample.x - cluster.centerX) ^ 2 + (sample.y - cluster.centerY) ^ 2

/-- The body of the inner `for_each` of `assignSamplesToClusters`, on the pair
`(minDistance ^ 2, bestClusterID)`. -/
def scanStep (sample : Sample) (acc : ℚ × Int) (cluster : Cluster) : ℚ × Int :=
  if distSq sample cluster < acc.1 then (distSq sample cluster, cluster.clusterID) else acc

/-- The inner `for_each` of `assignSamplesToClusters` from
`minDistance = numeric_limits<double>::max()`, `bestClusterID = -1`, on exact squared
distances; `Binary64.nearestScan` is the scan on the distances computed in `double`. -/
def nearestScan (clusters : List Cluster) (sample : Sample) : ℚ × Int :=
  clusters.foldl (scanStep sample) (maxDouble ^ 2, -1)

/-- The outer `for_each` of `assignSamplesToClusters` over the samples from position `j`
on: `sample.setClusterID(bestClusterID); clusters[bestClusterID - 1].addSample(&sample)`. -/
def assignLoop : Nat → List Sample → List Cluster → Except Fault (List Sample × List Cluster)
  | _, [], clusters => .ok ([], clusters)
  | j, sample :: rest, clusters =>
    let bestClusterID : Int := (nearestScan clusters sample).2
    if bestClusterID - 1 < 0 ∨ clusters.length ≤ (bestClusterID - 1).toNat then
      .error Fault.out_of_range
    else
      match assignLoop (j + 1) rest
          (clusters.modify (fun c => c.addSample j) (bestClusterID - 1).toNat) with
      | .error e => .error e
      | .ok (rest', clusters') => .ok (sample.setClusterID bestClusterID :: rest', clusters')

/-- `KMeans::assignSamplesToClusters`. -/
def KMeans.assignSamplesToClusters (km : KMeans) : Except Fault KMeans :=
  match assignLoop 0 km.samples (km.clusters.map Cluster.clearSamples) with
  | .error e => .error e
  | .ok (samples', clusters') => .ok { km with samples := samples', clusters := clusters' }

/-- The loop `for (auto& cluster : clusters) if (cluster.calculateCenter()) changed = true;`
of `updateKM`. -/
def centerLoop (mem : List Sample) : List Cluster → Bool → Except Fault (Bool × List Cluster)
  | [], changed => .ok (changed, [])
  | cluster :: rest, changed =>
    match cluster.calculateCenter mem with
    | .error e => .error e
    | .ok (b, cluster') =>
      match centerLoop mem rest (if b then true else changed) with
      | .error e => .error e
      | .ok (changed', rest') => .ok (changed', cluster' :: rest')

/-- One pass through the body of the `do ... while` of `updateKM`: the value of `changed`
at the end of the body and the engine after it. -/
def KMeans.iteration (km : KMeans) : Except Fault (Bool × KMeans) :=
  match km.assignSamplesToClusters with
  | .error e => .error e
  | .ok km1 =>
    match centerLoop km1.samples km1.clusters false with
    | .error e => .error e
    | .ok (changed, clusters') => .ok (changed, { km1 with clusters := clusters' })

/-- `KMeans::updateKM`, with at most `fuel` iterations. -/
def KMeans.updateKM : Nat → KMeans → Except Fault KMeans
  | 0, _ => .error Fault.out_of_fuel
  | fuel + 1, km =>
    match km.iteration with
    | .error e => .error e
    | .ok (changed, km') => if changed then KMeans.updateKM fuel km' else .ok km'

/-- `KMeans::KMeans(fileName, k, OutputfileName)`. `files` is the file system: what
opening a path for reading gives. A failure carries the engine on which the failing
step was started. -/
def KMeans.ctor (files : String → Option (List Record)) (fileName : String) (k : Int)
    (OutputfileName : String) (fuel : Nat) : Except (Fault × KMeans) KMeans :=
  let km0 : KMeans :=
    { K := k, samples := [], clusters := [], fileName := "", outputfileName := "" }
  if k ≤ 0 then .error (Fault.invalid_argument, km0)
  else
    let km1 := (km0.setFileName fileName).setOutputFileName OutputfileName
    match km1.loadSamples (files km1.getFileName) with
    | .error e => .error (e, km1)
    | .ok km2 =>
      match km2.initialize with
      | .error e => .error (e, km2)
      | .ok km3 =>
        match KMeans.updateKM fuel km3 with
        | .error e => .error (e, km3)
        | .ok km4 => .ok km4

/-! ## Specification-side notions -/

/-- The samples a cluster's member pointers point to, in member order. -/
def Cluster.members (mem : List Sample) (c : Cluster) : List Sample :=
  c.samples.filterMap (fun p => mem[p]?)

/-- Every member pointer of the cluster points into the vector `mem`. -/
def Cluster.ValidIn (mem : List Sample) (c : Cluster) : Prop :=
  ∀ p ∈ c.samples, p < mem.length

/-- The ids are the positions counted from 1, as `initialize` numbers the clusters:
`clusters[id - 1]` is the cluster with that id. -/
def IdsInOrder (cl : List Cluster) : Prop :=
  ∀ (i : Nat) (c : Cluster), cl[i]? = some c → c.clusterID = (i : Int) + 1

/-- What the scan reads of a cluster: id and center. -/
def Cluster.key (c : Cluster) : Int × ℚ × ℚ := (c.clusterID, c.centerX, c.centerY)

/-- The positions, from `j` on, of the samples of `l` that the scan over `cl` gives the
id `i + 1`. -/
def memberPositions (cl : List Cluster) (j : Nat) (l : List Sample) (i : Nat) : List Nat :=
  ((l.enumFrom j).filter (fun ps => decide ((nearestScan cl ps.2).2 = (i : Int) + 1))).map
    Prod.fst

/-- The sample with the label the scan over `cl` gives it. -/
def relabel (cl : List Cluster) (s : Sample) : Sample :=
  s.setClusterID (nearestScan cl s).2

/-- The cluster vector after an assignment pass over the samples `l`: the i-th cluster
holds the positions of the samples labelled `i + 1`, in load order. -/
def assignedClusters (cl : List Cluster) (l : List Sample) : List Cluster :=
  cl.enum.map (fun ic => { ic.2 with samples := memberPositions cl 0 l ic.1 })

/-- The cluster after `calculateCenter`. -/
def Cluster.recenter (mem : List Sample) (c : Cluster) : Cluster :=
  if c.samples.isEmpty then c
  else
    { c with
      centerX := ((c.members mem).map Sample.x).sum / (c.samples.length : ℚ),
      centerY := ((c.members mem).map Sample.y).sum / (c.samples.length : ℚ) }

/-- The result of `calculateCenter`: whether the center moved. -/
def Cluster.moved (mem : List Sample) (c : Cluster) : Bool :=
  decide ((c.recenter mem).centerX ≠ c.centerX ∨ (c.recenter mem).centerY ≠ c.centerY)

/-- Every sample of `l` gets the id of a cluster of `cl` from the scan. -/
def AllAssigned (cl : List Cluster) (l : List Sample) : Prop :=
  ∀ s ∈ l, ∃ i : Nat, i < cl.length ∧ (nearestScan cl s).2 = (i : Int) + 1

/-- The samples of `l` that the scan over `cl` gives the id `i + 1`, in load order. -/
def labelled (cl : List Cluster) (l : List Sample) (i : Nat) : List Sample :=
  l.filter (fun s => decide ((nearestScan cl s).2 = (i : Int) + 1))

/-- Arithmetic mean of the x coordinates. -/
def meanX (V : List Sample) : ℚ := (V.map Sample.x).sum / (V.length : ℚ)

/-- Arithmetic mean of the y coordinates. -/
def meanY (V : List Sample) : ℚ := (V.map Sample.y).sum / (V.length : ℚ)

/-- The center of the i-th cluster after an iteration over the samples `l`: the mean of
the samples labelled `i + 1`, or the old center when there is none. -/
def nextCenter (cl : List Cluster) (l : List Sample) (i : Nat) (c : Cluster) : ℚ × ℚ :=
  if labelled cl l i = [] then (c.centerX, c.centerY)
  else (meanX (labelled cl l i), meanY (labelled cl l i))

/-- The cluster vector after an iteration over the samples `l`. -/
def nextClusters (cl : List Cluster) (l : List Sample) : List Cluster :=
  (assignedClusters cl l).map (fun c => c.recenter (l.map (relabel cl)))

/-- The squared distance from the sample to the i-th cluster of `cl` (0 past the end). -/
def distTo (cl : List Cluster) (i : Nat) (s : Sample) : ℚ :=
  ((cl[i]?).map (distSq s)).getD 0

/-- The sum over the samples of the least squared distance the scan over `cl` finds. -/
def cost (cl : List Cluster) (l : List Sample) : ℚ :=
  (l.map (fun s => (nearestScan cl s).1)).sum

/-- The coordinates of a sample. -/
def Sample.point (s : Sample) : ℚ × ℚ := (s.x, s.y)

/-- The center of a cluster. -/
def Cluster.center (c : Cluster) : ℚ × ℚ := (c.centerX, c.centerY)

/-- The least squared distance from the point `q` to the centers `L`, as the scan finds
it from the square of `numeric_limits<double>::max()`. -/
def minDistSq (L : List (ℚ × ℚ)) (q : ℚ × ℚ) : ℚ :=
  L.foldl (fun m p =>
    if (q.1 - p.1) ^ 2 + (q.2 - p.2) ^ 2 < m then (q.1 - p.1) ^ 2 + (q.2 - p.2) ^ 2 else m)
    (maxDouble ^ 2)

/-- The mean of a list of points. -/
def meanPoint (V : List (ℚ × ℚ)) : ℚ × ℚ :=
  ((V.map Prod.fst).sum / (V.length : ℚ), (V.map Prod.snd).sum / (V.length : ℚ))

/-- The centers a run from the centers `F0` over the points `P` can ever hold: the
starting centers and the means of the sublists of `P`. -/
def candidateCenters (F0 P : List (ℚ × ℚ)) : List (ℚ × ℚ) :=
  F0 ++ P.sublists.map meanPoint

/-- What every iteration of `updateKM` keeps: the ids are in order, there are `K`
clusters, the samples lie at the points `P` and the centers are candidates. -/
def LoopInv (K : Nat) (F0 P : List (ℚ × ℚ)) (km : KMeans) : Prop :=
  IdsInOrder km.clusters ∧ km.clusters.length = K ∧ km.samples.map Sample.point = P ∧
    ∀ c ∈ km.clusters, c.center ∈ candidateCenters F0 P

/-- Every two samples are closer to each other than `numeric_limits<double>::max()`. -/
def PairwiseClose (l : List Sample) : Prop :=
  ∀ s ∈ l, ∀ t ∈ l, (s.x - t.x) ^ 2 + (s.y - t.y) ^ 2 < maxDouble ^ 2

/-- Every sample is closer to every center than `numeric_limits<double>::max()`. -/
def CentersClose (cl : List Cluster) (l : List Sample) : Prop :=
  ∀ s ∈ l, ∀ c ∈ cl, distSq s c < maxDouble ^ 2

/-! ### The predicates above can be evaluated -/

instance (mem : List Sample) (c : Cluster) : Decidable (c.ValidIn mem) :=
  inferInstanceAs (Decidable (∀ p ∈ c.samples, p < mem.length))

instance (cl : List Cluster) : Decidable (IdsInOrder cl) :=
  decidable_of_iff (∀ i ∈ List.range cl.length, ∀ c ∈ cl[i]?, c.clusterID = (i : Int) + 1)
    ⟨fun h i c hc => h i (List.mem_range.2 (List.getElem?_eq_some_iff.1 hc).1) c hc,
     fun h i _ c hc => h i c hc⟩

instance (cl : List Cluster) (l : List Sample) : Decidable (AllAssigned cl l) :=
  inferInstanceAs (Decidable (∀ s ∈ l, ∃ i : Nat, i < cl.length ∧
    (nearestScan cl s).2 = (i : Int) + 1))

instance (l : List Sample) : Decidable (PairwiseClose l) :=
  inferInstanceAs (Decidable (∀ s ∈ l, ∀ t ∈ l,
    (s.x - t.x) ^ 2 + (s.y - t.y) ^ 2 < maxDouble ^ 2))

instance (cl : List Cluster) (l : List Sample) : Decidable (CentersClose cl l) :=
  inferInstanceAs (Decidable (∀ s ∈ l, ∀ c ∈ cl, distSq s c < maxDouble ^ 2))

/-- The engine after loading the four records `1 0 0`, `2 1 0`, `3 10 10`, `4 11 10`
with K = 2. -/
def exampleLoaded : KMeans :=
  { K := 2,
    samples := [⟨1, none, 0, 0⟩, ⟨2, none, 1, 0⟩, ⟨3, none, 10, 10⟩, ⟨4, none, 11, 10⟩],
    clusters := [], fileName := "in", outputfileName := "out" }

/-- The example engine after `initialize`. -/
def exampleSeeded : KMeans :=
  { exampleLoaded with clusters := [⟨1, 0, 0, []⟩, ⟨2, 1, 0, []⟩] }

/-- The example engine after `updateKM`. -/
def exampleFinal : KMeans :=
  { exampleLoaded with
    samples := [⟨1, some 1, 0, 0⟩, ⟨2, some 1, 1, 0⟩, ⟨3, some 2, 10, 10⟩, ⟨4, some 2, 11, 10⟩],
    clusters := [⟨1, 1 / 2, 0, [0, 1]⟩, ⟨2, 21 / 2, 10, [2, 3]⟩] }

/-- The engine seeded at (0, 0) with K = 1 whose second sample lies at distance
`numeric_limits<double>::max()` from the seed. -/
def farSeeded : KMeans :=
  { K := 1, samples := [⟨1, none, 0, 0⟩, ⟨2, none, maxDouble, 0⟩],
    clusters := [⟨1, 0, 0, []⟩], fileName := "in", outputfileName := "out" }

/-- The engine after loading the records `1 0 0` and `2 DBL_MAX 0` with K = 1. -/
def farLoaded : KMeans :=
  { K := 1, samples := [⟨1, none, 0, 0⟩, ⟨2, none, maxDouble, 0⟩],
    clusters := [], fileName := "in", outputfileName := "out" }

/-- What an iteration does not touch: the samples' indices and coordinates in their
order, the clusters' ids in their order, and K and the two file names. -/
def FrameKept (km km' : KMeans) : Prop :=
  km'.samples.map (fun s => (s.getIndex, s.getX, s.getY)) =
    km.samples.map (fun s => (s.getIndex, s.getX, s.getY)) ∧
  km'.clusters.map Cluster.getIDofCluster = km.clusters.map Cluster.getIDofCluster ∧
  km'.K = km.K ∧ km'.fileName = km.fileName ∧ km'.outputfileName = km.outputfileName

/-- The engine after loading the records `1 3 4` and `2 3 4` with K = 2. -/
def dupLoaded : KMeans :=
  { K := 2, samples := [⟨1, none, 3, 4⟩, ⟨2, none, 3, 4⟩],
    clusters := [], fileName := "in", outputfileName := "out" }

/-- The engine of the two equal points after `initialize`. -/
def dupSeeded : KMeans :=
  { dupLoaded with clusters := [⟨1, 3, 4, []⟩, ⟨2, 3, 4, []⟩] }

/-- The engine of the two equal points after `updateKM`. -/
def dupFinal : KMeans :=
  { dupLoaded with
    samples := [⟨1, some 1, 3, 4⟩, ⟨2, some 1, 3, 4⟩],
    clusters := [⟨1, 3, 4, [0, 1]⟩, ⟨2, 3, 4, []⟩] }

/-- The squared distance from the sample to the center of the cluster whose id is the
sample's label (0 for a sample without a label or with a label that is no cluster's
id). -/
def labelDist (cl : List Cluster) (s : Sample) : ℚ :=
  match s.getClusterID with
  | none => 0
  | some g =>
    match cl.find? (fun c => decide (c.getIDofCluster = g)) with
    | none => 0
    | some c => distSq s c

/-- The within-cluster cost of an engine: the sum over its samples of the squared
distance from the sample to the center of the cluster it is labelled with. -/
def KMeans.withinCost (km : KMeans) : ℚ :=
  (km.samples.map (labelDist km.clusters)).sum

/-! ## The arithmetic of `double` -/

/-- A `double` (IEEE 754 binary64). A finite value is held as the integer number of
units of 2^-1074 it is made of: every finite double is such a multiple, the least
positive one being one unit. The zeros +0 and -0 are one value: the program adds,
subtracts, squares, takes roots, compares and divides by a member count, and none of
these tells them apart. -/
inductive Double where
  | fin (n : Int)
  | pinf
  | ninf
  | nan
  deriving DecidableEq, Repr

/-- The number of units of 2^-1074 in 1.0. -/
@[irreducible]
def Double.unitsInOne : Nat := 2 ^ 1074

/-- The number of units of 2^-1074 in 2^1024, the least magnitude that overflows. -/
@[irreducible]
def Double.overflow : Nat := 2 ^ 2098

/-- The number of units of 2^-1074 in 2^1024 - 2^971, the largest finite double. -/
@[irreducible]
def Double.maxUnits : Nat := (2 ^ 53 - 1) * 2 ^ 2045

/-- `numeric_limits<double>::max()`. -/
def Double.maxValue : Double := .fin (Double.maxUnits : Int)

/-- Number of binary digits of `n`, for `n < 2 ^ fuel`: 64 digits at a time as long as
there are that many, then one at a time. -/
def Double.digitsLoop : Nat → Nat → Nat
  | 0, _ => 0
  | fuel + 1, n =>
    if n = 0 then 0
    else if 2 ^ 64 ≤ n then Double.digitsLoop fuel (n / 2 ^ 64) + 64
    else Double.digitsLoop fuel (n / 2) + 1

/-- Number of binary digits of `n`. -/
def Double.digits (n : Nat) : Nat := Double.digitsLoop n n

/-- The distance, in units, between neighbouring doubles of the size of `q` units: a
double has 53 significant binary digits, and below 2^53 units every unit is a double
(the subnormal range and the first normal binade). -/
def Double.spacing (q : Nat) : Nat := 2 ^ (Double.digits q - 53)

/-- The multiple of the spacing nearest to `a / d` units, the even one on a tie:
round-to-nearest-even, before the overflow test. -/
def Double.nearest (a d : Nat) : Nat :=
  let ulp := Double.spacing (a / d)
  let t := a / (d * ulp)
  let r := a % (d * ulp)
  (if 2 * r < d * ulp then t else if d * ulp < 2 * r then t + 1 else t + t % 2) * ulp

/-- The double that the exact value `± a / d` units rounds to. -/
def Double.round (neg : Bool) (a d : Nat) : Double :=
  let m := Double.nearest a d
  if Double.overflow ≤ m then (if neg then .ninf else .pinf)
  else .fin (if neg then -(m : Int) else (m : Int))

/-- The double nearest to the fraction `a / b`: what `file >> x` stores for a decimal
literal of that value. -/
def Double.ofRatio (a : Int) (b : Nat) : Double :=
  Double.round (decide (a < 0)) (a.natAbs * Double.unitsInOne) b

/-- The conversion of a `size_t` to `double`. -/
def Double.ofNat (n : Nat) : Double := Double.round false (n * Double.unitsInOne) 1

/-- Unary minus. -/
def Double.neg : Double → Double
  | .fin a => .fin (-a)
  | .pinf => .ninf
  | .ninf => .pinf
  | .nan => .nan

/-- The operator `+` on `double`. -/
def Double.add : Double → Double → Double
  | .fin a, .fin b => Double.round (decide (a + b < 0)) (a + b).natAbs 1
  | .fin _, .pinf => .pinf
  | .fin _, .ninf => .ninf
  | .pinf, .fin _ => .pinf
  | .pinf, .pinf => .pinf
  | .ninf, .fin _ => .ninf
  | .ninf, .ninf => .ninf
  | _, _ => .nan

/-- The operator `-` on `double`. -/
def Double.sub (a b : Double) : Double := Double.add a (Double.neg b)

/-- The operator `/` on `double`. A divisor 0 is taken as +0; the program divides by
`samples.size()` of a non-empty vector only. -/
def Double.div : Double → Double → Double
  | .fin a, .fin b =>
    if b = 0 then (if a = 0 then .nan else if 0 < a then .pinf else .ninf)
    else Double.round (decide (a < 0) != decide (b < 0)) (a.natAbs * Double.unitsInOne) b.natAbs
  | .fin _, .pinf => .fin 0
  | .fin _, .ninf => .fin 0
  | .pinf, .fin b => if b < 0 then .ninf else .pinf
  | .ninf, .fin b => if b < 0 then .pinf else .ninf
  | _, _ => .nan

/-- The correctly rounded square, `x * x`: what `std::pow(x, 2)` returns when the
compiler folds the call to a multiplication or the library rounds it correctly. -/
def Double.square : Double → Double
  | .fin a => Double.round false (a.natAbs * a.natAbs) Double.unitsInOne
  | .pinf => .pinf
  | .ninf => .pinf
  | .nan => .nan

/-- What is used of `std::pow(x, 2)`, a library function whose rounding C++ leaves to
the implementation: the square of a NaN is a NaN, the square of 0 is 0, the square of
any value that is not a NaN is +inf or a finite value that is not negative, and the
square of an infinity is +inf. -/
def Double.IsPow2 (pow2 : Double → Double) : Prop :=
  pow2 .nan = .nan ∧ pow2 (.fin 0) = .fin 0 ∧
    (∀ a : Double, a ≠ .nan → pow2 a = .pinf ∨ ∃ m : Nat, pow2 a = .fin (m : Int)) ∧
    pow2 .pinf = .pinf ∧ pow2 .ninf = .pinf

/-- Heron's iteration for the integer square root of `n` from a guess `r` above it:
`r` is replaced by the mean of `r` and `n / r` as long as that is smaller. -/
def Double.sqrtLoop (n : Nat) : Nat → Nat → Nat
  | 0, r => r
  | fuel + 1, r =>
    if (r + n / r) / 2 < r then Double.sqrtLoop n fuel ((r + n / r) / 2) else r

/-- The integer square root: the largest `r` with `r * r ≤ n`. The first guess is a
power of 2 above the root, and the guesses decrease. -/
def Double.isqrt (n : Nat) : Nat :=
  Double.sqrtLoop n (2 ^ (Double.digits n / 2 + 1)) (2 ^ (Double.digits n / 2 + 1))

/-- `std::sqrt`: the double nearest to the square root. The root of `a` units is the
root of `a * 2^1074` counted in units. -/
def Double.sqrt : Double → Double
  | .fin a =>
    if a < 0 then .nan
    else
      let n := a.toNat * Double.unitsInOne
      let ulp := Double.spacing (Double.isqrt n)
      let t := Double.isqrt n / ulp
      let m := (2 * t + 1) * ulp
      .fin (((if 4 * n < m * m then t else if m * m < 4 * n then t + 1 else t + t % 2) * ulp :
        Nat) : Int)
  | .pinf => .pinf
  | .ninf => .nan
  | .nan => .nan

/-- The operator `<` on `double`. -/
def Double.lt : Double → Double → Bool
  | .fin a, .fin b => decide (a < b)
  | .fin _, .pinf => true
  | .ninf, .fin _ => true
  | .ninf, .pinf => true
  | _, _ => false

/-- The operator `<=` on `double`. -/
def Double.le : Double → Double → Bool
  | .fin a, .fin b => decide (a ≤ b)
  | .fin _, .pinf => true
  | .ninf, .fin _ => true
  | .ninf, .pinf => true
  | .pinf, .pinf => true
  | .ninf, .ninf => true
  | _, _ => false

/-- The operator `!=` on `double`. -/
def Double.ne : Double → Double → Bool
  | .nan, _ => true
  | _, .nan => true
  | a, b => decide (a ≠ b)

/-- The double `m * 2^e`, for `e ≥ -1074`. -/
def Double.dyadic (m : Int) (e : Int) : Double := .fin (m * ((2 ^ (e + 1074).toNat : Nat) : Int))

/-- `std::isfinite`. -/
def Double.isFinite : Double → Bool
  | .fin _ => true
  | _ => false

/-- The value is a finite double: rounding it gives it back. -/
def Double.isValue : Double → Bool
  | .fin n => decide (Double.round (decide (n < 0)) n.natAbs 1 = .fin n)
  | _ => false

/-! ## The classes over `double` -/

/-- Two results of a fallible step can be compared. -/
instance exceptDecEq {ε α : Type} [DecidableEq ε] [DecidableEq α] : DecidableEq (Except ε α)
  | .ok a, .ok b =>
    if h : a = b then isTrue (congrArg Except.ok h)
    else isFalse (fun h' => h (Except.ok.inj h'))
  | .error a, .error b =>
    if h : a = b then isTrue (congrArg Except.error h)
    else isFalse (fun h' => h (Except.error.inj h'))
  | .ok _, .error _ => isFalse (fun h => Except.noConfusion h)
  | .error _, .ok _ => isFalse (fun h => Except.noConfusion h)

namespace Binary64

/-- Fields of `class Sample`, the coordinates being doubles. `cID` is `none` as long as
it has never been written. -/
structure Sample where
  idx : Int
  cID : Option Int
  x : Double
  y : Double
  deriving DecidableEq, Repr

/-- `Sample::Sample(int i, int clusterID, double X, double Y) : idx(i), x(X), y(Y)`. -/
def Sample.ctor (i : Int) (clusterID : Int) (X Y : Double) : Sample :=
  { idx := i, cID := none, x := X, y := Y }

/-- `Sample::setClusterID`. -/
def Sample.setClusterID (s : Sample) (clusterID : Int) : Sample :=
  { s with cID := some clusterID }

/-- `Sample::getIndex`. -/
def Sample.getIndex (s : Sample) : Int := s.idx

/-- `Sample::getClusterID`; `none` is the read of a never written `cID`. -/
def Sample.getClusterID (s : Sample) : Option Int := s.cID

/-- `Sample::getX`. -/
def Sample.getX (s : Sample) : Double := s.x

/-- `Sample::getY`. -/
def Sample.getY (s : Sample) : Double := s.y

/-- Fields of `class Cluster`, the center being doubles; `samples` is the
`vector<Sample*>`. -/
structure Cluster where
  clusterID : Int
  centerX : Double
  centerY : Double
  samples : List Nat
  deriving DecidableEq, Repr

/-- `Cluster::Cluster(int ID, double X, double Y)`. -/
def Cluster.ctor (ID : Int) (X Y : Double) : Cluster :=
  { clusterID := ID, centerX := X, centerY := Y, samples := [] }

/-- `Cluster::addSample`: `samples.push_back(sample)`. -/
def Cluster.addSample (c : Cluster) (sample : Nat) : Cluster :=
  { c with samples := c.samples ++ [sample] }

/-- `Cluster::clearSamples`: `samples.clear()`. -/
def Cluster.clearSamples (c : Cluster) : Cluster :=
  { c with samples := [] }

/-- `Cluster::getXofCluster`. -/
def Cluster.getXofCluster (c : Cluster) : Double := c.centerX

/-- `Cluster::getYofCluster`. -/
def Cluster.getYofCluster (c : Cluster) : Double := c.centerY

/-- `Cluster::getIDofCluster`. -/
def Cluster.getIDofCluster (c : Cluster) : Int := c.clusterID

/-- The summation loop of `calculateCenter`:
`for (const auto& sample : samples) { sumX += sample->getX(); sumY += sample->getY(); }`,
reading the pointees in the vector `mem`; every `+=` rounds. -/
def Cluster.sumLoop (mem : List Sample) :
    List Nat → Double × Double → Except Fault (Double × Double)
  | [], acc => .ok acc
  | p :: ps, acc =>
    match mem[p]? with
    | none => .error Fault.out_of_range
    | some s => Cluster.sumLoop mem ps (Double.add acc.1 s.getX, Double.add acc.2 s.getY)

/-- `Cluster::calculateCenter`: the returned pair is the `bool` result and the cluster
after the call. -/
def Cluster.calculateCenter (mem : List Sample) (c : Cluster) :
    Except Fault (Bool × Cluster) :=
  if c.samples.isEmpty then .ok (false, c)
  else
    match Cluster.sumLoop mem c.samples (.fin 0, .fin 0) with
    | .error e => .error e
    | .ok (sumX, sumY) =>
      let newCenterX : Double := Double.div sumX (Double.ofNat c.samples.length)
      let newCenterY : Double := Double.div sumY (Double.ofNat c.samples.length)
      let changed : Bool := Double.ne newCenterX c.centerX || Double.ne newCenterY c.centerY
      .ok (changed, { c with centerX := newCenterX, centerY := newCenterY })

/-- One well-formed record `index x y` of the input file, the coordinates as
`file >> x` stores them. -/
abbrev Record := Int × Double × Double

/-- Fields of `class KMeans`. -/
structure KMeans where
  K : Int
  samples : List Sample
  clusters : List Cluster
  fileName : String
  outputfileName : String
  deriving DecidableEq, Repr

/-- `KMeans::getFileName`. -/
def KMeans.getFileName (km : KMeans) : String := km.fileName

/-- `KMeans::setFileName`. -/
def KMeans.setFileName (km : KMeans) (fileName : String) : KMeans :=
  { km with fileName := fileName }

/-- `KMeans::setOutputFileName`. -/
def KMeans.setOutputFileName (km : KMeans) (OutputfileName : String) : KMeans :=
  { km with outputfileName := OutputfileName }

/-- `KMeans::loadSamples`. The file is `none` when it cannot be opened, otherwise the
records that `file >> index >> x >> y` reads before its first failure. -/
def KMeans.loadSamples (km : KMeans) (file : Option (List Record)) : Except Fault KMeans :=
  match file with
  | none => .error Fault.runtime_error
  | some records =>
    .ok { km with
      samples := km.samples ++ records.map (fun r => Sample.ctor r.1 (-1) r.2.1 r.2.2) }

/-- The body of the `for_each` of `initialize`:
`clusters.emplace_back(clusterId++, sample.getX(), sample.getY())`. -/
def initLoop : Int → List Sample → List Cluster
  | _, [] => []
  | clusterId, sample :: rest =>
    Cluster.ctor clusterId sample.getX sample.getY :: initLoop (clusterId + 1) rest

/-- `KMeans::initialize`: `for_each(samples.begin(), samples.begin() + K, ...)`. The
range is valid only when `0 ≤ K ≤ samples.size()`. -/
def KMeans.initialize (km : KMeans) : Except Fault KMeans :=
  if km.K < 0 ∨ (km.samples.length : Int) < km.K then .error Fault.out_of_range
  else .ok { km with clusters := km.clusters ++ initLoop 1 (km.samples.take km.K.toNat) }

/-- The value of `distance` in the scan:
`sqrt(pow(sample.getX() - cluster.getXofCluster(), 2) +
pow(sample.getY() - cluster.getYofCluster(), 2))`, every operation rounding; `pow2` is
the library's `std::pow(·, 2)`. -/
def distance (pow2 : Double → Double) (sample : Sample) (cluster : Cluster) : Double :=
  Double.sqrt
    (Double.add (pow2 (Double.sub sample.getX cluster.getXofCluster))
      (pow2 (Double.sub sample.getY cluster.getYofCluster)))

/-- The body of the inner `for_each` of `assignSamplesToClusters`, on the pair
`(minDistance, bestClusterID)`. -/
def scanStep (pow2 : Double → Double) (sample : Sample) (acc : Double × Int)
    (cluster : Cluster) : Double × Int :=
  if Double.lt (distance pow2 sample cluster) acc.1 then
    (distance pow2 sample cluster, cluster.getIDofCluster)
  else acc

/-- The inner `for_each` of `assignSamplesToClusters` from
`minDistance = numeric_limits<double>::max()`, `bestClusterID = -1`. -/
def nearestScan (pow2 : Double → Double) (clusters : List Cluster) (sample : Sample) :
    Double × Int :=
  clusters.foldl (scanStep pow2 sample) (Double.maxValue, -1)

/-- The outer `for_each` of `assignSamplesToClusters` over the samples from position `j`
on: `sample.setClusterID(bestClusterID); clusters[bestClusterID - 1].addSample(&sample)`. -/
def assignLoop (pow2 : Double → Double) :
    Nat → List Sample → List Cluster → Except Fault (List Sample × List Cluster)
  | _, [], clusters => .ok ([], clusters)
  | j, sample :: rest, clusters =>
    let bestClusterID : Int := (nearestScan pow2 clusters sample).2
    if bestClusterID - 1 < 0 ∨ clusters.length ≤ (bestClusterID - 1).toNat then
      .error Fault.out_of_range
    else
      match assignLoop pow2 (j + 1) rest
          (clusters.modify (fun c => c.addSample j) (bestClusterID - 1).toNat) with
      | .error e => .error e
      | .ok (rest', clusters') => .ok (sample.setClusterID bestClusterID :: rest', clusters')

/-- `KMeans::assignSamplesToClusters`. -/
def KMeans.assignSamplesToClusters (pow2 : Double → Double) (km : KMeans) :
    Except Fault KMeans :=
  match assignLoop pow2 0 km.samples (km.clusters.map Cluster.clearSamples) with
  | .error e => .error e
  | .ok (samples', clusters') => .ok { km with samples := samples', clusters := clusters' }

/-- The loop `for (auto& cluster : clusters) if (cluster.calculateCenter()) changed = true;`
of `updateKM`. -/
def centerLoop (mem : List Sample) : List Cluster → Bool → Except Fault (Bool × List Cluster)
  | [], changed => .ok (changed, [])
  | cluster :: rest, changed =>
    match cluster.calculateCenter mem with
    | .error e => .error e
    | .ok (b, cluster') =>
      match centerLoop mem rest (if b then true else changed) with
      | .error e => .error e
      | .ok (changed', rest') => .ok (changed', cluster' :: rest')

/-- One pass through the body of the `do ... while` of `updateKM`: the value of `changed`
at the end of the body and the engine after it. -/
def KMeans.iteration (pow2 : Double → Double) (km : KMeans) : Except Fault (Bool × KMeans) :=
  match km.assignSamplesToClusters pow2 with
  | .error e => .error e
  | .ok km1 =>
    match centerLoop km1.samples km1.clusters false with
    | .error e => .error e
    | .ok (changed, clusters') => .ok (changed, { km1 with clusters := clusters' })

/-- `KMeans::updateKM`, with at most `fuel` iterations. -/
def KMeans.updateKM (pow2 : Double → Double) : Nat → KMeans → Except Fault KMeans
  | 0, _ => .error Fault.out_of_fuel
  | fuel + 1, km =>
    match km.iteration pow2 with
    | .error e => .error e
    | .ok (changed, km') => if changed then KMeans.updateKM pow2 fuel km' else .ok km'

/-- `KMeans::KMeans(fileName, k, OutputfileName)`. `files` is the file system: what
opening a path for reading gives. A failure carries the engine on which the failing
step was started. -/
def KMeans.ctor (pow2 : Double → Double) (files : String → Option (List Record))
    (fileName : String) (k : Int) (OutputfileName : String) (fuel : Nat) :
    Except (Fault × KMeans) KMeans :=
  let km0 : KMeans :=
    { K := k, samples := [], clusters := [], fileName := "", outputfileName := "" }
  if k ≤ 0 then .error (Fault.invalid_argument, km0)
  else
    let km1 := (km0.setFileName fileName).setOutputFileName OutputfileName
    match km1.loadSamples (files km1.getFileName) with
    | .error e => .error (e, km1)
    | .ok km2 =>
      match km2.initialize with
      | .error e => .error (e, km2)
      | .ok km3 =>
        match KMeans.updateKM pow2 fuel km3 with
        | .error e => .error (e, km3)
        | .ok km4 => .ok km4

/-! ### Specification-side notions over `double` -/

/-- The sum as the summation loop forms it: from 0, in list order, every addition
rounding. -/
def sum (l : List Double) : Double := l.foldl Double.add (.fin 0)

/-- The arithmetic mean as `calculateCenter` forms it: the rounded sum divided by the
count converted to `double`, the division rounding. -/
def mean (l : List Double) : Double := Double.div (sum l) (Double.ofNat l.length)

/-- The samples a cluster's member pointers point to, in member order. -/
def Cluster.members (mem : List Sample) (c : Cluster) : List Sample :=
  c.samples.filterMap (fun p => mem[p]?)

/-- Every member pointer of the cluster points into the vector `mem`. -/
def Cluster.ValidIn (mem : List Sample) (c : Cluster) : Prop :=
  ∀ p ∈ c.samples, p < mem.length

/-- The ids are the positions counted from 1, as `initialize` numbers the clusters:
`clusters[id - 1]` is the cluster with that id. -/
def IdsInOrder (cl : List Cluster) : Prop :=
  ∀ (i : Nat) (c : Cluster), cl[i]? = some c → c.clusterID = (i : Int) + 1

/-- What the scan reads of a cluster: id and center. -/
def Cluster.key (c : Cluster) : Int × Double × Double := (c.clusterID, c.centerX, c.centerY)

/-- The positions, from `j` on, of the samples of `l` that the scan over `cl` gives the
id `i + 1`. -/
def memberPositions (pow2 : Double → Double) (cl : List Cluster) (j : Nat)
    (l : List Sample) (i : Nat) : List Nat :=
  ((l.enumFrom j).filter
    (fun ps => decide ((nearestScan pow2 cl ps.2).2 = (i : Int) + 1))).map Prod.fst

/-- The sample with the label the scan over `cl` gives it. -/
def relabel (pow2 : Double → Double) (cl : List Cluster) (s : Sample) : Sample :=
  s.setClusterID (nearestScan pow2 cl s).2

/-- The cluster vector after an assignment pass over the samples `l`: the i-th cluster
holds the positions of the samples labelled `i + 1`, in load order. -/
def assignedClusters (pow2 : Double → Double) (cl : List Cluster) (l : List Sample) :
    List Cluster :=
  cl.enum.map (fun ic => { ic.2 with samples := memberPositions pow2 cl 0 l ic.1 })

/-- The cluster after `calculateCenter`. -/
def Cluster.recenter (mem : List Sample) (c : Cluster) : Cluster :=
  if c.samples.isEmpty then c
  else
    { c with
      centerX := mean ((c.members mem).map Sample.getX),
      centerY := mean ((c.members mem).map Sample.getY) }

/-- The result of `calculateCenter`: whether the center moved. -/
def Cluster.moved (mem : List Sample) (c : Cluster) : Bool :=
  !c.samples.isEmpty &&
    (Double.ne (mean ((c.members mem).map Sample.getX)) c.centerX ||
      Double.ne (mean ((c.members mem).map Sample.getY)) c.centerY)

/-- Every sample of `l` gets the id of a cluster of `cl` from the scan. -/
def AllAssigned (pow2 : Double → Double) (cl : List Cluster) (l : List Sample) : Prop :=
  ∀ s ∈ l, ∃ i : Nat, i < cl.length ∧ (nearestScan pow2 cl s).2 = (i : Int) + 1

/-- The coordinates of every sample are finite doubles, as `file >> x` stores them. -/
def FiniteSamples (l : List Sample) : Prop :=
  ∀ s ∈ l, s.x.isFinite = true ∧ s.y.isFinite = true

/-- No center is a NaN. -/
def CentersOrdered (cl : List Cluster) : Prop :=
  ∀ c ∈ cl, c.centerX ≠ .nan ∧ c.centerY ≠ .nan

/-- The coordinates of every sample are finite doubles that rounding gives back. -/
def ValueSamples (l : List Sample) : Prop :=
  ∀ s ∈ l, s.x.isValue = true ∧ s.y.isValue = true

/-- The code computes a distance above 0 from every sample to the seed `initialize`
takes from any other sample. -/
def Separated (pow2 : Double → Double) (l : List Sample) : Prop :=
  ∀ (i j : Nat) (s t : Sample), l[i]? = some s → l[j]? = some t → i ≠ j →
    Double.lt (.fin 0) (distance pow2 s (Cluster.ctor ((j : Int) + 1) t.getX t.getY)) = true

/-! ### The predicates above can be evaluated -/

instance (l : List Sample) : Decidable (ValueSamples l) :=
  inferInstanceAs (Decidable (∀ s ∈ l, s.x.isValue = true ∧ s.y.isValue = true))

instance (pow2 : Double → Double) (l : List Sample) : Decidable (Separated pow2 l) :=
  decidable_of_iff
    (∀ i ∈ List.range l.length, ∀ j ∈ List.range l.length, ∀ s ∈ l[i]?, ∀ t ∈ l[j]?, i ≠ j →
      Double.lt (.fin 0)
        (distance pow2 s (Cluster.ctor ((j : Int) + 1) t.getX t.getY)) = true)
    ⟨fun h i j s t hi hj hij =>
      h i (List.mem_range.2 (List.getElem?_eq_some_iff.1 hi).1)
        j (List.mem_range.2 (List.getElem?_eq_some_iff.1 hj).1) s hi t hj hij,
     fun h i _ j _ s hi t hj hij => h i j s t hi hj hij⟩

instance (mem : List Sample) (c : Cluster) : Decidable (c.ValidIn mem) :=
  inferInstanceAs (Decidable (∀ p ∈ c.samples, p < mem.length))

instance (l : List Sample) : Decidable (FiniteSamples l) :=
  inferInstanceAs (Decidable (∀ s ∈ l, s.x.isFinite = true ∧ s.y.isFinite = true))

end Binary64

/-! ### Example engines over `double` -/

/-- The engine after loading the records `1 0 1e-9`, `2 2 0`, `3 1 0`, `4 -1 2e-9` with
K = 2. -/
def nearTieLoaded : Binary64.KMeans :=
  { K := 2,
    samples := [⟨1, none, .fin 0, Double.ofRatio 1 1000000000⟩,
      ⟨2, none, Double.ofNat 2, .fin 0⟩, ⟨3, none, Double.ofNat 1, .fin 0⟩,
      ⟨4, none, Double.neg (Double.ofNat 1), Double.ofRatio 2 1000000000⟩],
    clusters := [], fileName := "in", outputfileName := "out" }

/-- That engine after `initialize`. -/
def nearTieSeeded : Binary64.KMeans :=
  { nearTieLoaded with
    clusters := [⟨1, .fin 0, Double.ofRatio 1 1000000000, []⟩, ⟨2, Double.ofNat 2, .fin 0, []⟩] }

/-- That engine after `updateKM`. -/
def nearTieFinal : Binary64.KMeans :=
  { nearTieLoaded with
    samples := [⟨1, some 1, .fin 0, Double.ofRatio 1 1000000000⟩,
      ⟨2, some 2, Double.ofNat 2, .fin 0⟩, ⟨3, some 1, Double.ofNat 1, .fin 0⟩,
      ⟨4, some 1, Double.neg (Double.ofNat 1), Double.ofRatio 2 1000000000⟩],
    clusters := [⟨1, .fin 0, Double.ofRatio 1 1000000000, [0, 2, 3]⟩,
      ⟨2, Double.ofNat 2, .fin 0, [1]⟩] }

/-- The engine after loading the records `1 0 0`, `2 0 0`, `3 1 0` with K = 1. -/
def thirdLoaded : Binary64.KMeans :=
  { K := 1,
    samples := [⟨1, none, .fin 0, .fin 0⟩, ⟨2, none, .fin 0, .fin 0⟩,
      ⟨3, none, Double.ofNat 1, .fin 0⟩],
    clusters := [], fileName := "in", outputfileName := "out" }

/-- That engine after `initialize`. -/
def thirdSeeded : Binary64.KMeans :=
  { thirdLoaded with clusters := [⟨1, .fin 0, .fin 0, []⟩] }

/-- That engine after `updateKM`; the center is at x = 0.3333333333333333, the double
6004799503160661 * 2^-54. -/
def thirdFinal : Binary64.KMeans :=
  { thirdLoaded with
    samples := [⟨1, some 1, .fin 0, .fin 0⟩, ⟨2, some 1, .fin 0, .fin 0⟩,
      ⟨3, some 1, Double.ofNat 1, .fin 0⟩],
    clusters := [⟨1, Double.dyadic 6004799503160661 (-54), .fin 0, [0, 1, 2]⟩] }

/-- The engine after loading the records `1 0.1 0`, `2 0.1 0`, `3 0.1 0` with K = 1. -/
def tenthLoaded : Binary64.KMeans :=
  { K := 1,
    samples := [⟨1, none, Double.ofRatio 1 10, .fin 0⟩, ⟨2, none, Double.ofRatio 1 10, .fin 0⟩,
      ⟨3, none, Double.ofRatio 1 10, .fin 0⟩],
    clusters := [], fileName := "in", outputfileName := "out" }

/-- That engine after `initialize`. -/
def tenthSeeded : Binary64.KMeans :=
  { tenthLoaded with clusters := [⟨1, Double.ofRatio 1 10, .fin 0, []⟩] }

/-- That engine after `updateKM`; the center is at x = 0.10000000000000002, the double
7205759403792795 * 2^-56, one spacing above the double 0.1. -/
def tenthFinal : Binary64.KMeans :=
  { tenthLoaded with
    samples := [⟨1, some 1, Double.ofRatio 1 10, .fin 0⟩, ⟨2, some 1, Double.ofRatio 1 10, .fin 0⟩,
      ⟨3, some 1, Double.ofRatio 1 10, .fin 0⟩],
    clusters := [⟨1, Double.dyadic 7205759403792795 (-56), .fin 0, [0, 1, 2]⟩] }

/-- The engine after loading the records `1 0 0`, `2 1 0` with K = 1. -/
def halfLoaded : Binary64.KMeans :=
  { K := 1, samples := [⟨1, none, .fin 0, .fin 0⟩, ⟨2, none, Double.ofNat 1, .fin 0⟩],
    clusters := [], fileName := "in", outputfileName := "out" }

/-- That engine after `initialize`. -/
def halfSeeded : Binary64.KMeans :=
  { halfLoaded with clusters := [⟨1, .fin 0, .fin 0, []⟩] }

/-- That engine after `updateKM`; the center is at x = 0.5. -/
def halfFinal : Binary64.KMeans :=
  { halfLoaded with
    samples := [⟨1, some 1, .fin 0, .fin 0⟩, ⟨2, some 1, Double.ofNat 1, .fin 0⟩],
    clusters := [⟨1, Double.dyadic 1 (-1), .fin 0, [0, 1]⟩] }

/-- The engine after loading the records `1 0.1 0`, `2 0.1 0`, `3 0.1 0` with K = 3. -/
def equalLoaded : Binary64.KMeans :=
  { tenthLoaded with K := 3 }

/-- That engine after `initialize`. -/
def equalSeeded : Binary64.KMeans :=
  { equalLoaded with
    clusters := [⟨1, Double.ofRatio 1 10, .fin 0, []⟩, ⟨2, Double.ofRatio 1 10, .fin 0, []⟩,
      ⟨3, Double.ofRatio 1 10, .fin 0, []⟩] }

/-- That engine after the first iteration of `updateKM`. -/
def equalFirst : Binary64.KMeans :=
  { equalLoaded with
    samples := [⟨1, some 1, Double.ofRatio 1 10, .fin 0⟩, ⟨2, some 1, Double.ofRatio 1 10, .fin 0⟩,
      ⟨3, some 1, Double.ofRatio 1 10, .fin 0⟩],
    clusters := [⟨1, Double.dyadic 7205759403792795 (-56), .fin 0, [0, 1, 2]⟩,
      ⟨2, Double.ofRatio 1 10, .fin 0, []⟩, ⟨3, Double.ofRatio 1 10, .fin 0, []⟩] }

/-- That engine after `updateKM`. -/
def equalFinal : Binary64.KMeans :=
  { equalLoaded with
    samples := [⟨1, some 1, Double.ofRatio 1 10, .fin 0⟩, ⟨2, some 1, Double.ofRatio 1 10, .fin 0⟩,
      ⟨3, some 1, Double.ofRatio 1 10, .fin 0⟩],
    clusters := [⟨1, Double.dyadic 7205759403792795 (-56), .fin 0, [0, 1, 2]⟩,
      ⟨2, Double.dyadic 7205759403792795 (-56), .fin 0, []⟩,
      ⟨3, Double.dyadic 7205759403792795 (-56), .fin 0, []⟩] }

/-- The engine after loading the records `1 0 0`, `2 1 0` with K = 2. -/
def apartLoaded : Binary64.KMeans :=
  { halfLoaded with K := 2 }

/-- The engine after loading the records `1 0 0`, `2 1e200 0` with K = 1 and after
`initialize`. -/
def hugeSeeded : Binary64.KMeans :=
  { K := 1,
    samples := [⟨1, none, .fin 0, .fin 0⟩, ⟨2, none, Double.ofRatio (10 ^ 200) 1, .fin 0⟩],
    clusters := [⟨1, .fin 0, .fin 0, []⟩], fileName := "in", outputfileName := "out" }

/-- The engine after loading the records `1 0 0`, `2 1e-200 0` with K = 2. -/
def tinyLoaded : Binary64.KMeans :=
  { K := 2,
    samples := [⟨1, none, .fin 0, .fin 0⟩, ⟨2, none, Double.ofRatio 1 (10 ^ 200), .fin 0⟩],
    clusters := [], fileName := "in", outputfileName := "out" }

/-- That engine after `initialize`. -/
def tinySeeded : Binary64.KMeans :=
  { tinyLoaded with
    clusters := [⟨1, .fin 0, .fin 0, []⟩, ⟨2, Double.ofRatio 1 (10 ^ 200), .fin 0, []⟩] }

/-- That engine after `updateKM`; the first center is at x = 5e-201. -/
def tinyFinal : Binary64.KMeans :=
  { tinyLoaded with
    samples := [⟨1, some 1, .fin 0, .fin 0⟩,
      ⟨2, some 1, Double.ofRatio 1 (10 ^ 200), .fin 0⟩],
    clusters := [⟨1, Double.dyadic 1723641332219371 (-716), .fin 0, [0, 1]⟩,
      ⟨2, Double.ofRatio 1 (10 ^ 200), .fin 0, []⟩] }

/-! ## Cluster: the summation loop and `calculateCenter` -/

theorem sumLoop_eq (mem : List Sample) (ps : List Nat) (acc : ℚ × ℚ)
    (h : ∀ p ∈ ps, p < mem.length) :
    Cluster.sumLoop mem ps acc =
      .ok (acc.1 + ((ps.filterMap (fun p => mem[p]?)).map Sample.x).sum,
           acc.2 + ((ps.filterMap (fun p => mem[p]?)).map Sample.y).sum) := by
  induction ps generalizing acc with
  | nil => simp [Cluster.sumLoop]
  | cons p ps ih =>
    have hp : p < mem.length := h p (List.mem_cons_self _ _)
    have hps : ∀ q ∈ ps, q < mem.length := fun q hq => h q (List.mem_cons_of_mem _ hq)
    have hget : mem[p]? = some mem[p] := List.getElem?_eq_getElem hp
    simp only [Cluster.sumLoop, hget, List.filterMap_cons, List.map_cons, List.sum_cons]
    rw [ih _ hps]
    simp [add_assoc]

theorem members_length (mem : List Sample) (c : Cluster) (h : c.ValidIn mem) :
    (c.members mem).length = c.samples.length := by
  unfold Cluster.members
  unfold Cluster.ValidIn at h
  generalize c.samples = ps at h
  induction ps with
  | nil => rfl
  | cons p ps ih =>
    have hp : p < mem.length := h p (List.mem_cons_self _ _)
    have hget : mem[p]? = some mem[p] := List.getElem?_eq_getElem hp
    simp [List.filterMap_cons, hget, ih (fun q hq => h q (List.mem_cons_of_mem _ hq))]

/-- The value of `calculateCenter` on a cluster with members. -/
theorem calculateCenter_eq (mem : List Sample) (c : Cluster)
    (hne : c.samples ≠ []) (hv : c.ValidIn mem) :
    c.calculateCenter mem =
      .ok (decide (((c.members mem).map Sample.x).sum / (c.samples.length : ℚ) ≠ c.centerX ∨
                   ((c.members mem).map Sample.y).sum / (c.samples.length : ℚ) ≠ c.centerY),
           { c with
             centerX := ((c.members mem).map Sample.x).sum / (c.samples.length : ℚ),
             centerY := ((c.members mem).map Sample.y).sum / (c.samples.length : ℚ) }) := by
  unfold Cluster.calculateCenter
  have he : c.samples.isEmpty = false := by
    cases hs : c.samples with
    | nil => exact absurd hs hne
    | cons a l => rfl
  rw [he, sumLoop_eq mem c.samples (0, 0) hv]
  simp [Cluster.members]

theorem calculateCenter_empty (mem : List Sample) (c : Cluster) (he : c.samples = []) :
    c.calculateCenter mem = .ok (false, c) := by
  unfold Cluster.calculateCenter
  simp [he]

/-- C3. On a cluster whose member list is empty `calculateCenter` returns false and
leaves the whole cluster, in particular `centerX` and `centerY`, as it was: the
division by the member count is not reached. -/
theorem calculateCenter_no_members (mem : List Sample) (c : Cluster) (he : c.samples = []) :
    ∃ c', c.calculateCenter mem = .ok (false, c') ∧
      c'.centerX = c.centerX ∧ c'.centerY = c.centerY ∧ c' = c :=
  ⟨c, calculateCenter_empty mem c he, rfl, rfl, rfl⟩

/-- C3 on a concrete input: an empty cluster seeded at (5, 7). -/
theorem calculateCenter_no_members_witness :
    ∃ c', Cluster.calculateCenter [⟨1, none, 1, 2⟩] ⟨1, 5, 7, []⟩ = .ok (false, c') ∧
      c'.centerX = 5 ∧ c'.centerY = 7 := by
  obtain ⟨c', h, hx, hy, -⟩ :=
    calculateCenter_no_members [⟨1, none, 1, 2⟩] ⟨1, 5, 7, []⟩ rfl
  exact ⟨c', h, hx, hy⟩

/-! ## KMeans: `initialize` -/

theorem initLoop_length (k : Int) (l : List Sample) : (initLoop k l).length = l.length := by
  induction l generalizing k with
  | nil => rfl
  | cons s l ih => simp [initLoop, ih]

theorem initLoop_getElem? (k : Int) (l : List Sample) (i : Nat) :
    (initLoop k l)[i]? = l[i]?.map (fun s => Cluster.ctor (k + i) s.x s.y) := by
  induction l generalizing k i with
  | nil => simp [initLoop]
  | cons s l ih =>
    cases i with
    | zero => simp [initLoop]
    | succ i =>
      simp only [initLoop, List.getElem?_cons_succ, ih]
      congr 1
      funext t
      push_cast
      congr 1
      ring

theorem initialize_eq (km : KMeans) (h0 : 0 ≤ km.K) (hN : km.K ≤ km.samples.length) :
    km.initialize =
      .ok { km with clusters := km.clusters ++ initLoop 1 (km.samples.take km.K.toNat) } := by
  unfold KMeans.initialize
  rw [if_neg]
  omega

/-- C4. On an engine holding N loaded samples and no cluster yet, with 1 ≤ K ≤ N,
`initialize` succeeds, changes nothing but the cluster vector, and leaves exactly K
clusters; the i-th of them (counting from 1) has id i, the coordinates of the i-th
loaded sample as its center, and no member. -/
theorem initialize_seeds (km : KMeans) (hc : km.clusters = [])
    (h1 : 1 ≤ km.K) (hN : km.K ≤ km.samples.length) :
    ∃ km', km.initialize = .ok km' ∧
      km'.samples = km.samples ∧ km'.K = km.K ∧
      (km'.clusters.length : Int) = km.K ∧
      ∀ i : Nat, i < km.K.toNat →
        ∃ s, km.samples[i]? = some s ∧
          km'.clusters[i]? = some
            { clusterID := (i : Int) + 1, centerX := s.x, centerY := s.y, samples := [] } := by
  refine ⟨_, initialize_eq km (by omega) hN, rfl, rfl, ?_, ?_⟩
  · simp only [hc, List.nil_append, initLoop_length, List.length_take]
    omega
  · intro i hi
    have hlt : i < km.samples.length := by omega
    refine ⟨km.samples[i], List.getElem?_eq_getElem hlt, ?_⟩
    simp only [hc, List.nil_append, initLoop_getElem?, List.getElem?_take_of_lt hi,
      List.getElem?_eq_getElem hlt, Option.map_some', Cluster.ctor]
    congr 2
    ring

/-- C4 on a concrete input: three loaded samples and K = 2. -/
theorem initialize_seeds_witness :
    ∃ km', KMeans.initialize
        { K := 2, samples := [⟨1, none, 0, 0⟩, ⟨2, none, 1, 0⟩, ⟨3, none, 10, 10⟩],
          clusters := [], fileName := "in", outputfileName := "out" } = .ok km' ∧
      km'.clusters = [⟨1, 0, 0, []⟩, ⟨2, 1, 0, []⟩] := by
  obtain ⟨km', h, -, -, hlen, hi⟩ := initialize_seeds
    { K := 2, samples := [⟨1, none, 0, 0⟩, ⟨2, none, 1, 0⟩, ⟨3, none, 10, 10⟩],
      clusters := [], fileName := "in", outputfileName := "out" } rfl (by decide) (by decide)
  refine ⟨km', h, ?_⟩
  obtain ⟨s0, hs0, hc0⟩ := hi 0 (by decide)
  obtain ⟨s1, hs1, hc1⟩ := hi 1 (by decide)
  simp at hs0 hs1
  subst hs0 hs1
  have hl : km'.clusters.length = 2 := by
    simp only at hlen
    exact_mod_cast hlen
  match hk : km'.clusters, hl with
  | [a, b], _ =>
    rw [hk] at hc0 hc1
    simp at hc0 hc1
    simp [hc0, hc1]

/-! ## KMeans: which faults the phases can raise -/

theorem sumLoop_fault (mem : List Sample) (ps : List Nat) (acc : ℚ × ℚ) (e : Fault)
    (h : Cluster.sumLoop mem ps acc = .error e) : e = Fault.out_of_range := by
  induction ps generalizing acc with
  | nil => simp [Cluster.sumLoop] at h
  | cons p ps ih =>
    simp only [Cluster.sumLoop] at h
    split at h
    · injection h with h; exact h.symm
    · exact ih _ h

theorem calculateCenter_fault (mem : List Sample) (c : Cluster) (e : Fault)
    (h : c.calculateCenter mem = .error e) : e = Fault.out_of_range := by
  unfold Cluster.calculateCenter at h
  split at h
  · simp at h
  · split at h
    · rename_i e' he
      injection h with h
      subst h
      exact sumLoop_fault _ _ _ _ he
    · simp at h

theorem centerLoop_fault (mem : List Sample) (cs : List Cluster) (b : Bool) (e : Fault)
    (h : centerLoop mem cs b = .error e) : e = Fault.out_of_range := by
  induction cs generalizing b with
  | nil => simp [centerLoop] at h
  | cons c cs ih =>
    simp only [centerLoop] at h
    split at h
    · rename_i e' he
      injection h with h
      subst h
      exact calculateCenter_fault _ _ _ he
    · split at h
      · rename_i e' he
        injection h with h
        subst h
        exact ih _ he
      · simp at h

theorem assignLoop_fault (j : Nat) (l : List Sample) (cs : List Cluster) (e : Fault)
    (h : assignLoop j l cs = .error e) : e = Fault.out_of_range := by
  induction l generalizing j cs with
  | nil => simp [assignLoop] at h
  | cons s l ih =>
    simp only [assignLoop] at h
    split at h
    · injection h with h; exact h.symm
    · split at h
      · rename_i e' he
        injection h with h
        subst h
        exact ih _ _ he
      · simp at h

theorem iteration_fault (km : KMeans) (e : Fault) (h : km.iteration = .error e) :
    e = Fault.out_of_range := by
  unfold KMeans.iteration KMeans.assignSamplesToClusters at h
  split at h
  · rename_i e' he
    split at he
    · rename_i e'' he'
      injection h with h
      injection he with he
      subst h he
      exact assignLoop_fault _ _ _ _ he'
    · simp at he
  · split at h
    · rename_i e' he
      injection h with h
      subst h
      exact centerLoop_fault _ _ _ _ he
    · simp at h

theorem updateKM_fault (fuel : Nat) (km : KMeans) (e : Fault)
    (h : KMeans.updateKM fuel km = .error e) :
    e = Fault.out_of_range ∨ e = Fault.out_of_fuel := by
  induction fuel generalizing km with
  | zero =>
    simp only [KMeans.updateKM] at h
    injection h with h
    exact Or.inr h.symm
  | succ n ih =>
    simp only [KMeans.updateKM] at h
    split at h
    · rename_i e' he
      injection h with h
      subst h
      exact Or.inl (iteration_fault _ _ he)
    · split at h
      · exact ih _ h
      · simp at h

/-! ## KMeans: the constructor -/

/-- C9. With K ≤ 0 the constructor throws `invalid_argument` whatever the file system
holds, and it is left with no sample loaded and no cluster created (nor a file name
stored); with K ≥ 1 the constructor never ends in `invalid_argument`. -/
theorem ctor_checks_K (files : String → Option (List Record)) (fileName : String) (k : Int)
    (OutputfileName : String) (fuel : Nat) :
    (k ≤ 0 → KMeans.ctor files fileName k OutputfileName fuel =
        .error (Fault.invalid_argument,
          { K := k, samples := [], clusters := [], fileName := "", outputfileName := "" })) ∧
    (1 ≤ k → ∀ km, KMeans.ctor files fileName k OutputfileName fuel ≠
        .error (Fault.invalid_argument, km)) := by
  constructor
  · intro hk
    simp [KMeans.ctor, hk]
  · intro hk km h
    have hk' : ¬ k ≤ 0 := by omega
    simp only [KMeans.ctor, hk', if_false] at h
    split at h
    · rename_i e he
      injection h with h
      injection h with h1 h2
      subst h1
      unfold KMeans.loadSamples at he
      split at he <;> simp at he
    · split at h
      · rename_i e he
        injection h with h
        injection h with h1 h2
        subst h1
        unfold KMeans.initialize at he
        split at he <;> simp at he
      · split at h
        · rename_i e he
          injection h with h
          injection h with h1 h2
          subst h1
          rcases updateKM_fault _ _ _ he with h' | h' <;> simp at h'
        · simp at h

/-- C9 on a concrete input: K = 0 and K = 1 on a file system with one readable file. -/
theorem ctor_checks_K_witness :
    KMeans.ctor (fun _ => some [(1, 0, 0)]) "in" 0 "out" 5 =
        .error (Fault.invalid_argument,
          { K := 0, samples := [], clusters := [], fileName := "", outputfileName := "" }) ∧
    ∀ km, KMeans.ctor (fun _ => some [(1, 0, 0)]) "in" 1 "out" 5 ≠
        .error (Fault.invalid_argument, km) :=
  ⟨(ctor_checks_K (fun _ => some [(1, 0, 0)]) "in" 0 "out" 5).1 (by decide),
   (ctor_checks_K (fun _ => some [(1, 0, 0)]) "in" 1 "out" 5).2 (by decide)⟩

/-- C10, the code at a failing input: two loaded samples and K = 3. The constructor does
not throw `invalid_argument`; it loads both samples and `initialize` then walks
`samples.begin() + 3` past the end of the vector. -/
theorem ctor_K_exceeds_samples :
    KMeans.ctor (fun _ => some [(1, 0, 0), (2, 1, 0)]) "in" 3 "out" 5 =
      .error (Fault.out_of_range,
        { K := 3, samples := [⟨1, none, 0, 0⟩, ⟨2, none, 1, 0⟩], clusters := [],
          fileName := "in", outputfileName := "out" }) := by
  simp [KMeans.ctor, KMeans.loadSamples, KMeans.initialize, KMeans.setFileName,
    KMeans.setOutputFileName, KMeans.getFileName, Sample.ctor]

/-! ## KMeans: the scan for the nearest center -/

theorem scan_fold (s : Sample) (cl : List Cluster) (acc : ℚ × Int) :
    (cl.foldl (scanStep s) acc = acc ∧ ∀ c ∈ cl, acc.1 ≤ distSq s c) ∨
    (∃ (i : Nat) (c : Cluster), cl[i]? = some c ∧
        cl.foldl (scanStep s) acc = (distSq s c, c.clusterID) ∧
        distSq s c < acc.1 ∧
        (∀ (i' : Nat) (c' : Cluster), i' < i → cl[i']? = some c' → distSq s c < distSq s c') ∧
        (∀ c' ∈ cl, distSq s c ≤ distSq s c')) := by
  induction cl generalizing acc with
  | nil => left; simp
  | cons c0 cl ih =>
    simp only [List.foldl_cons]
    by_cases hlt : distSq s c0 < acc.1
    · have hstep : scanStep s acc c0 = (distSq s c0, c0.clusterID) := by simp [scanStep, hlt]
      rw [hstep]
      right
      rcases ih (distSq s c0, c0.clusterID) with ⟨heq, hall⟩ | ⟨i, c, hi, heq, hlt', hearly, hall⟩
      · refine ⟨0, c0, by simp, heq, hlt, ?_, ?_⟩
        · intro i' c' hi'; omega
        · intro c' hc'
          rcases List.mem_cons.1 hc' with rfl | hc'
          · exact le_refl _
          · exact hall c' hc'
      · refine ⟨i + 1, c, by simpa using hi, heq, lt_trans hlt' hlt, ?_, ?_⟩
        · intro i' c' hi' hc'
          cases i' with
          | zero =>
            simp at hc'
            subst hc'
            exact hlt'
          | succ i' =>
            simp at hc'
            exact hearly i' c' (by omega) hc'
        · intro c' hc'
          rcases List.mem_cons.1 hc' with rfl | hc'
          · exact le_of_lt hlt'
          · exact hall c' hc'
    · have hstep : scanStep s acc c0 = acc := by simp [scanStep, hlt]
      rw [hstep]
      rcases ih acc with ⟨heq, hall⟩ | ⟨i, c, hi, heq, hlt', hearly, hall⟩
      · left
        refine ⟨heq, ?_⟩
        intro c' hc'
        rcases List.mem_cons.1 hc' with rfl | hc'
        · exact not_lt.1 hlt
        · exact hall c' hc'
      · right
        refine ⟨i + 1, c, by simpa using hi, heq, hlt', ?_, ?_⟩
        · intro i' c' hi' hc'
          cases i' with
          | zero =>
            simp at hc'
            subst hc'
            exact lt_of_lt_of_le hlt' (not_lt.1 hlt)
          | succ i' =>
            simp at hc'
            exact hearly i' c' (by omega) hc'
        · intro c' hc'
          rcases List.mem_cons.1 hc' with rfl | hc'
          · exact le_of_lt (lt_of_lt_of_le hlt' (not_lt.1 hlt))
          · exact hall c' hc'

/-- The scan from the sentinel. -/
theorem nearestScan_cases (s : Sample) (cl : List Cluster) :
    (nearestScan cl s = (maxDouble ^ 2, -1) ∧ ∀ c ∈ cl, maxDouble ^ 2 ≤ distSq s c) ∨
    (∃ (i : Nat) (c : Cluster), cl[i]? = some c ∧
        nearestScan cl s = (distSq s c, c.clusterID) ∧
        distSq s c < maxDouble ^ 2 ∧
        (∀ (i' : Nat) (c' : Cluster), i' < i → cl[i']? = some c' → distSq s c < distSq s c') ∧
        (∀ c' ∈ cl, distSq s c ≤ distSq s c')) :=
  scan_fold s cl (maxDouble ^ 2, -1)

/-! ## KMeans: the sample loop of the assignment pass -/

theorem scan_fold_keys (s : Sample) (cl : List Cluster) (acc : ℚ × Int) :
    cl.foldl (scanStep s) acc =
      (cl.map Cluster.key).foldl
        (fun a k => if (s.x - k.2.1) ^ 2 + (s.y - k.2.2) ^ 2 < a.1
          then ((s.x - k.2.1) ^ 2 + (s.y - k.2.2) ^ 2, k.1) else a) acc := by
  rw [List.foldl_map]
  rfl

theorem nearestScan_congr (s s' : Sample) (cl cl' : List Cluster)
    (hk : cl.map Cluster.key = cl'.map Cluster.key) (hx : s.x = s'.x) (hy : s.y = s'.y) :
    nearestScan cl s = nearestScan cl' s' := by
  unfold nearestScan
  rw [scan_fold_keys, scan_fold_keys, hk, hx, hy]

theorem map_key_modify (cl : List Cluster) (f : Cluster → Cluster) (i : Nat)
    (hf : ∀ c, (f c).key = c.key) :
    (cl.modify f i).map Cluster.key = cl.map Cluster.key := by
  apply List.ext_getElem?
  intro n
  simp only [List.getElem?_map, List.getElem?_modify]
  cases cl[n]? with
  | none => rfl
  | some c =>
    simp only [Option.map_eq_map, Option.map_some']
    split <;> simp [hf]

theorem nearestScan_modify (s : Sample) (cl : List Cluster) (j i : Nat) :
    nearestScan (cl.modify (fun c => c.addSample j) i) s = nearestScan cl s :=
  nearestScan_congr s s _ _ (map_key_modify cl _ i (fun c => rfl)) rfl rfl

theorem memberPositions_nil (cl : List Cluster) (j i : Nat) : memberPositions cl j [] i = [] := rfl

theorem memberPositions_cons (cl : List Cluster) (j : Nat) (s : Sample) (l : List Sample)
    (i : Nat) :
    memberPositions cl j (s :: l) i =
      (if (nearestScan cl s).2 = (i : Int) + 1 then [j] else []) ++
        memberPositions cl (j + 1) l i := by
  unfold memberPositions
  simp only [List.enumFrom_cons, List.filter_cons]
  split <;> rename_i h <;> simp at h <;> simp [h]

theorem memberPositions_congr (cl cl' : List Cluster) (j : Nat) (l : List Sample) (i : Nat)
    (h : ∀ s, nearestScan cl s = nearestScan cl' s) :
    memberPositions cl j l i = memberPositions cl' j l i := by
  unfold memberPositions
  simp [h]

/-- What a completed run of the sample loop has done. -/
theorem assignLoop_ok (j : Nat) (l : List Sample) (cl : List Cluster)
    (l' : List Sample) (cl' : List Cluster) (h : assignLoop j l cl = .ok (l', cl')) :
    l' = l.map (fun s => s.setClusterID (nearestScan cl s).2) ∧
    (∀ s ∈ l, ∃ i : Nat, i < cl.length ∧ (nearestScan cl s).2 = (i : Int) + 1) ∧
    ∀ i : Nat, cl'[i]? =
      (cl[i]?).map (fun c => { c with samples := c.samples ++ memberPositions cl j l i }) := by
  induction l generalizing j cl l' cl' with
  | nil =>
    simp only [assignLoop] at h
    injection h with h
    injection h with h1 h2
    subst h1 h2
    refine ⟨rfl, by simp, ?_⟩
    intro i
    cases cl[i]? <;> simp [memberPositions_nil]
  | cons s l ih =>
    simp only [assignLoop] at h
    split at h
    · simp at h
    · rename_i hcond
      split at h
      · simp at h
      · rename_i rest' cl1 hrec
        injection h with h
        injection h with h1 h2
        subst h1 h2
        obtain ⟨hl, hall, hcl⟩ := ih _ _ _ _ hrec
        have hb0 : ¬ ((nearestScan cl s).2 - 1 < 0) := fun hc => hcond (Or.inl hc)
        have hb1 : ((nearestScan cl s).2 - 1).toNat < cl.length := by
          by_contra hc
          exact hcond (Or.inr (not_lt.1 hc))
        have hb : (nearestScan cl s).2 = (((nearestScan cl s).2 - 1).toNat : Int) + 1 := by
          omega
        have hscan : ∀ t, nearestScan (cl.modify (fun c => c.addSample j)
            ((nearestScan cl s).2 - 1).toNat) t = nearestScan cl t :=
          fun t => nearestScan_modify t cl j _
        refine ⟨?_, ?_, ?_⟩
        · rw [hl]
          simp only [List.map_cons, hscan]
        · intro t ht
          rcases List.mem_cons.1 ht with rfl | ht
          · exact ⟨_, hb1, hb⟩
          · obtain ⟨i, hi, hbi⟩ := hall t ht
            rw [List.length_modify] at hi
            rw [hscan] at hbi
            exact ⟨i, hi, hbi⟩
        · intro i
          rw [hcl i, List.getElem?_modify, memberPositions_cons,
            memberPositions_congr _ _ _ _ _ hscan]
          cases cl[i]? with
          | none => rfl
          | some c =>
            simp only [Option.map_eq_map, Option.map_some']
            congr 1
            by_cases hi : ((nearestScan cl s).2 - 1).toNat = i
            · have : (nearestScan cl s).2 = (i : Int) + 1 := by omega
              rw [if_pos hi, if_pos this]
              simp [Cluster.addSample]
            · have : ¬ (nearestScan cl s).2 = (i : Int) + 1 := by omega
              rw [if_neg hi, if_neg this]
              simp

/-- When the sample loop completes. -/
theorem assignLoop_total (j : Nat) (l : List Sample) (cl : List Cluster)
    (h : ∀ s ∈ l, ∃ i : Nat, i < cl.length ∧ (nearestScan cl s).2 = (i : Int) + 1) :
    ∃ l' cl', assignLoop j l cl = .ok (l', cl') := by
  induction l generalizing j cl with
  | nil => exact ⟨[], cl, rfl⟩
  | cons s l ih =>
    obtain ⟨i, hi, hb⟩ := h s (List.mem_cons_self _ _)
    have hcond : ¬ ((nearestScan cl s).2 - 1 < 0 ∨
        cl.length ≤ ((nearestScan cl s).2 - 1).toNat) := by
      omega
    have hrest : ∀ t ∈ l, ∃ i : Nat,
        i < (cl.modify (fun c => c.addSample j) ((nearestScan cl s).2 - 1).toNat).length ∧
        (nearestScan (cl.modify (fun c => c.addSample j)
          ((nearestScan cl s).2 - 1).toNat) t).2 = (i : Int) + 1 := by
      intro t ht
      obtain ⟨i, hi, hb⟩ := h t (List.mem_cons_of_mem _ ht)
      exact ⟨i, by rw [List.length_modify]; exact hi, by rw [nearestScan_modify]; exact hb⟩
    obtain ⟨l', cl', hrec⟩ := ih (j + 1) _ hrest
    refine ⟨s.setClusterID (nearestScan cl s).2 :: l', cl', ?_⟩
    simp only [assignLoop, if_neg hcond, hrec]

/-! ## KMeans: one iteration in closed form -/

theorem calculateCenter_recenter (mem : List Sample) (c : Cluster) (hv : c.ValidIn mem) :
    c.calculateCenter mem = .ok (c.moved mem, c.recenter mem) := by
  by_cases he : c.samples = []
  · rw [calculateCenter_empty mem c he]
    simp [Cluster.moved, Cluster.recenter, he]
  · rw [calculateCenter_eq mem c he hv]
    have he' : c.samples.isEmpty = false := by
      cases hs : c.samples with
      | nil => exact absurd hs he
      | cons a l => rfl
    simp [Cluster.moved, Cluster.recenter, he']

theorem centerLoop_eq (mem : List Sample) (cs : List Cluster) (b : Bool)
    (hv : ∀ c ∈ cs, c.ValidIn mem) :
    centerLoop mem cs b =
      .ok (b || cs.any (fun c => c.moved mem), cs.map (fun c => c.recenter mem)) := by
  induction cs generalizing b with
  | nil => simp [centerLoop]
  | cons c cs ih =>
    simp only [centerLoop, calculateCenter_recenter mem c (hv c (List.mem_cons_self _ _))]
    rw [ih _ (fun c' hc' => hv c' (List.mem_cons_of_mem _ hc'))]
    cases b <;> cases hm : c.moved mem <;> simp [hm]

theorem nearestScan_clear (cl : List Cluster) (s : Sample) :
    nearestScan (cl.map Cluster.clearSamples) s = nearestScan cl s := by
  apply nearestScan_congr _ _ _ _ _ rfl rfl
  rw [List.map_map]
  rfl

theorem assignedClusters_getElem? (cl : List Cluster) (l : List Sample) (i : Nat) :
    (assignedClusters cl l)[i]? =
      (cl[i]?).map (fun c => { c with samples := memberPositions cl 0 l i }) := by
  unfold assignedClusters
  rw [List.getElem?_map, List.enum, List.getElem?_enumFrom]
  cases cl[i]? <;> simp

theorem assignedClusters_length (cl : List Cluster) (l : List Sample) :
    (assignedClusters cl l).length = cl.length := by
  simp [assignedClusters, List.enum]

/-- The assignment pass in closed form, when every sample finds a cluster. -/
theorem assign_eq (km : KMeans) (h : AllAssigned km.clusters km.samples) :
    km.assignSamplesToClusters =
      .ok { km with samples := km.samples.map (relabel km.clusters),
                    clusters := assignedClusters km.clusters km.samples } := by
  have h' : ∀ s ∈ km.samples, ∃ i : Nat, i < (km.clusters.map Cluster.clearSamples).length ∧
      (nearestScan (km.clusters.map Cluster.clearSamples) s).2 = (i : Int) + 1 := by
    intro s hs
    obtain ⟨i, hi, hb⟩ := h s hs
    exact ⟨i, by simpa using hi, by rw [nearestScan_clear]; exact hb⟩
  obtain ⟨l', cl', hrun⟩ := assignLoop_total 0 km.samples _ h'
  obtain ⟨hl, -, hcl⟩ := assignLoop_ok _ _ _ _ _ hrun
  unfold KMeans.assignSamplesToClusters
  rw [hrun]
  simp only
  congr 2
  · rw [hl]
    apply List.map_congr_left
    intro s _
    simp [relabel, nearestScan_clear]
  · apply List.ext_getElem?
    intro i
    rw [hcl i, assignedClusters_getElem?, List.getElem?_map,
      memberPositions_congr _ _ _ _ _ (nearestScan_clear km.clusters)]
    cases km.clusters[i]? <;> simp [Cluster.clearSamples]

/-- A completed assignment pass has found a cluster for every sample. -/
theorem assign_ok_allAssigned (km km1 : KMeans) (h : km.assignSamplesToClusters = .ok km1) :
    AllAssigned km.clusters km.samples := by
  unfold KMeans.assignSamplesToClusters at h
  split at h
  · simp at h
  · rename_i l' cl' hrun
    obtain ⟨-, hall, -⟩ := assignLoop_ok _ _ _ _ _ hrun
    intro s hs
    obtain ⟨i, hi, hb⟩ := hall s hs
    exact ⟨i, by simpa using hi, by rw [nearestScan_clear] at hb; exact hb⟩

theorem memberPositions_lt (cl : List Cluster) (j : Nat) (l : List Sample) (i : Nat) :
    ∀ p ∈ memberPositions cl j l i, p < j + l.length := by
  intro p hp
  unfold memberPositions at hp
  rw [List.mem_map] at hp
  obtain ⟨⟨q, s⟩, hq, rfl⟩ := hp
  have := List.mem_enumFrom (List.mem_of_mem_filter hq)
  exact this.2.1

theorem assignedClusters_valid (cl : List Cluster) (l l' : List Sample)
    (hlen : l'.length = l.length) :
    ∀ c ∈ assignedClusters cl l, c.ValidIn l' := by
  intro c hc
  obtain ⟨i, hi⟩ := List.getElem?_of_mem hc
  rw [assignedClusters_getElem?] at hi
  cases hci : cl[i]? with
  | none => simp [hci] at hi
  | some c0 =>
    simp [hci] at hi
    subst hi
    intro p hp
    have := memberPositions_lt cl 0 l i p hp
    omega

/-- One iteration in closed form, when every sample finds a cluster. -/
theorem iteration_eq (km : KMeans) (h : AllAssigned km.clusters km.samples) :
    km.iteration =
      .ok ((assignedClusters km.clusters km.samples).any
              (fun c => c.moved (km.samples.map (relabel km.clusters))),
           { km with
             samples := km.samples.map (relabel km.clusters),
             clusters := (assignedClusters km.clusters km.samples).map
               (fun c => c.recenter (km.samples.map (relabel km.clusters))) }) := by
  unfold KMeans.iteration
  rw [assign_eq km h]
  simp only
  rw [centerLoop_eq _ _ _ (assignedClusters_valid _ _ _ (by simp))]
  simp

/-- A completed iteration has found a cluster for every sample. -/
theorem iteration_ok_allAssigned (km : KMeans) (r : Bool × KMeans)
    (h : km.iteration = .ok r) : AllAssigned km.clusters km.samples := by
  unfold KMeans.iteration at h
  split at h
  · simp at h
  · rename_i km1 h1
    exact assign_ok_allAssigned km km1 h1

/-! ## KMeans: members and centers after an iteration -/

theorem getElem?_mid {α β : Type} (f : α → β) (pre l : List α) (s : α) :
    ((pre ++ s :: l).map f)[pre.length]? = some (f s) := by
  rw [List.getElem?_map, List.getElem?_append_right (le_refl _)]
  simp

theorem members_positions (f : Sample → Sample) (cl : List Cluster) (pre l : List Sample)
    (i : Nat) :
    (memberPositions cl pre.length l i).filterMap (fun p => ((pre ++ l).map f)[p]?) =
      (labelled cl l i).map f := by
  induction l generalizing pre with
  | nil => simp [memberPositions_nil, labelled]
  | cons s l ih =>
    have hrec := ih (pre ++ [s])
    simp only [List.length_append, List.length_singleton, List.append_assoc,
      List.singleton_append] at hrec
    rw [memberPositions_cons]
    unfold labelled at hrec ⊢
    rw [List.filterMap_append, hrec, List.filter_cons]
    by_cases hb : (nearestScan cl s).2 = (i : Int) + 1
    · simp only [hb, if_true, List.filterMap_cons, getElem?_mid, List.filterMap_nil,
        decide_True, List.map_cons, List.singleton_append]
    · simp [hb]

theorem assigned_members (cl : List Cluster) (l : List Sample) (i : Nat) (c : Cluster)
    (hc : (assignedClusters cl l)[i]? = some c) :
    c.members (l.map (relabel cl)) = (labelled cl l i).map (relabel cl) := by
  rw [assignedClusters_getElem?] at hc
  cases hci : cl[i]? with
  | none => simp [hci] at hc
  | some c0 =>
    simp [hci] at hc
    subst hc
    have := members_positions (relabel cl) cl [] l i
    simpa [Cluster.members] using this

theorem memberPositions_length (cl : List Cluster) (l : List Sample) (i : Nat) :
    (memberPositions cl 0 l i).length = (labelled cl l i).length := by
  have hv : Cluster.ValidIn l ⟨0, 0, 0, memberPositions cl 0 l i⟩ := by
    intro p hp
    have := memberPositions_lt cl 0 l i p hp
    omega
  have h1 := members_length l ⟨0, 0, 0, memberPositions cl 0 l i⟩ hv
  have h2 := members_positions id cl [] l i
  simp only [List.length_nil, List.nil_append, List.map_id] at h2
  simp only [Cluster.members] at h1
  rw [h2] at h1
  exact h1.symm

theorem relabel_x (cl : List Cluster) (V : List Sample) :
    (V.map (relabel cl)).map Sample.x = V.map Sample.x := by
  rw [List.map_map]
  rfl

theorem relabel_y (cl : List Cluster) (V : List Sample) :
    (V.map (relabel cl)).map Sample.y = V.map Sample.y := by
  rw [List.map_map]
  rfl

/-- The i-th cluster after an iteration. -/
theorem nextClusters_getElem? (cl : List Cluster) (l : List Sample) (i : Nat) :
    (nextClusters cl l)[i]? =
      (cl[i]?).map (fun c =>
        { clusterID := c.clusterID,
          centerX := (nextCenter cl l i c).1,
          centerY := (nextCenter cl l i c).2,
          samples := memberPositions cl 0 l i }) := by
  unfold nextClusters
  rw [List.getElem?_map]
  cases hA : (assignedClusters cl l)[i]? with
  | none =>
    rw [assignedClusters_getElem?] at hA
    cases hci : cl[i]? with
    | none => rfl
    | some c0 => simp [hci] at hA
  | some cA =>
    have hm := assigned_members cl l i cA hA
    rw [assignedClusters_getElem?] at hA
    cases hci : cl[i]? with
    | none => simp [hci] at hA
    | some c0 =>
      simp [hci] at hA
      subst hA
      simp only [Option.map_some']
      congr 1
      have hlen := memberPositions_length cl l i
      by_cases he : labelled cl l i = []
      · have hp : memberPositions cl 0 l i = [] := by
          apply List.eq_nil_of_length_eq_zero
          rw [hlen, he]
          rfl
        simp [Cluster.recenter, nextCenter, he, hp]
      · have hp : (memberPositions cl 0 l i).isEmpty = false := by
          cases hmp : memberPositions cl 0 l i with
          | nil =>
            rw [hmp] at hlen
            exact absurd (List.eq_nil_of_length_eq_zero hlen.symm) he
          | cons a b => rfl
        simp only [Cluster.recenter, hp, nextCenter, he, if_false, hm, relabel_x, relabel_y,
          meanX, meanY, hlen]
        simp

theorem nextClusters_length (cl : List Cluster) (l : List Sample) :
    (nextClusters cl l).length = cl.length := by
  simp [nextClusters, assignedClusters_length]

/-- The flag of an iteration is set exactly when some center differs afterwards. -/
theorem any_moved_iff (cl : List Cluster) (l : List Sample) :
    (assignedClusters cl l).any (fun c => c.moved (l.map (relabel cl))) = true ↔
      ∃ (i : Nat) (c : Cluster), cl[i]? = some c ∧
        nextCenter cl l i c ≠ (c.centerX, c.centerY) := by
  rw [List.any_eq_true]
  constructor
  · rintro ⟨cA, hmem, hmoved⟩
    obtain ⟨i, hi⟩ := List.getElem?_of_mem hmem
    have hn := nextClusters_getElem? cl l i
    unfold nextClusters at hn
    rw [List.getElem?_map, hi] at hn
    rw [assignedClusters_getElem?] at hi
    cases hci : cl[i]? with
    | none => simp [hci] at hi
    | some c0 =>
      simp only [hci, Option.map_some', Option.some.injEq] at hi hn
      refine ⟨i, c0, hci, ?_⟩
      subst hi
      simp only [Cluster.moved, hn, decide_eq_true_eq] at hmoved
      intro heq
      rw [heq] at hmoved
      simp at hmoved
  · rintro ⟨i, c0, hci, hne⟩
    have hA : (assignedClusters cl l)[i]? =
        some { c0 with samples := memberPositions cl 0 l i } := by
      rw [assignedClusters_getElem?, hci]
      rfl
    refine ⟨_, List.getElem?_mem hA, ?_⟩
    have hn := nextClusters_getElem? cl l i
    unfold nextClusters at hn
    rw [List.getElem?_map, hA, hci] at hn
    simp only [Option.map_some', Option.some.injEq] at hn
    simp only [Cluster.moved, hn, decide_eq_true_eq]
    by_contra hcon
    push_neg at hcon
    apply hne
    exact Prod.ext hcon.1 hcon.2

/-! ## The sum of the squared distances -/

theorem sum_sq_expand (xs : List ℚ) (c : ℚ) :
    (xs.map (fun x => (x - c) ^ 2)).sum =
      (xs.map (fun x => x ^ 2)).sum - 2 * c * xs.sum + (xs.length : ℚ) * c ^ 2 := by
  induction xs with
  | nil => simp
  | cons x xs ih =>
    simp only [List.map_cons, List.sum_cons, List.length_cons, ih]
    push_cast
    ring

theorem sum_sq_mean (xs : List ℚ) (hne : xs ≠ []) (c : ℚ) :
    (xs.map (fun x => (x - c) ^ 2)).sum =
      (xs.map (fun x => (x - xs.sum / (xs.length : ℚ)) ^ 2)).sum +
        (xs.length : ℚ) * (xs.sum / (xs.length : ℚ) - c) ^ 2 := by
  have hn : (xs.length : ℚ) ≠ 0 := by
    have : xs.length ≠ 0 := fun h => hne (List.eq_nil_of_length_eq_zero h)
    exact_mod_cast this
  have hS : xs.sum = xs.sum / (xs.length : ℚ) * (xs.length : ℚ) := by
    field_simp
  rw [sum_sq_expand xs c, sum_sq_expand xs (xs.sum / (xs.length : ℚ))]
  generalize xs.sum / (xs.length : ℚ) = m at hS ⊢
  generalize xs.sum = S at hS ⊢
  linear_combination (2 * (m - c)) * hS

theorem sum_distSq_split (V : List Sample) (c : Cluster) :
    (V.map (fun s => distSq s c)).sum =
      ((V.map Sample.x).map (fun x => (x - c.centerX) ^ 2)).sum +
        ((V.map Sample.y).map (fun y => (y - c.centerY) ^ 2)).sum := by
  rw [List.map_map, List.map_map, ← List.sum_map_add]
  rfl

/-- Moving the center of a non-empty list of samples to their mean lowers the sum of the
squared distances by the member count times the squared length of the move. -/
theorem sum_distSq_mean (V : List Sample) (hne : V ≠ []) (c c' : Cluster)
    (hx : c'.centerX = meanX V) (hy : c'.centerY = meanY V) :
    (V.map (fun s => distSq s c)).sum =
      (V.map (fun s => distSq s c')).sum +
        (V.length : ℚ) * ((c'.centerX - c.centerX) ^ 2 + (c'.centerY - c.centerY) ^ 2) := by
  have hxne : V.map Sample.x ≠ [] := by simpa using hne
  have hyne : V.map Sample.y ≠ [] := by simpa using hne
  rw [sum_distSq_split V c, sum_distSq_split V c', sum_sq_mean _ hxne c.centerX,
    sum_sq_mean _ hyne c.centerY, hx, hy]
  simp only [meanX, meanY, List.length_map]
  ring

theorem sum_regroup (b : Sample → Int) (K : Nat) (g : Nat → Sample → ℚ) (l : List Sample)
    (h : ∀ s ∈ l, ∃ i : Nat, i < K ∧ b s = (i : Int) + 1) :
    (l.map (fun s => g (b s - 1).toNat s)).sum =
      Finset.sum (Finset.range K)
        (fun i => ((l.filter (fun s => decide (b s = (i : Int) + 1))).map (g i)).sum) := by
  induction l with
  | nil => simp
  | cons s l ih =>
    obtain ⟨i0, hi0, hb⟩ := h s (List.mem_cons_self _ _)
    have hstep : ∀ i : Nat,
        (((s :: l).filter (fun s => decide (b s = (i : Int) + 1))).map (g i)).sum =
          (if i0 = i then g i s else 0) +
            ((l.filter (fun s => decide (b s = (i : Int) + 1))).map (g i)).sum := by
      intro i
      rw [List.filter_cons]
      by_cases hi : i0 = i
      · have : b s = (i : Int) + 1 := by omega
        simp [hi, this]
      · have : ¬ b s = (i : Int) + 1 := by omega
        simp [hi, this]
    simp only [hstep, Finset.sum_add_distrib, List.map_cons, List.sum_cons,
      ih (fun t ht => h t (List.mem_cons_of_mem _ ht))]
    congr 1
    rw [Finset.sum_ite_eq, if_pos (Finset.mem_range.2 hi0)]
    congr 1
    omega

/-! ## The cost does not grow over an iteration -/

theorem scan_min_le (cl : List Cluster) (s : Sample) (c : Cluster) (hc : c ∈ cl) :
    (nearestScan cl s).1 ≤ distSq s c := by
  rcases nearestScan_cases s cl with ⟨heq, hall⟩ | ⟨i, c0, -, heq, -, -, hall⟩
  · rw [heq]; exact hall c hc
  · rw [heq]; exact hall c hc

theorem scan_eq_distTo (cl : List Cluster) (s : Sample) (hids : IdsInOrder cl)
    (hb : ∃ i : Nat, i < cl.length ∧ (nearestScan cl s).2 = (i : Int) + 1) :
    (nearestScan cl s).1 = distTo cl ((nearestScan cl s).2 - 1).toNat s := by
  rcases nearestScan_cases s cl with ⟨heq, -⟩ | ⟨i, c0, hi, heq, -, -, -⟩
  · obtain ⟨i, -, hbi⟩ := hb
    rw [heq] at hbi
    simp at hbi
    omega
  · have hid := hids i c0 hi
    rw [heq]
    simp only [hid]
    have : ((i : Int) + 1 - 1).toNat = i := by omega
    rw [this]
    simp [distTo, hi]

theorem cost_relabel (cl cl' : List Cluster) (l : List Sample) :
    cost cl' (l.map (relabel cl)) = cost cl' l := by
  unfold cost
  rw [List.map_map]
  congr 1

theorem labelled_sum_le (cl : List Cluster) (l : List Sample) (i : Nat) :
    ((labelled cl l i).map (distTo (nextClusters cl l) i)).sum ≤
      ((labelled cl l i).map (distTo cl i)).sum := by
  cases hci : cl[i]? with
  | none =>
    have h1 : distTo cl i = fun _ => 0 := by
      funext s; simp [distTo, hci]
    have h2 : distTo (nextClusters cl l) i = fun _ => 0 := by
      funext s; simp [distTo, nextClusters_getElem?, hci]
    rw [h1, h2]
  | some c =>
    have h1 : distTo cl i = fun s => distSq s c := by
      funext s; simp [distTo, hci]
    have h2 : distTo (nextClusters cl l) i = fun s => distSq s
        { clusterID := c.clusterID,
          centerX := (nextCenter cl l i c).1,
          centerY := (nextCenter cl l i c).2,
          samples := memberPositions cl 0 l i } := by
      funext s; simp [distTo, nextClusters_getElem?, hci]
    rw [h1, h2]
    by_cases he : labelled cl l i = []
    · simp [he]
    · rw [sum_distSq_mean (labelled cl l i) he c
        { clusterID := c.clusterID,
          centerX := (nextCenter cl l i c).1,
          centerY := (nextCenter cl l i c).2,
          samples := memberPositions cl 0 l i } (by simp [nextCenter, he])
        (by simp [nextCenter, he])]
      have hn : (0 : ℚ) ≤ ((labelled cl l i).length : ℚ) := by positivity
      nlinarith [mul_nonneg hn (add_nonneg (sq_nonneg ((nextCenter cl l i c).1 - c.centerX))
        (sq_nonneg ((nextCenter cl l i c).2 - c.centerY)))]

theorem labelled_sum_lt (cl : List Cluster) (l : List Sample) (i : Nat) (c : Cluster)
    (hci : cl[i]? = some c) (hne : nextCenter cl l i c ≠ (c.centerX, c.centerY)) :
    ((labelled cl l i).map (distTo (nextClusters cl l) i)).sum <
      ((labelled cl l i).map (distTo cl i)).sum := by
  have h1 : distTo cl i = fun s => distSq s c := by
    funext s; simp [distTo, hci]
  have h2 : distTo (nextClusters cl l) i = fun s => distSq s
      { clusterID := c.clusterID,
        centerX := (nextCenter cl l i c).1,
        centerY := (nextCenter cl l i c).2,
        samples := memberPositions cl 0 l i } := by
    funext s; simp [distTo, nextClusters_getElem?, hci]
  rw [h1, h2]
  have he : labelled cl l i ≠ [] := by
    intro he
    apply hne
    simp [nextCenter, he]
  rw [sum_distSq_mean (labelled cl l i) he c
    { clusterID := c.clusterID,
      centerX := (nextCenter cl l i c).1,
      centerY := (nextCenter cl l i c).2,
      samples := memberPositions cl 0 l i } (by simp [nextCenter, he])
    (by simp [nextCenter, he])]
  have hn : (0 : ℚ) < ((labelled cl l i).length : ℚ) := by
    have : (labelled cl l i).length ≠ 0 := fun h => he (List.eq_nil_of_length_eq_zero h)
    have : 0 < (labelled cl l i).length := Nat.pos_of_ne_zero this
    exact_mod_cast this
  have hpos : 0 < ((nextCenter cl l i c).1 - c.centerX) ^ 2 +
      ((nextCenter cl l i c).2 - c.centerY) ^ 2 := by
    by_contra hcon
    have hz : ((nextCenter cl l i c).1 - c.centerX) ^ 2 +
        ((nextCenter cl l i c).2 - c.centerY) ^ 2 = 0 :=
      le_antisymm (not_lt.1 hcon)
        (add_nonneg (sq_nonneg _) (sq_nonneg _))
    have hx : (nextCenter cl l i c).1 - c.centerX = 0 := by
      nlinarith [sq_nonneg ((nextCenter cl l i c).1 - c.centerX),
        sq_nonneg ((nextCenter cl l i c).2 - c.centerY)]
    have hy : (nextCenter cl l i c).2 - c.centerY = 0 := by
      nlinarith [sq_nonneg ((nextCenter cl l i c).1 - c.centerX),
        sq_nonneg ((nextCenter cl l i c).2 - c.centerY)]
    apply hne
    exact Prod.ext (by simpa using sub_eq_zero.1 hx) (by simpa using sub_eq_zero.1 hy)
  have := mul_pos hn hpos
  simp only at this ⊢
  linarith

/-- The cost after an iteration is at most the cost before it, and smaller when a center
has moved. -/
theorem cost_next (cl : List Cluster) (l : List Sample) (hids : IdsInOrder cl)
    (hall : AllAssigned cl l) :
    cost (nextClusters cl l) (l.map (relabel cl)) ≤ cost cl l ∧
    ((∃ (i : Nat) (c : Cluster), cl[i]? = some c ∧
        nextCenter cl l i c ≠ (c.centerX, c.centerY)) →
      cost (nextClusters cl l) (l.map (relabel cl)) < cost cl l) := by
  have hA : cost cl l =
      Finset.sum (Finset.range cl.length)
        (fun i => ((labelled cl l i).map (distTo cl i)).sum) := by
    unfold labelled
    rw [← sum_regroup (fun s => (nearestScan cl s).2) cl.length (distTo cl) l hall]
    unfold cost
    congr 1
    apply List.map_congr_left
    intro s hs
    exact scan_eq_distTo cl s hids (hall s hs)
  have hB : cost (nextClusters cl l) (l.map (relabel cl)) ≤
      Finset.sum (Finset.range cl.length)
        (fun i => ((labelled cl l i).map (distTo (nextClusters cl l) i)).sum) := by
    unfold labelled
    rw [cost_relabel,
      ← sum_regroup (fun s => (nearestScan cl s).2) cl.length (distTo (nextClusters cl l)) l hall]
    unfold cost
    apply List.sum_le_sum
    intro s hs
    obtain ⟨i, hi, hb⟩ := hall s hs
    have hidx : ((nearestScan cl s).2 - 1).toNat = i := by omega
    simp only [hidx]
    have hlt : i < (nextClusters cl l).length := by
      rw [nextClusters_length]; exact hi
    have hget : (nextClusters cl l)[i]? = some (nextClusters cl l)[i] :=
      List.getElem?_eq_getElem hlt
    have hd : distTo (nextClusters cl l) i s = distSq s (nextClusters cl l)[i] := by
      simp [distTo, hget]
    rw [hd]
    exact scan_min_le _ s _ (List.getElem_mem _)
  constructor
  · rw [hA]
    refine le_trans hB ?_
    apply Finset.sum_le_sum
    intro i _
    exact labelled_sum_le cl l i
  · rintro ⟨i, c, hci, hne⟩
    rw [hA]
    refine lt_of_le_of_lt hB ?_
    apply Finset.sum_lt_sum
    · intro i _
      exact labelled_sum_le cl l i
    · refine ⟨i, ?_, labelled_sum_lt cl l i c hci hne⟩
      rw [Finset.mem_range]
      exact (List.getElem?_eq_some_iff.1 hci).1

/-! ## What an iteration keeps -/

theorem scan_fold_min (s : Sample) (cl : List Cluster) (acc : ℚ × Int) :
    (cl.foldl (scanStep s) acc).1 =
      (cl.map Cluster.center).foldl (fun m p =>
        if (s.point.1 - p.1) ^ 2 + (s.point.2 - p.2) ^ 2 < m
        then (s.point.1 - p.1) ^ 2 + (s.point.2 - p.2) ^ 2 else m) acc.1 := by
  induction cl generalizing acc with
  | nil => rfl
  | cons c cl ih =>
    simp only [List.foldl_cons, List.map_cons]
    rw [ih]
    congr 1
    simp only [scanStep, distSq, Sample.point, Cluster.center]
    split <;> rfl

theorem scan_minDistSq (cl : List Cluster) (s : Sample) :
    (nearestScan cl s).1 = minDistSq (cl.map Cluster.center) s.point :=
  scan_fold_min s cl _

theorem cost_eq_points (cl : List Cluster) (l : List Sample) :
    cost cl l = ((l.map Sample.point).map (minDistSq (cl.map Cluster.center))).sum := by
  unfold cost
  rw [List.map_map]
  congr 1
  apply List.map_congr_left
  intro s _
  exact scan_minDistSq cl s

theorem finite_lists {α : Type} (F : Set α) (hF : F.Finite) :
    ∀ K : Nat, {L : List α | L.length = K ∧ ∀ p ∈ L, p ∈ F}.Finite
  | 0 => by
    apply (Set.finite_singleton ([] : List α)).subset
    rintro L ⟨hl, -⟩
    exact List.eq_nil_of_length_eq_zero hl
  | K + 1 => by
    apply (hF.image2 List.cons (finite_lists F hF K)).subset
    rintro L ⟨hl, hm⟩
    cases L with
    | nil => simp at hl
    | cons a L =>
      exact ⟨a, hm a (List.mem_cons_self _ _), L,
        ⟨by simpa using hl, fun p hp => hm p (List.mem_cons_of_mem _ hp)⟩, rfl⟩

/-- The costs of the states that satisfy the loop invariant form a finite set. -/
theorem finite_costs (K : Nat) (F0 P : List (ℚ × ℚ)) :
    {v : ℚ | ∃ km, LoopInv K F0 P km ∧ cost km.clusters km.samples = v}.Finite := by
  have hfin := (finite_lists {p | p ∈ candidateCenters F0 P}
    (List.finite_toSet _) K).image (fun L => (P.map (minDistSq L)).sum)
  apply hfin.subset
  rintro v ⟨km, ⟨-, hlen, hP, hc⟩, rfl⟩
  refine ⟨km.clusters.map Cluster.center, ⟨by simpa using hlen, ?_⟩, ?_⟩
  · intro p hp
    obtain ⟨c, hcm, rfl⟩ := List.mem_map.1 hp
    exact hc c hcm
  · simp only
    rw [cost_eq_points, hP]

theorem meanX_eq (V : List Sample) : meanX V = (meanPoint (V.map Sample.point)).1 := by
  simp only [meanX, meanPoint, List.map_map, List.length_map]
  rfl

theorem meanY_eq (V : List Sample) : meanY V = (meanPoint (V.map Sample.point)).2 := by
  simp only [meanY, meanPoint, List.map_map, List.length_map]
  rfl

theorem relabel_point (cl : List Cluster) (l : List Sample) :
    (l.map (relabel cl)).map Sample.point = l.map Sample.point := by
  rw [List.map_map]
  rfl

theorem nextCenter_candidate (F0 : List (ℚ × ℚ)) (cl : List Cluster) (l : List Sample)
    (i : Nat) (c : Cluster) (hc : c.center ∈ candidateCenters F0 (l.map Sample.point)) :
    nextCenter cl l i c ∈ candidateCenters F0 (l.map Sample.point) := by
  unfold nextCenter
  split
  · exact hc
  · unfold candidateCenters
    apply List.mem_append_right
    apply List.mem_map.2
    refine ⟨(labelled cl l i).map Sample.point, ?_, ?_⟩
    · rw [List.mem_sublists]
      exact (List.filter_sublist l).map Sample.point
    · exact Prod.ext (meanX_eq _).symm (meanY_eq _).symm

theorem nextClusters_ids (cl : List Cluster) (l : List Sample) (h : IdsInOrder cl) :
    IdsInOrder (nextClusters cl l) := by
  intro i c hc
  rw [nextClusters_getElem?] at hc
  cases hci : cl[i]? with
  | none => simp [hci] at hc
  | some c0 =>
    simp only [hci, Option.map_some', Option.some.injEq] at hc
    subst hc
    exact h i c0 hci

/-- The loop invariant holds again after a completed iteration, and the engine after it
is given by `relabel` and `nextClusters`. -/
theorem iteration_inv (K : Nat) (F0 P : List (ℚ × ℚ)) (km km' : KMeans) (b : Bool)
    (hinv : LoopInv K F0 P km) (h : km.iteration = .ok (b, km')) :
    LoopInv K F0 P km' ∧ AllAssigned km.clusters km.samples ∧
      km' = { km with samples := km.samples.map (relabel km.clusters),
                      clusters := nextClusters km.clusters km.samples } ∧
      (b = true ↔ ∃ (i : Nat) (c : Cluster), km.clusters[i]? = some c ∧
        nextCenter km.clusters km.samples i c ≠ (c.centerX, c.centerY)) := by
  have hall := iteration_ok_allAssigned km _ h
  rw [iteration_eq km hall] at h
  injection h with h
  injection h with hb hkm
  obtain ⟨hids, hlen, hP, hcand⟩ := hinv
  refine ⟨?_, hall, hkm.symm, ?_⟩
  · subst hkm
    refine ⟨nextClusters_ids _ _ hids, ?_, ?_, ?_⟩
    · show (nextClusters km.clusters km.samples).length = K
      rw [nextClusters_length]; exact hlen
    · show (km.samples.map (relabel km.clusters)).map Sample.point = P
      rw [relabel_point]; exact hP
    · intro c hc
      change c ∈ nextClusters km.clusters km.samples at hc
      obtain ⟨i, hi⟩ := List.getElem?_of_mem hc
      rw [nextClusters_getElem?] at hi
      cases hci : km.clusters[i]? with
      | none => simp [hci] at hi
      | some c0 =>
        simp only [hci, Option.map_some', Option.some.injEq] at hi
        subst hi
        have := nextCenter_candidate F0 km.clusters km.samples i c0
          (by rw [hP]; exact hcand c0 (List.getElem?_mem hci))
        rw [hP] at this
        exact this
  · rw [← hb]
    exact any_moved_iff km.clusters km.samples

/-! ## Termination of `updateKM` -/

/-- From every state that satisfies the loop invariant, `updateKM` stops after finitely
many iterations: some amount of fuel is not used up. -/
theorem updateKM_stops (K : Nat) (F0 P : List (ℚ × ℚ)) (km : KMeans)
    (hinv : LoopInv K F0 P km) :
    ∃ fuel : Nat, KMeans.updateKM fuel km ≠ .error Fault.out_of_fuel := by
  have hwf : {v : ℚ | ∃ km, LoopInv K F0 P km ∧ cost km.clusters km.samples = v}.WellFoundedOn
      (fun a b : ℚ => a < b) := (finite_costs K F0 P).wellFoundedOn
  have hmem : cost km.clusters km.samples ∈
      {v : ℚ | ∃ km, LoopInv K F0 P km ∧ cost km.clusters km.samples = v} :=
    ⟨km, hinv, rfl⟩
  have key := @Set.WellFoundedOn.induction ℚ _ _ _ hwf hmem
    (fun v => ∀ km, LoopInv K F0 P km → cost km.clusters km.samples = v →
      ∃ fuel : Nat, KMeans.updateKM fuel km ≠ .error Fault.out_of_fuel)
    (by
      intro v _ ih km hinv hv
      cases hit : km.iteration with
      | error e =>
        refine ⟨1, ?_⟩
        simp only [KMeans.updateKM, hit]
        have := iteration_fault km e hit
        subst this
        simp
      | ok r =>
        obtain ⟨b, km'⟩ := r
        cases b with
        | false =>
          refine ⟨1, ?_⟩
          simp [KMeans.updateKM, hit]
        | true =>
          obtain ⟨hinv', hall, hkm, hb⟩ := iteration_inv K F0 P km km' true hinv hit
          have hlt := (cost_next km.clusters km.samples hinv.1 hall).2 (hb.1 rfl)
          have hc' : cost km'.clusters km'.samples < v := by
            rw [← hv, hkm]
            exact hlt
          obtain ⟨fuel, hfuel⟩ := ih _ ⟨km', hinv', rfl⟩ hc' km' hinv' rfl
          refine ⟨fuel + 1, ?_⟩
          simp only [KMeans.updateKM, hit, if_true]
          exact hfuel)
  exact key km hinv rfl

/-! ## Runs that never leave a sample without a cluster -/

theorem close_allAssigned (cl : List Cluster) (l : List Sample) (hids : IdsInOrder cl)
    (hne : cl ≠ []) (hclose : CentersClose cl l) : AllAssigned cl l := by
  intro s hs
  rcases nearestScan_cases s cl with ⟨-, hall⟩ | ⟨i, c, hi, heq, -, -, -⟩
  · obtain ⟨c, hc⟩ := List.exists_mem_of_ne_nil cl hne
    exact absurd (hclose s hs c hc) (not_lt.2 (hall c hc))
  · refine ⟨i, (List.getElem?_eq_some_iff.1 hi).1, ?_⟩
    rw [heq]
    exact hids i c hi

/-- The mean of points that are all close to `s` is close to `s`. -/
theorem mean_close (s : Sample) (V : List Sample) (B : ℚ) (hne : V ≠ [])
    (h : ∀ t ∈ V, (s.x - t.x) ^ 2 + (s.y - t.y) ^ 2 < B) :
    (s.x - meanX V) ^ 2 + (s.y - meanY V) ^ 2 < B := by
  have key := sum_distSq_mean V hne ⟨0, s.x, s.y, []⟩ ⟨0, meanX V, meanY V, []⟩ rfl rfl
  simp only at key
  have hn : (0 : ℚ) < (V.length : ℚ) := by
    have : V.length ≠ 0 := fun h => hne (List.eq_nil_of_length_eq_zero h)
    have : 0 < V.length := Nat.pos_of_ne_zero this
    exact_mod_cast this
  have h1 : (V.map (fun t => distSq t ⟨0, s.x, s.y, []⟩)).sum <
      (V.map (fun _ => B)).sum := by
    obtain ⟨t0, ht0⟩ := List.exists_mem_of_ne_nil V hne
    apply List.sum_lt_sum
    · intro t ht
      have := h t ht
      simp only [distSq]
      nlinarith [this]
    · refine ⟨t0, ht0, ?_⟩
      have := h t0 ht0
      simp only [distSq]
      nlinarith [this]
  have h2 : (V.map (fun _ : Sample => B)).sum = (V.length : ℚ) * B := by
    simp
  have h3 : 0 ≤ (V.map (fun t => distSq t ⟨0, meanX V, meanY V, []⟩)).sum := by
    apply List.sum_nonneg
    intro x hx
    obtain ⟨t, -, rfl⟩ := List.mem_map.1 hx
    simp only [distSq]
    positivity
  rw [h2, key] at h1
  have h4 : (V.length : ℚ) * ((meanX V - s.x) ^ 2 + (meanY V - s.y) ^ 2) <
      (V.length : ℚ) * B := by linarith
  have h5 := lt_of_mul_lt_mul_left h4 (le_of_lt hn)
  nlinarith [h5]

theorem close_next (cl : List Cluster) (l : List Sample) (hp : PairwiseClose l)
    (hclose : CentersClose cl l) :
    CentersClose (nextClusters cl l) (l.map (relabel cl)) := by
  intro s' hs' c' hc'
  obtain ⟨s, hs, rfl⟩ := List.mem_map.1 hs'
  obtain ⟨i, hi⟩ := List.getElem?_of_mem hc'
  rw [nextClusters_getElem?] at hi
  cases hci : cl[i]? with
  | none => simp [hci] at hi
  | some c0 =>
    simp only [hci, Option.map_some', Option.some.injEq] at hi
    subst hi
    show (s.x - (nextCenter cl l i c0).1) ^ 2 + (s.y - (nextCenter cl l i c0).2) ^ 2 < _
    unfold nextCenter
    split
    · exact hclose s hs c0 (List.getElem?_mem hci)
    · rename_i he
      apply mean_close s _ _ he
      intro t ht
      exact hp s hs t (List.mem_of_mem_filter ht)

theorem pairwise_relabel (cl : List Cluster) (l : List Sample) (hp : PairwiseClose l) :
    PairwiseClose (l.map (relabel cl)) := by
  intro s' hs' t' ht'
  obtain ⟨s, hs, rfl⟩ := List.mem_map.1 hs'
  obtain ⟨t, ht, rfl⟩ := List.mem_map.1 ht'
  exact hp s hs t ht

/-- While the samples stay close to the centers no iteration does the out-of-range
lookup. -/
theorem updateKM_no_fault (fuel : Nat) (km : KMeans) (hids : IdsInOrder km.clusters)
    (hne : km.clusters ≠ []) (hp : PairwiseClose km.samples)
    (hclose : CentersClose km.clusters km.samples) :
    KMeans.updateKM fuel km ≠ .error Fault.out_of_range := by
  induction fuel generalizing km with
  | zero => simp [KMeans.updateKM]
  | succ n ih =>
    have hall := close_allAssigned _ _ hids hne hclose
    simp only [KMeans.updateKM, iteration_eq km hall]
    split
    · apply ih
      · exact nextClusters_ids _ _ hids
      · intro he
        have := nextClusters_length km.clusters km.samples
        change (nextClusters km.clusters km.samples) = [] at he
        rw [he] at this
        exact hne (List.eq_nil_of_length_eq_zero this.symm)
      · exact pairwise_relabel _ _ hp
      · exact close_next _ _ hp hclose
    · simp

/-! ## The state `initialize` leaves -/

theorem initLoop_ids (l : List Sample) : IdsInOrder (initLoop 1 l) := by
  intro i c hc
  rw [initLoop_getElem?] at hc
  cases hl : l[i]? with
  | none => simp [hl] at hc
  | some s =>
    simp only [hl, Option.map_some', Option.some.injEq] at hc
    subst hc
    simp only [Cluster.ctor]
    ring

theorem initLoop_center (l : List Sample) (k : Int) (c : Cluster) (hc : c ∈ initLoop k l) :
    ∃ t ∈ l, c.centerX = t.x ∧ c.centerY = t.y := by
  obtain ⟨i, hi⟩ := List.getElem?_of_mem hc
  rw [initLoop_getElem?] at hi
  cases hl : l[i]? with
  | none => simp [hl] at hi
  | some s =>
    simp only [hl, Option.map_some', Option.some.injEq] at hi
    subst hi
    exact ⟨s, List.getElem?_mem hl, rfl, rfl⟩

theorem initLoop_close (l : List Sample) (K : Nat) (hp : PairwiseClose l) :
    CentersClose (initLoop 1 (l.take K)) l := by
  intro s hs c hc
  obtain ⟨t, ht, hx, hy⟩ := initLoop_center _ _ c hc
  simp only [distSq, hx, hy]
  exact hp s hs t (List.mem_of_mem_take ht)

/-! ## The last iteration of a run -/

/-- What a completed iteration has done. -/
theorem iteration_ok (km km' : KMeans) (b : Bool) (h : km.iteration = .ok (b, km')) :
    AllAssigned km.clusters km.samples ∧
      km' = { km with samples := km.samples.map (relabel km.clusters),
                      clusters := nextClusters km.clusters km.samples } ∧
      (b = true ↔ ∃ (i : Nat) (c : Cluster), km.clusters[i]? = some c ∧
        nextCenter km.clusters km.samples i c ≠ (c.centerX, c.centerY)) := by
  have hall := iteration_ok_allAssigned km _ h
  rw [iteration_eq km hall] at h
  injection h with h
  injection h with hb hkm
  refine ⟨hall, hkm.symm, ?_⟩
  rw [← hb]
  exact any_moved_iff km.clusters km.samples

/-- A run that returns has ended with an iteration in which no center moved. -/
theorem last_iteration (fuel : Nat) (km km' : KMeans) (hids : IdsInOrder km.clusters)
    (h : KMeans.updateKM fuel km = .ok km') :
    ∃ kmL : KMeans, IdsInOrder kmL.clusters ∧ kmL.clusters.length = km.clusters.length ∧
      kmL.iteration = .ok (false, km') := by
  induction fuel generalizing km with
  | zero => simp [KMeans.updateKM] at h
  | succ n ih =>
    simp only [KMeans.updateKM] at h
    cases hit : km.iteration with
    | error e => simp [hit] at h
    | ok r =>
      obtain ⟨b, km1⟩ := r
      rw [hit] at h
      cases b with
      | true =>
        simp only [if_true] at h
        obtain ⟨-, hkm1, -⟩ := iteration_ok km km1 true hit
        have hids1 : IdsInOrder km1.clusters := by
          rw [hkm1]; exact nextClusters_ids _ _ hids
        obtain ⟨kmL, h1, h2, h3⟩ := ih km1 hids1 h
        refine ⟨kmL, h1, ?_, h3⟩
        rw [h2, hkm1]
        exact nextClusters_length _ _
      | false =>
        simp only [Bool.false_eq_true, if_false] at h
        injection h with h
        subst h
        exact ⟨km, hids, rfl, hit⟩

/-- After an iteration in which no center moved the clusters have the ids and centers
they had before it. -/
theorem converged_keys (cl : List Cluster) (l : List Sample)
    (h : ¬ ∃ (i : Nat) (c : Cluster), cl[i]? = some c ∧
        nextCenter cl l i c ≠ (c.centerX, c.centerY)) :
    (nextClusters cl l).map Cluster.key = cl.map Cluster.key := by
  apply List.ext_getElem?
  intro i
  rw [List.getElem?_map, List.getElem?_map, nextClusters_getElem?]
  cases hci : cl[i]? with
  | none => rfl
  | some c =>
    have hn : nextCenter cl l i c = (c.centerX, c.centerY) := by
      by_contra hne
      exact h ⟨i, c, hci, hne⟩
    simp [Cluster.key, hn]

theorem distSq_key (s : Sample) (c c' : Cluster) (h : c.key = c'.key) :
    distSq s c = distSq s c' := by
  simp only [Cluster.key, Prod.mk.injEq] at h
  simp [distSq, h.2.1, h.2.2]

theorem memberPositions_map (cl cl' : List Cluster) (f : Sample → Sample) (j : Nat)
    (l : List Sample) (i : Nat) (h : ∀ s, nearestScan cl' (f s) = nearestScan cl s) :
    memberPositions cl' j (l.map f) i = memberPositions cl j l i := by
  induction l generalizing j with
  | nil => rfl
  | cons s l ih =>
    rw [List.map_cons, memberPositions_cons, memberPositions_cons, ih, h]

theorem recenter_idem (mem : List Sample) (c : Cluster) :
    (c.recenter mem).recenter mem = c.recenter mem := by
  unfold Cluster.recenter
  by_cases he : c.samples.isEmpty = true
  · simp [he]
  · simp [he, Cluster.members]

theorem recenter_not_moved (mem : List Sample) (c : Cluster) :
    (c.recenter mem).moved mem = false := by
  unfold Cluster.moved
  rw [recenter_idem]
  simp

/-- The samples and clusters an iteration without a moved center leaves are left as
they are by one more iteration. -/
theorem converged_fixed (km : KMeans)
    (hall : AllAssigned km.clusters km.samples)
    (h : ¬ ∃ (i : Nat) (c : Cluster), km.clusters[i]? = some c ∧
        nextCenter km.clusters km.samples i c ≠ (c.centerX, c.centerY)) :
    AllAssigned (nextClusters km.clusters km.samples) (km.samples.map (relabel km.clusters)) ∧
    (km.samples.map (relabel km.clusters)).map (relabel (nextClusters km.clusters km.samples))
      = km.samples.map (relabel km.clusters) ∧
    assignedClusters (nextClusters km.clusters km.samples)
        (km.samples.map (relabel km.clusters)) = nextClusters km.clusters km.samples := by
  have hkeys := converged_keys _ _ h
  have hscan : ∀ s, nearestScan (nextClusters km.clusters km.samples) (relabel km.clusters s) =
      nearestScan km.clusters s :=
    fun s => nearestScan_congr _ _ _ _ hkeys rfl rfl
  refine ⟨?_, ?_, ?_⟩
  · intro s' hs'
    obtain ⟨s, hs, rfl⟩ := List.mem_map.1 hs'
    obtain ⟨i, hi, hb⟩ := hall s hs
    exact ⟨i, by rw [nextClusters_length]; exact hi, by rw [hscan]; exact hb⟩
  · rw [List.map_map]
    apply List.map_congr_left
    intro s _
    simp only [Function.comp, relabel, Sample.setClusterID]
    have := hscan s
    simp only [relabel, Sample.setClusterID] at this
    rw [this]
  · apply List.ext_getElem?
    intro i
    rw [assignedClusters_getElem?, memberPositions_map km.clusters _ _ _ _ _ hscan,
      nextClusters_getElem?]
    cases km.clusters[i]? <;> simp

/-! ## The example run -/

theorem example_seeding : exampleLoaded.initialize = .ok exampleSeeded := by
  simp [exampleLoaded, exampleSeeded, KMeans.initialize, initLoop, Cluster.ctor]

theorem example_iteration1 :
    exampleSeeded.iteration = .ok (true,
      { exampleLoaded with
        samples := [⟨1, some 1, 0, 0⟩, ⟨2, some 2, 1, 0⟩, ⟨3, some 2, 10, 10⟩,
          ⟨4, some 2, 11, 10⟩],
        clusters := [⟨1, 0, 0, [0]⟩, ⟨2, 22 / 3, 20 / 3, [1, 2, 3]⟩] }) := by
  norm_num [exampleLoaded, exampleSeeded, KMeans.iteration,
    KMeans.assignSamplesToClusters, assignLoop, nearestScan, scanStep, distSq, maxDouble,
    centerLoop, Cluster.calculateCenter, Cluster.sumLoop, Cluster.clearSamples,
    Cluster.addSample, Sample.setClusterID, List.modify, List.modifyTailIdx, List.modifyHead]

theorem example_iteration2 :
    KMeans.iteration
      { exampleLoaded with
        samples := [⟨1, some 1, 0, 0⟩, ⟨2, some 2, 1, 0⟩, ⟨3, some 2, 10, 10⟩,
          ⟨4, some 2, 11, 10⟩],
        clusters := [⟨1, 0, 0, [0]⟩, ⟨2, 22 / 3, 20 / 3, [1, 2, 3]⟩] } =
      .ok (true, exampleFinal) := by
  norm_num [exampleLoaded, exampleFinal, KMeans.iteration,
    KMeans.assignSamplesToClusters, assignLoop, nearestScan, scanStep, distSq, maxDouble,
    centerLoop, Cluster.calculateCenter, Cluster.sumLoop, Cluster.clearSamples,
    Cluster.addSample, Sample.setClusterID, List.modify, List.modifyTailIdx, List.modifyHead]

theorem example_iteration3 : exampleFinal.iteration = .ok (false, exampleFinal) := by
  norm_num [exampleLoaded, exampleFinal, KMeans.iteration,
    KMeans.assignSamplesToClusters, assignLoop, nearestScan, scanStep, distSq, maxDouble,
    centerLoop, Cluster.calculateCenter, Cluster.sumLoop, Cluster.clearSamples,
    Cluster.addSample, Sample.setClusterID, List.modify, List.modifyTailIdx, List.modifyHead]

theorem example_run : KMeans.updateKM 3 exampleSeeded = .ok exampleFinal := by
  simp [KMeans.updateKM, example_iteration1, example_iteration2, example_iteration3]

theorem example_pairwiseClose : PairwiseClose exampleLoaded.samples := by
  intro s hs t ht
  simp only [exampleLoaded, List.mem_cons, List.mem_singleton, List.not_mem_nil, or_false]
    at hs ht
  rcases hs with rfl | rfl | rfl | rfl <;> rcases ht with rfl | rfl | rfl | rfl <;>
    norm_num [maxDouble]

/-! ## The state a run ends in -/

theorem initialize_inv (km km0 : KMeans) (hc : km.clusters = []) (h1 : 1 ≤ km.K)
    (hN : km.K ≤ km.samples.length) (hinit : km.initialize = .ok km0) :
    km0.samples = km.samples ∧ km0.clusters = initLoop 1 (km.samples.take km.K.toNat) ∧
      IdsInOrder km0.clusters ∧ km0.clusters ≠ [] := by
  rw [initialize_eq km (by omega) hN] at hinit
  injection hinit with hinit
  subst hinit
  have hcl : km.clusters ++ initLoop 1 (km.samples.take km.K.toNat) =
      initLoop 1 (km.samples.take km.K.toNat) := by
    rw [hc]; rfl
  refine ⟨rfl, hcl, ?_, ?_⟩
  · show IdsInOrder (km.clusters ++ initLoop 1 (km.samples.take km.K.toNat))
    rw [hcl]
    exact initLoop_ids _
  · show km.clusters ++ initLoop 1 (km.samples.take km.K.toNat) ≠ []
    rw [hcl]
    intro he
    have hlen := initLoop_length 1 (km.samples.take km.K.toNat)
    rw [he, List.length_take] at hlen
    simp only [List.length_nil] at hlen
    omega

theorem recenter_samples (mem : List Sample) (c : Cluster) :
    (c.recenter mem).samples = c.samples := by
  unfold Cluster.recenter
  split <;> rfl

/-- After an iteration in which no center moved, one more assignment pass and one
more `calculateCenter` on every cluster change nothing. -/
theorem converged_again (kmL km' : KMeans) (hit : kmL.iteration = .ok (false, km')) :
    km'.iteration = .ok (false, km') ∧
    km'.assignSamplesToClusters = .ok km' ∧
    ∀ c ∈ km'.clusters, c.calculateCenter km'.samples = .ok (false, c) := by
  obtain ⟨hall, hkm, hb⟩ := iteration_ok kmL km' false hit
  have hno : ¬ ∃ (i : Nat) (c : Cluster), kmL.clusters[i]? = some c ∧
      nextCenter kmL.clusters kmL.samples i c ≠ (c.centerX, c.centerY) := by
    intro hex
    have := hb.2 hex
    simp at this
  obtain ⟨hall', hsamples, hclusters⟩ := converged_fixed kmL hall hno
  have hfix : ∀ c ∈ nextClusters kmL.clusters kmL.samples,
      c.ValidIn (kmL.samples.map (relabel kmL.clusters)) ∧
      c.recenter (kmL.samples.map (relabel kmL.clusters)) = c ∧
      c.moved (kmL.samples.map (relabel kmL.clusters)) = false := by
    intro c hc
    unfold nextClusters at hc
    obtain ⟨cA, hcA, rfl⟩ := List.mem_map.1 hc
    refine ⟨?_, recenter_idem _ _, recenter_not_moved _ _⟩
    intro p hp
    rw [recenter_samples] at hp
    exact assignedClusters_valid _ _ _ (by simp) cA hcA p hp
  have hassign : km'.assignSamplesToClusters = .ok km' := by
    subst hkm
    rw [assign_eq _ hall']
    simp only [hsamples, hclusters]
  refine ⟨?_, hassign, ?_⟩
  · subst hkm
    rw [iteration_eq _ hall']
    simp only [hsamples, hclusters]
    congr 2
    · rw [List.any_eq_false]
      intro c hc
      simp [(hfix c hc).2.2]
    · congr 1
      conv_rhs => rw [← List.map_id (nextClusters kmL.clusters kmL.samples)]
      apply List.map_congr_left
      intro c hc
      exact (hfix c hc).2.1
  · subst hkm
    intro c hc
    have := hfix c hc
    rw [calculateCenter_recenter _ c this.1, this.2.1, this.2.2]

/-! ## Main results on the assignment pass and on `updateKM` -/

/-- The scan gives the id of a nearest cluster, the first of the nearest in the cluster
vector and so the one of lowest id, whenever the clusters are numbered in order and
some center is closer to the sample than `numeric_limits<double>::max()`. -/
theorem nearestScan_nearest (cl : List Cluster) (s : Sample) (hids : IdsInOrder cl)
    (hnear : ∃ c ∈ cl, distSq s c < maxDouble ^ 2) :
    ∃ c ∈ cl, (nearestScan cl s).2 = c.clusterID ∧
      (∀ c' ∈ cl, Real.sqrt (distSq s c : ℚ) ≤ Real.sqrt (distSq s c' : ℚ)) ∧
      (∀ c' ∈ cl, distSq s c' = distSq s c → c.clusterID ≤ c'.clusterID) := by
  rcases nearestScan_cases s cl with ⟨-, hall⟩ | ⟨i, c, hi, heq, -, hearly, hmin⟩
  · obtain ⟨c, hc, hlt⟩ := hnear
    exact absurd hlt (not_lt.2 (hall c hc))
  · refine ⟨c, List.getElem?_mem hi, by rw [heq], ?_, ?_⟩
    · intro c' hc'
      exact Real.sqrt_le_sqrt (by exact_mod_cast hmin c' hc')
    · intro c' hc' hd
      obtain ⟨j, hj⟩ := List.getElem?_of_mem hc'
      rw [hids i c hi, hids j c' hj]
      by_contra hlt
      have hji : j < i := by omega
      have := hearly j c' hji hj
      rw [hd] at this
      exact lt_irrefl _ this

/-- C1, the code at a failing input: the records `1 0 0` and `2 DBL_MAX 0` with K = 1,
that is one cluster seeded at (0, 0) and a sample at
(`numeric_limits<double>::max()`, 0). No distance is below the starting value of
`minDistance`, so the scan ends with `bestClusterID = -1`, which is no cluster's id;
the assignment pass, and with it the constructor, then indexes `clusters[-2]`. -/
theorem scan_leaves_far_sample_unassigned :
    nearestScan [⟨1, 0, 0, []⟩] ⟨2, none, maxDouble, 0⟩ = (maxDouble ^ 2, -1) ∧
    farSeeded.assignSamplesToClusters = .error Fault.out_of_range ∧
    KMeans.ctor (fun _ => some [(1, 0, 0), (2, maxDouble, 0)]) "in" 1 "out" 1 =
      .error (Fault.out_of_range, farSeeded) := by
  have hpass : farSeeded.assignSamplesToClusters = .error Fault.out_of_range := by
    norm_num [farSeeded, KMeans.assignSamplesToClusters, assignLoop, nearestScan, scanStep,
      distSq, maxDouble, Cluster.clearSamples, Cluster.addSample, Sample.setClusterID,
      List.modify, List.modifyTailIdx, List.modifyHead]
  refine ⟨?_, hpass, ?_⟩
  · norm_num [nearestScan, scanStep, distSq]
  · have hinit : KMeans.initialize
        { K := 1, samples := [⟨1, none, 0, 0⟩, ⟨2, none, maxDouble, 0⟩], clusters := [],
          fileName := "in", outputfileName := "out" } = .ok farSeeded := by
      simp [farSeeded, KMeans.initialize, initLoop, Cluster.ctor]
    simp [KMeans.ctor, KMeans.loadSamples, KMeans.setFileName, KMeans.setOutputFileName,
      KMeans.getFileName, Sample.ctor, hinit, KMeans.updateKM, KMeans.iteration, hpass]

/-- C5. From the state `initialize` leaves on N loaded samples with 1 ≤ K ≤ N, the loop
of `updateKM` performs finitely many iterations: with enough fuel the run either
returns a final state or has been cut short by the out-of-range cluster lookup of the
assignment pass; and when every two samples are closer to each other than
`numeric_limits<double>::max()` it returns a final state. -/
theorem updateKM_terminates (km : KMeans) (hc : km.clusters = []) (h1 : 1 ≤ km.K)
    (hN : km.K ≤ km.samples.length) :
    ∃ km0, km.initialize = .ok km0 ∧
      (∃ fuel : Nat, KMeans.updateKM fuel km0 = .error Fault.out_of_range ∨
        ∃ km', KMeans.updateKM fuel km0 = .ok km') ∧
      (PairwiseClose km.samples →
        ∃ (fuel : Nat) (km' : KMeans), KMeans.updateKM fuel km0 = .ok km') := by
  have hinit := initialize_eq km (by omega) hN
  refine ⟨_, hinit, ?_⟩
  obtain ⟨hs, hcl, hids, hne⟩ := initialize_inv km _ hc h1 hN hinit
  generalize ({ km with clusters := km.clusters ++ initLoop 1 (km.samples.take km.K.toNat) }
    : KMeans) = km0 at hs hcl hids hne
  have hinv : LoopInv km0.clusters.length (km0.clusters.map Cluster.center)
      (km0.samples.map Sample.point) km0 := by
    refine ⟨hids, rfl, rfl, ?_⟩
    intro c hcm
    exact List.mem_append_left _ (List.mem_map_of_mem _ hcm)
  obtain ⟨fuel, hfuel⟩ := updateKM_stops _ _ _ km0 hinv
  constructor
  · refine ⟨fuel, ?_⟩
    cases hr : KMeans.updateKM fuel km0 with
    | ok km' => exact Or.inr ⟨km', rfl⟩
    | error e =>
      rcases updateKM_fault fuel km0 e hr with h | h
      · subst h; exact Or.inl rfl
      · subst h; exact absurd hr hfuel
  · intro hp
    have hclose : CentersClose km0.clusters km0.samples := by
      rw [hcl, hs]
      exact initLoop_close _ _ hp
    have hnf := updateKM_no_fault fuel km0 hids hne (by rw [hs]; exact hp) hclose
    cases hr : KMeans.updateKM fuel km0 with
    | ok km' => exact ⟨fuel, km', hr⟩
    | error e =>
      rcases updateKM_fault fuel km0 e hr with h | h
      · subst h; exact absurd hr hnf
      · subst h; exact absurd hr hfuel

/-- C5 on a concrete input: the four samples (0,0), (1,0), (10,10), (11,10) with K = 2. -/
theorem updateKM_terminates_witness :
    PairwiseClose exampleLoaded.samples ∧
    ∃ km0, exampleLoaded.initialize = .ok km0 ∧
      ∃ (fuel : Nat) (km' : KMeans), KMeans.updateKM fuel km0 = .ok km' := by
  obtain ⟨km0, h0, -, h⟩ :=
    updateKM_terminates exampleLoaded rfl (by decide) (by decide)
  exact ⟨example_pairwiseClose, km0, h0, h example_pairwiseClose⟩

/-- C8. When `updateKM` has returned the state `km'` (on the state `initialize` leaves,
1 ≤ K ≤ N), one more assignment pass succeeds and gives `km'` back, so every label and
every member list is unchanged; `calculateCenter` on every cluster then returns false
and gives the cluster back, so every center is unchanged; and the two together, one
more iteration, end with `changed = false` in the state `km'`. -/
theorem converged_state_idempotent (km km0 km' : KMeans) (fuel : Nat)
    (hc : km.clusters = []) (h1 : 1 ≤ km.K) (hN : km.K ≤ km.samples.length)
    (hinit : km.initialize = .ok km0) (hrun : KMeans.updateKM fuel km0 = .ok km') :
    km'.assignSamplesToClusters = .ok km' ∧
    (∀ c ∈ km'.clusters, c.calculateCenter km'.samples = .ok (false, c)) ∧
    km'.iteration = .ok (false, km') := by
  obtain ⟨-, -, hids, -⟩ := initialize_inv km km0 hc h1 hN hinit
  obtain ⟨kmL, -, -, hit⟩ := last_iteration fuel km0 km' hids hrun
  obtain ⟨h1, h2, h3⟩ := converged_again kmL km' hit
  exact ⟨h2, h3, h1⟩

/-- C8 on a concrete input: the run on the four samples (0,0), (1,0), (10,10), (11,10), K = 2. -/
theorem converged_state_idempotent_witness :
    exampleLoaded.initialize = .ok exampleSeeded ∧
    KMeans.updateKM 3 exampleSeeded = .ok exampleFinal ∧
    exampleFinal.assignSamplesToClusters = .ok exampleFinal ∧
    (∀ c ∈ exampleFinal.clusters, c.calculateCenter exampleFinal.samples = .ok (false, c)) ∧
    exampleFinal.iteration = .ok (false, exampleFinal) :=
  ⟨example_seeding, example_run,
    converged_state_idempotent exampleLoaded exampleSeeded exampleFinal 3 rfl (by decide)
      (by decide) example_seeding example_run⟩

/-! ## More fuel does not change a run that has returned -/

theorem updateKM_more_fuel (fuel n : Nat) (km km' : KMeans)
    (h : KMeans.updateKM fuel km = .ok km') : KMeans.updateKM (fuel + n) km = .ok km' := by
  induction fuel generalizing km with
  | zero => simp [KMeans.updateKM] at h
  | succ m ih =>
    have hf : m + 1 + n = (m + n) + 1 := by omega
    rw [hf]
    simp only [KMeans.updateKM] at h ⊢
    cases hit : km.iteration with
    | error e => simp [hit] at h
    | ok r =>
      obtain ⟨b, km1⟩ := r
      rw [hit] at h
      simp only at h ⊢
      cases b with
      | true =>
        simp only [if_true] at h ⊢
        exact ih km1 h
      | false =>
        simpa using h

/-! ## Loading, the sentinel and the example run -/

/-- C11, the code at a failing input: a readable file without any record and K = 1.
`loadSamples` returns normally with no sample loaded; the constructor goes on to
`initialize`, whose range `samples.begin() .. samples.begin() + 1` ends past the empty
vector. No exception is thrown for the empty input. -/
theorem ctor_empty_stream :
    (∀ km : KMeans, km.loadSamples (some []) = .ok km) ∧
    KMeans.ctor (fun _ => some []) "in" 1 "out" 5 =
      .error (Fault.out_of_range,
        { K := 1, samples := [], clusters := [], fileName := "in",
          outputfileName := "out" }) := by
  constructor
  · intro km
    simp [KMeans.loadSamples]
  · simp [KMeans.ctor, KMeans.loadSamples, KMeans.initialize, KMeans.setFileName,
      KMeans.setOutputFileName, KMeans.getFileName]

/-- C12, the code at a failing input: the records `1 0 0` and `2 DBL_MAX 0` with K = 1.
`initialize` creates the one cluster at (0, 0); in the first assignment pass the scan
leaves `bestClusterID = -1` for the second sample, so the label written is -1, outside
[1, K], the index `bestClusterID - 1` is negative, and every run of `updateKM` ends in
the out-of-range lookup. -/
theorem far_sample_label_out_of_range :
    farLoaded.initialize = .ok farSeeded ∧
    (Sample.setClusterID ⟨2, none, maxDouble, 0⟩
      (nearestScan farSeeded.clusters ⟨2, none, maxDouble, 0⟩).2).getClusterID = some (-1) ∧
    (nearestScan farSeeded.clusters ⟨2, none, maxDouble, 0⟩).2 - 1 < 0 ∧
    ∀ n : Nat, KMeans.updateKM (n + 1) farSeeded = .error Fault.out_of_range := by
  have hscan : nearestScan farSeeded.clusters ⟨2, none, maxDouble, 0⟩ =
      (maxDouble ^ 2, -1) := by
    norm_num [farSeeded, nearestScan, scanStep, distSq]
  have hpass : farSeeded.assignSamplesToClusters = .error Fault.out_of_range := by
    norm_num [farSeeded, KMeans.assignSamplesToClusters, assignLoop, nearestScan, scanStep,
      distSq, maxDouble, Cluster.clearSamples, Cluster.addSample, Sample.setClusterID,
      List.modify, List.modifyTailIdx, List.modifyHead]
  refine ⟨?_, ?_, ?_, ?_⟩
  · simp [farLoaded, farSeeded, KMeans.initialize, initLoop, Cluster.ctor]
  · rw [hscan]
    rfl
  · rw [hscan]
    norm_num
  · intro n
    simp [KMeans.updateKM, KMeans.iteration, hpass]

/-- C13. On the records `1 0 0`, `2 1 0`, `3 10 10`, `4 11 10` with K = 2, `initialize`
seeds cluster 1 at (0, 0) and cluster 2 at (1, 0); `updateKM` returns after its third
iteration (two iterations are not enough, any larger bound gives the same state); in
the state it returns cluster 1 has center (1/2, 0) and its members are the samples with
index 1 and 2, cluster 2 has center (21/2, 10) and its members are the samples with
index 3 and 4; the constructor returns that state. -/
theorem example_four_points :
    exampleLoaded.initialize = .ok exampleSeeded ∧
    exampleSeeded.clusters.map Cluster.key = [(1, 0, 0), (2, 1, 0)] ∧
    KMeans.updateKM 2 exampleSeeded = .error Fault.out_of_fuel ∧
    (∀ n : Nat, KMeans.updateKM (3 + n) exampleSeeded = .ok exampleFinal) ∧
    exampleFinal.clusters.map
        (fun c => (c.getIDofCluster, c.getXofCluster, c.getYofCluster,
          (c.members exampleFinal.samples).map Sample.getIndex)) =
      [(1, 1 / 2, 0, [1, 2]), (2, 21 / 2, 10, [3, 4])] ∧
    exampleFinal.samples.map (fun s => (s.getIndex, s.getClusterID)) =
      [(1, some 1), (2, some 1), (3, some 2), (4, some 2)] ∧
    KMeans.ctor (fun _ => some [(1, 0, 0), (2, 1, 0), (3, 10, 10), (4, 11, 10)])
      "in" 2 "out" 3 = .ok exampleFinal := by
  refine ⟨example_seeding, by simp [exampleSeeded, Cluster.key], ?_,
    fun n => updateKM_more_fuel 3 n _ _ example_run, ?_, ?_, ?_⟩
  · simp [KMeans.updateKM, example_iteration1, example_iteration2]
  · simp [exampleFinal, Cluster.members, Cluster.getIDofCluster, Cluster.getXofCluster,
      Cluster.getYofCluster, Sample.getIndex]
  · simp [exampleFinal, Sample.getIndex, Sample.getClusterID]
  · have hload : KMeans.loadSamples
        { K := 2, samples := [], clusters := [], fileName := "in", outputfileName := "out" }
        (some [(1, 0, 0), (2, 1, 0), (3, 10, 10), (4, 11, 10)]) = .ok exampleLoaded := by
      simp [KMeans.loadSamples, exampleLoaded, Sample.ctor]
    simp only [KMeans.ctor, KMeans.setFileName, KMeans.setOutputFileName,
      KMeans.getFileName]
    rw [if_neg (by decide), hload]
    simp only [example_seeding, example_run]

/-! ## Sample and Cluster: constructors and membership -/

/-- C16, the code at a failing input: `Sample(7, -1, 2, 3)`. Index and coordinates are
reported as given, but the initialiser list `idx(i), x(X), y(Y)` stores no cluster id:
`cID` has never been written when `getClusterID` reads it, for no argument is the
given id reported, and the samples `loadSamples` creates with `-1` carry no label. -/
theorem ctor_drops_cluster_id :
    (Sample.ctor 7 (-1) 2 3).getIndex = 7 ∧
    (Sample.ctor 7 (-1) 2 3).getX = 2 ∧
    (Sample.ctor 7 (-1) 2 3).getY = 3 ∧
    (Sample.ctor 7 (-1) 2 3).getClusterID = none ∧
    (∀ (i c : Int) (x y : ℚ), (Sample.ctor i c x y).getClusterID ≠ some c) ∧
    KMeans.loadSamples
        { K := 1, samples := [], clusters := [], fileName := "in", outputfileName := "out" }
        (some [(7, 2, 3)]) =
      .ok { K := 1, samples := [⟨7, none, 2, 3⟩], clusters := [], fileName := "in",
            outputfileName := "out" } := by
  refine ⟨rfl, rfl, rfl, rfl, ?_, ?_⟩
  · intro i c x y
    simp [Sample.ctor, Sample.getClusterID]
  · simp [KMeans.loadSamples, Sample.ctor]

/-- C17. `clearSamples` leaves the cluster with an empty member list and the id and
center it had; `addSample` leaves the cluster with the old member list followed by the
given pointer and the id and center it had. Neither writes to a sample: read in any
sample vector, the members after `addSample` are the old members followed by the
pointee, as it stands in the vector. -/
theorem membership_updates_frame (c : Cluster) (p : Nat) (mem : List Sample) :
    c.clearSamples.samples = [] ∧
    c.clearSamples.getIDofCluster = c.getIDofCluster ∧
    c.clearSamples.getXofCluster = c.getXofCluster ∧
    c.clearSamples.getYofCluster = c.getYofCluster ∧
    (c.addSample p).samples = c.samples ++ [p] ∧
    (c.addSample p).getIDofCluster = c.getIDofCluster ∧
    (c.addSample p).getXofCluster = c.getXofCluster ∧
    (c.addSample p).getYofCluster = c.getYofCluster ∧
    (c.addSample p).members mem = c.members mem ++ (mem[p]?).toList := by
  refine ⟨rfl, rfl, rfl, rfl, rfl, rfl, rfl, rfl, ?_⟩
  simp only [Cluster.members, Cluster.addSample, List.filterMap_append, List.filterMap_cons,
    List.filterMap_nil]
  cases mem[p]? <;> rfl

/-- C18. On a cluster whose member pointers point into the sample vector, a first call
of `calculateCenter` succeeds, and a second call on the cluster it leaves, with the
same member list and the same samples, returns false and leaves that cluster, its
center included, as the first call left it. -/
theorem calculateCenter_twice (mem : List Sample) (c : Cluster) (hv : c.ValidIn mem) :
    ∃ (b : Bool) (c' : Cluster), c.calculateCenter mem = .ok (b, c') ∧
      c'.samples = c.samples ∧
      c'.calculateCenter mem = .ok (false, c') := by
  refine ⟨c.moved mem, c.recenter mem, calculateCenter_recenter mem c hv,
    recenter_samples mem c, ?_⟩
  have hv' : (c.recenter mem).ValidIn mem := by
    intro p hp
    rw [recenter_samples] at hp
    exact hv p hp
  rw [calculateCenter_recenter mem _ hv', recenter_idem, recenter_not_moved]

/-- C18 on a concrete input: the cluster at (0,0) holding the samples at (1,2) and
(3,6). -/
theorem calculateCenter_twice_witness :
    ∃ (b : Bool) (c' : Cluster),
      Cluster.calculateCenter [⟨1, none, 1, 2⟩, ⟨2, none, 3, 6⟩] ⟨1, 0, 0, [0, 1]⟩ =
        .ok (b, c') ∧
      c'.samples = [0, 1] ∧
      c'.calculateCenter [⟨1, none, 1, 2⟩, ⟨2, none, 3, 6⟩] = .ok (false, c') :=
  calculateCenter_twice [⟨1, none, 1, 2⟩, ⟨2, none, 3, 6⟩] ⟨1, 0, 0, [0, 1]⟩
    (by simp [Cluster.ValidIn])

/-! ## What the loop leaves untouched -/

theorem frameKept_refl (km : KMeans) : FrameKept km km :=
  ⟨rfl, rfl, rfl, rfl, rfl⟩

theorem frameKept_trans (a b c : KMeans) (h1 : FrameKept a b) (h2 : FrameKept b c) :
    FrameKept a c :=
  ⟨h2.1.trans h1.1, h2.2.1.trans h1.2.1, h2.2.2.1.trans h1.2.2.1,
    h2.2.2.2.1.trans h1.2.2.2.1, h2.2.2.2.2.trans h1.2.2.2.2⟩

theorem assignedClusters_ids (cl : List Cluster) (l : List Sample) :
    (assignedClusters cl l).map Cluster.getIDofCluster = cl.map Cluster.getIDofCluster := by
  apply List.ext_getElem?
  intro i
  rw [List.getElem?_map, List.getElem?_map, assignedClusters_getElem?]
  cases cl[i]? <;> rfl

theorem nextClusters_idList (cl : List Cluster) (l : List Sample) :
    (nextClusters cl l).map Cluster.getIDofCluster = cl.map Cluster.getIDofCluster := by
  apply List.ext_getElem?
  intro i
  rw [List.getElem?_map, List.getElem?_map, nextClusters_getElem?]
  cases cl[i]? <;> rfl

theorem relabel_frame (cl : List Cluster) (l : List Sample) :
    (l.map (relabel cl)).map (fun s => (s.getIndex, s.getX, s.getY)) =
      l.map (fun s => (s.getIndex, s.getX, s.getY)) := by
  rw [List.map_map]
  rfl

theorem assign_frame (km km1 : KMeans) (h : km.assignSamplesToClusters = .ok km1) :
    FrameKept km km1 := by
  have hall := assign_ok_allAssigned km km1 h
  rw [assign_eq km hall] at h
  injection h with h
  subst h
  exact ⟨relabel_frame _ _, assignedClusters_ids _ _, rfl, rfl, rfl⟩

theorem iteration_frame (km km' : KMeans) (b : Bool) (h : km.iteration = .ok (b, km')) :
    FrameKept km km' := by
  obtain ⟨-, hkm, -⟩ := iteration_ok km km' b h
  subst hkm
  exact ⟨relabel_frame _ _, nextClusters_idList _ _, rfl, rfl, rfl⟩

theorem updateKM_frame (fuel : Nat) (km km' : KMeans)
    (h : KMeans.updateKM fuel km = .ok km') : FrameKept km km' := by
  induction fuel generalizing km with
  | zero => simp [KMeans.updateKM] at h
  | succ n ih =>
    simp only [KMeans.updateKM] at h
    cases hit : km.iteration with
    | error e => simp [hit] at h
    | ok r =>
      obtain ⟨b, km1⟩ := r
      rw [hit] at h
      have hf := iteration_frame km km1 b hit
      cases b with
      | true =>
        simp only [if_true] at h
        exact frameKept_trans _ _ _ hf (ih km1 h)
      | false =>
        simp only [Bool.false_eq_true, if_false] at h
        injection h with h
        subst h
        exact hf

theorem ids_of_idList (cl cl' : List Cluster)
    (h : cl'.map Cluster.getIDofCluster = cl.map Cluster.getIDofCluster)
    (hids : IdsInOrder cl) : IdsInOrder cl' := by
  intro i c' hc'
  have h1 : (cl'.map Cluster.getIDofCluster)[i]? = some c'.clusterID := by
    rw [List.getElem?_map, hc']
    rfl
  rw [h, List.getElem?_map] at h1
  cases hci : cl[i]? with
  | none => simp [hci] at h1
  | some c =>
    simp only [hci, Option.map_some', Option.some.injEq] at h1
    rw [← h1]
    exact hids i c hci

theorem ids_range (cl : List Cluster) (hids : IdsInOrder cl) :
    cl.map Cluster.getIDofCluster = (List.range cl.length).map (fun i : Nat => (i : Int) + 1) := by
  apply List.ext_getElem?
  intro i
  rw [List.getElem?_map, List.getElem?_map]
  cases hci : cl[i]? with
  | none =>
    have : cl.length ≤ i := by
      by_contra hlt
      rw [List.getElem?_eq_getElem (not_le.1 hlt)] at hci
      exact Option.noConfusion hci
    rw [List.getElem?_eq_none (by simpa using this)]
    rfl
  | some c =>
    have hlt := (List.getElem?_eq_some_iff.1 hci).1
    rw [List.getElem?_range hlt]
    simp only [Option.map_some', Option.some.injEq]
    exact hids i c hci

theorem ids_unique (cl : List Cluster) (hids : IdsInOrder cl) :
    (cl.map Cluster.getIDofCluster).Nodup ∧
    ∀ c ∈ cl, 1 ≤ c.getIDofCluster ∧ c.getIDofCluster ≤ (cl.length : Int) := by
  constructor
  · rw [ids_range cl hids]
    apply List.Nodup.map _ (List.nodup_range _)
    intro a b hab
    simp only at hab
    omega
  · intro c hc
    obtain ⟨i, hi⟩ := List.getElem?_of_mem hc
    have hlt := (List.getElem?_eq_some_iff.1 hi).1
    have := hids i c hi
    simp only [Cluster.getIDofCluster]
    omega

/-- An emptied cluster keeps its center over an iteration. -/
theorem iteration_empty_center (km km' : KMeans) (b : Bool) (i : Nat) (c c' : Cluster)
    (h : km.iteration = .ok (b, km')) (hc : km.clusters[i]? = some c)
    (hc' : km'.clusters[i]? = some c') (he : c'.samples = []) :
    c'.getXofCluster = c.getXofCluster ∧ c'.getYofCluster = c.getYofCluster := by
  obtain ⟨-, hkm, -⟩ := iteration_ok km km' b h
  subst hkm
  simp only at hc'
  rw [nextClusters_getElem?, hc] at hc'
  simp only [Option.map_some', Option.some.injEq] at hc'
  subst hc'
  simp only at he
  have hlen := memberPositions_length km.clusters km.samples i
  rw [he] at hlen
  have hlab : labelled km.clusters km.samples i = [] :=
    List.eq_nil_of_length_eq_zero hlen.symm
  simp [Cluster.getXofCluster, Cluster.getYofCluster, nextCenter, hlab]

theorem dup_seeding : dupLoaded.initialize = .ok dupSeeded := by
  simp [dupLoaded, dupSeeded, KMeans.initialize, initLoop, Cluster.ctor]

theorem dup_iteration : dupSeeded.iteration = .ok (false, dupFinal) := by
  norm_num [dupLoaded, dupSeeded, dupFinal, KMeans.iteration,
    KMeans.assignSamplesToClusters, assignLoop, nearestScan, scanStep, distSq, maxDouble,
    centerLoop, Cluster.calculateCenter, Cluster.sumLoop, Cluster.clearSamples,
    Cluster.addSample, Sample.setClusterID, List.modify, List.modifyTailIdx, List.modifyHead]

theorem dup_run : KMeans.updateKM 1 dupSeeded = .ok dupFinal := by
  simp [KMeans.updateKM, dup_iteration]

/-! ## Main results on what the loop keeps -/

/-- C19. An iteration of `updateKM` on an engine whose clusters are numbered in order
(position i, counted from 1, holds id i) and are K in number: the assignment pass, and
then the whole iteration, leave the samples' indices and coordinates in their order,
the clusters' ids in their order, K and the file names as they were; afterwards the
clusters are still K in number and numbered in order, so their ids are distinct and
lie in [1, K]. Only labels, member lists and centers can differ. -/
theorem iteration_keeps_frame (km km' : KMeans) (b : Bool)
    (hids : IdsInOrder km.clusters) (hK : (km.clusters.length : Int) = km.K)
    (h : km.iteration = .ok (b, km')) :
    (∃ km1, km.assignSamplesToClusters = .ok km1 ∧ FrameKept km km1 ∧
      IdsInOrder km1.clusters) ∧
    FrameKept km km' ∧
    IdsInOrder km'.clusters ∧
    (km'.clusters.length : Int) = km'.K ∧
    (km'.clusters.map Cluster.getIDofCluster).Nodup ∧
    ∀ c ∈ km'.clusters, 1 ≤ c.getIDofCluster ∧ c.getIDofCluster ≤ km'.K := by
  have hf := iteration_frame km km' b h
  have hids' := ids_of_idList _ _ hf.2.1 hids
  have hlen : km'.clusters.length = km.clusters.length := by
    have := congrArg List.length hf.2.1
    simpa using this
  have hK' : (km'.clusters.length : Int) = km'.K := by
    rw [hlen, hK, hf.2.2.1]
  obtain ⟨hnd, hrange⟩ := ids_unique _ hids'
  refine ⟨?_, hf, hids', hK', hnd, ?_⟩
  · have hall := iteration_ok_allAssigned km _ h
    have ha := assign_eq km hall
    have hfa := assign_frame km _ ha
    exact ⟨_, ha, hfa, ids_of_idList _ _ hfa.2.1 hids⟩
  · intro c hc
    rw [← hK']
    exact hrange c hc

/-- C19 on a concrete input: the first iteration on the four samples (0,0), (1,0),
(10,10), (11,10) with K = 2. -/
theorem iteration_keeps_frame_witness :
    ∃ km', exampleSeeded.iteration = .ok (true, km') ∧
      FrameKept exampleSeeded km' ∧ IdsInOrder km'.clusters ∧
      (km'.clusters.map Cluster.getIDofCluster).Nodup := by
  obtain ⟨-, hf, hi, -, hn, -⟩ :=
    iteration_keeps_frame exampleSeeded _ true (by decide) (by decide) example_iteration1
  exact ⟨_, example_iteration1, hf, hi, hn⟩

/-- C20. On the two samples at (3, 4) with K = 2 (so 1 ≤ K ≤ N), `initialize` seeds both
clusters at (3, 4) and `updateKM` returns after one iteration a state in which cluster
2 has no member and still holds its seed center (3, 4). And in every completed
iteration, a cluster whose member list is empty after it has the center it had before
it. -/
theorem empty_cluster_keeps_center :
    ( dupLoaded.initialize = .ok dupSeeded ∧
      (∀ n : Nat, KMeans.updateKM (1 + n) dupSeeded = .ok dupFinal) ∧
      dupSeeded.clusters[1]? = some ⟨2, 3, 4, []⟩ ∧
      dupFinal.clusters[1]? = some ⟨2, 3, 4, []⟩) ∧
    ∀ (km km' : KMeans) (b : Bool) (i : Nat) (c c' : Cluster),
      km.iteration = .ok (b, km') → km.clusters[i]? = some c → km'.clusters[i]? = some c' →
      c'.samples = [] →
      c'.getXofCluster = c.getXofCluster ∧ c'.getYofCluster = c.getYofCluster := by
  refine ⟨⟨dup_seeding, fun n => updateKM_more_fuel 1 n _ _ dup_run, rfl, rfl⟩, ?_⟩
  intro km km' b i c c' h hc hc' he
  exact iteration_empty_center km km' b i c c' h hc hc' he

/-- C20 on a concrete input: the iteration on the two samples at (3, 4) and its second
cluster. -/
theorem empty_cluster_keeps_center_witness :
    dupSeeded.iteration = .ok (false, dupFinal) ∧
    Cluster.getXofCluster ⟨2, 3, 4, []⟩ = 3 ∧ Cluster.getYofCluster ⟨2, 3, 4, []⟩ = 4 :=
  ⟨dup_iteration,
    empty_cluster_keeps_center.2 dupSeeded dupFinal false 1 ⟨2, 3, 4, []⟩ ⟨2, 3, 4, []⟩
      dup_iteration rfl rfl rfl⟩

/-! ## Member positions -/

theorem mem_memberPositions (cl : List Cluster) (l : List Sample) (i p : Nat) :
    p ∈ memberPositions cl 0 l i ↔
      ∃ s, l[p]? = some s ∧ (nearestScan cl s).2 = (i : Int) + 1 := by
  unfold memberPositions
  simp only [List.mem_map, List.mem_filter, decide_eq_true_eq, Prod.exists]
  constructor
  · rintro ⟨q, s, ⟨hmem, hb⟩, rfl⟩
    rw [List.mk_mem_enumFrom_iff_le_and_getElem?_sub] at hmem
    exact ⟨s, by simpa using hmem.2, hb⟩
  · rintro ⟨s, hs, hb⟩
    refine ⟨p, s, ⟨?_, hb⟩, rfl⟩
    rw [List.mk_mem_enumFrom_iff_le_and_getElem?_sub]
    exact ⟨Nat.zero_le _, by simpa using hs⟩

theorem memberPositions_nodup (cl : List Cluster) (j : Nat) (l : List Sample) (i : Nat) :
    (memberPositions cl j l i).Nodup := by
  unfold memberPositions
  have hsub : List.Sublist (((l.enumFrom j).filter
      (fun ps => decide ((nearestScan cl ps.2).2 = (i : Int) + 1))).map Prod.fst)
      ((l.enumFrom j).map Prod.fst) :=
    (List.filter_sublist _).map Prod.fst
  rw [List.enumFrom_map_fst] at hsub
  exact List.Nodup.sublist hsub (List.nodup_range' _ _)

/-! ## Samples with a cluster within reach -/

theorem near_allAssigned (cl : List Cluster) (l : List Sample) (hids : IdsInOrder cl)
    (hnear : ∀ s ∈ l, ∃ c ∈ cl, distSq s c < maxDouble ^ 2) : AllAssigned cl l := by
  intro s hs
  rcases nearestScan_cases s cl with ⟨-, hall⟩ | ⟨i, c, hi, heq, -, -, -⟩
  · obtain ⟨c, hc, hlt⟩ := hnear s hs
    exact absurd hlt (not_lt.2 (hall c hc))
  · refine ⟨i, (List.getElem?_eq_some_iff.1 hi).1, ?_⟩
    rw [heq]
    exact hids i c hi

/-! ## The within-cluster cost -/

theorem find_from (k : Int) (cl : List Cluster)
    (h : ∀ (i : Nat) (c : Cluster), cl[i]? = some c → c.clusterID = k + i)
    (i : Nat) (c : Cluster) (hi : cl[i]? = some c) :
    cl.find? (fun c => decide (c.getIDofCluster = k + i)) = some c := by
  induction cl generalizing k i with
  | nil => simp at hi
  | cons a cl ih =>
    cases i with
    | zero =>
      simp only [List.getElem?_cons_zero, Option.some.injEq] at hi
      subst hi
      have := h 0 a (by simp)
      simp [List.find?_cons, Cluster.getIDofCluster, this]
    | succ n =>
      have ha := h 0 a (by simp)
      have hne : ¬ a.clusterID = k + ((n + 1 : Nat) : Int) := by
        rw [ha]
        push_cast
        omega
      rw [List.find?_cons]
      simp only [Cluster.getIDofCluster, hne, decide_False]
      have hrec := ih (k + 1)
        (fun j c' hj => by
          have := h (j + 1) c' (by simpa using hj)
          rw [this]
          push_cast
          ring)
        n (by simpa using hi)
      have hk : k + ((n + 1 : Nat) : Int) = k + 1 + (n : Int) := by
        push_cast
        ring
      rw [hk]
      exact hrec

theorem find_by_id (cl : List Cluster) (hids : IdsInOrder cl) (i : Nat) (c : Cluster)
    (hi : cl[i]? = some c) :
    cl.find? (fun c => decide (c.getIDofCluster = (i : Int) + 1)) = some c := by
  have h := find_from 1 cl
    (fun j c' hj => by rw [hids j c' hj]; ring) i c hi
  have hk : (1 : Int) + (i : Int) = (i : Int) + 1 := by ring
  rw [hk] at h
  exact h

theorem labelDist_eq (cl : List Cluster) (hids : IdsInOrder cl) (s : Sample) (i : Nat)
    (hi : i < cl.length) (hl : s.cID = some ((i : Int) + 1)) :
    labelDist cl s = distTo cl i s := by
  have hget : cl[i]? = some cl[i] := List.getElem?_eq_getElem hi
  simp only [labelDist, Sample.getClusterID, hl, find_by_id cl hids i _ hget, distTo, hget,
    Option.map_some', Option.getD_some]

/-- The cost the scan finds is at most the within-cluster cost of the labels the samples
carry, when every label is the id of a cluster. -/
theorem cost_le_within (cl : List Cluster) (l : List Sample) (hids : IdsInOrder cl)
    (hl : ∀ s ∈ l, ∃ i : Nat, i < cl.length ∧ s.cID = some ((i : Int) + 1)) :
    cost cl l ≤ (l.map (labelDist cl)).sum := by
  unfold cost
  apply List.sum_le_sum
  intro s hs
  obtain ⟨i, hi, hlab⟩ := hl s hs
  rw [labelDist_eq cl hids s i hi hlab]
  have hget : cl[i]? = some cl[i] := List.getElem?_eq_getElem hi
  simp only [distTo, hget, Option.map_some', Option.getD_some]
  exact scan_min_le cl s _ (List.getElem_mem _)

theorem cost_regroup (cl : List Cluster) (l : List Sample) (hids : IdsInOrder cl)
    (hall : AllAssigned cl l) :
    cost cl l =
      Finset.sum (Finset.range cl.length)
        (fun i => ((labelled cl l i).map (distTo cl i)).sum) := by
  unfold labelled
  rw [← sum_regroup (fun s => (nearestScan cl s).2) cl.length (distTo cl) l hall]
  unfold cost
  congr 1
  apply List.map_congr_left
  intro s hs
  exact scan_eq_distTo cl s hids (hall s hs)

/-- The within-cluster cost after an iteration, cluster by cluster. -/
theorem within_next (cl : List Cluster) (l : List Sample) (hids : IdsInOrder cl)
    (hall : AllAssigned cl l) :
    ((l.map (relabel cl)).map (labelDist (nextClusters cl l))).sum =
      Finset.sum (Finset.range cl.length)
        (fun i => ((labelled cl l i).map (distTo (nextClusters cl l) i)).sum) := by
  unfold labelled
  rw [← sum_regroup (fun s => (nearestScan cl s).2) cl.length
    (distTo (nextClusters cl l)) l hall, List.map_map]
  congr 1
  apply List.map_congr_left
  intro s hs
  obtain ⟨i, hi, hb⟩ := hall s hs
  have hidx : ((nearestScan cl s).2 - 1).toNat = i := by omega
  simp only [Function.comp, hidx]
  rw [labelDist_eq (nextClusters cl l) (nextClusters_ids cl l hids) (relabel cl s) i
    (by rw [nextClusters_length]; exact hi)
    (by simp [relabel, Sample.setClusterID, hb])]
  rfl

/-- Over an iteration that follows a completed iteration the within-cluster cost does
not grow, and it falls when a center moves. -/
theorem within_step (cl : List Cluster) (l : List Sample) (hids : IdsInOrder cl)
    (hall : AllAssigned cl l)
    (hl : ∀ s ∈ l, ∃ i : Nat, i < cl.length ∧ s.cID = some ((i : Int) + 1)) :
    ((l.map (relabel cl)).map (labelDist (nextClusters cl l))).sum ≤
      (l.map (labelDist cl)).sum ∧
    ((∃ (i : Nat) (c : Cluster), cl[i]? = some c ∧
        nextCenter cl l i c ≠ (c.centerX, c.centerY)) →
      ((l.map (relabel cl)).map (labelDist (nextClusters cl l))).sum <
        (l.map (labelDist cl)).sum) := by
  have h1 := cost_le_within cl l hids hl
  rw [cost_regroup cl l hids hall] at h1
  rw [within_next cl l hids hall]
  constructor
  · refine le_trans ?_ h1
    apply Finset.sum_le_sum
    intro i _
    exact labelled_sum_le cl l i
  · rintro ⟨i, c, hci, hne⟩
    refine lt_of_lt_of_le ?_ h1
    apply Finset.sum_lt_sum
    · intro i _
      exact labelled_sum_le cl l i
    · refine ⟨i, ?_, labelled_sum_lt cl l i c hci hne⟩
      rw [Finset.mem_range]
      exact (List.getElem?_eq_some_iff.1 hci).1

/-! ## Main result on the within-cluster cost -/

/-- C22. Take an iteration of `updateKM` that follows a completed iteration, on an
engine whose clusters are numbered in order (as `initialize` leaves them and every
iteration keeps them), with coordinates as exact rationals. The within-cluster cost at
its end, the sum over the samples of the squared distance to the center of the cluster
the sample is labelled with, is at most the cost at the end of the iteration before,
and it is smaller when the iteration ends with `changed = true`, that is when some
`calculateCenter` call in it returned true. -/
theorem within_cost_decreases (km0 km1 km2 : KMeans) (b0 b1 : Bool)
    (hids : IdsInOrder km0.clusters) (h0 : km0.iteration = .ok (b0, km1))
    (h1 : km1.iteration = .ok (b1, km2)) :
    km2.withinCost ≤ km1.withinCost ∧ (b1 = true → km2.withinCost < km1.withinCost) := by
  obtain ⟨hall0, hkm1, -⟩ := iteration_ok km0 km1 b0 h0
  obtain ⟨hall1, hkm2, hb1⟩ := iteration_ok km1 km2 b1 h1
  have hids1 : IdsInOrder km1.clusters := by
    rw [hkm1]
    exact nextClusters_ids _ _ hids
  have hl : ∀ s ∈ km1.samples, ∃ i : Nat, i < km1.clusters.length ∧
      s.cID = some ((i : Int) + 1) := by
    rw [hkm1]
    intro s hs
    obtain ⟨s0, hs0, rfl⟩ := List.mem_map.1 hs
    obtain ⟨i, hi, hb⟩ := hall0 s0 hs0
    exact ⟨i, by simpa [nextClusters_length] using hi,
      by simp [relabel, Sample.setClusterID, hb]⟩
  have hstep := within_step km1.clusters km1.samples hids1 hall1 hl
  have hw2 : km2.withinCost =
      ((km1.samples.map (relabel km1.clusters)).map
        (labelDist (nextClusters km1.clusters km1.samples))).sum := by
    rw [hkm2]
    rfl
  rw [hw2]
  exact ⟨hstep.1, fun hb => hstep.2 (hb1.1 hb)⟩

/-- The within-cluster costs after the second and after the first iteration of the
example run. -/
theorem example_costs :
    exampleFinal.withinCost = 1 ∧
    KMeans.withinCost
        { exampleLoaded with
          samples := [⟨1, some 1, 0, 0⟩, ⟨2, some 2, 1, 0⟩, ⟨3, some 2, 10, 10⟩,
            ⟨4, some 2, 11, 10⟩],
          clusters := [⟨1, 0, 0, [0]⟩, ⟨2, 22 / 3, 20 / 3, [1, 2, 3]⟩] } = 382 / 3 := by
  constructor <;>
    norm_num [KMeans.withinCost, labelDist, exampleFinal, exampleLoaded, distSq,
      Sample.getClusterID, Cluster.getIDofCluster, List.find?]

/-- C22 on a concrete input: the second iteration on the four samples (0,0), (1,0),
(10,10), (11,10) with K = 2, which moves both centers; the cost falls from 382/3 to 1. -/
theorem within_cost_decreases_witness :
    exampleFinal.withinCost = 1 ∧
    KMeans.withinCost
        { exampleLoaded with
          samples := [⟨1, some 1, 0, 0⟩, ⟨2, some 2, 1, 0⟩, ⟨3, some 2, 10, 10⟩,
            ⟨4, some 2, 11, 10⟩],
          clusters := [⟨1, 0, 0, [0]⟩, ⟨2, 22 / 3, 20 / 3, [1, 2, 3]⟩] } = 382 / 3 ∧
    exampleFinal.withinCost <
      KMeans.withinCost
        { exampleLoaded with
          samples := [⟨1, some 1, 0, 0⟩, ⟨2, some 2, 1, 0⟩, ⟨3, some 2, 10, 10⟩,
            ⟨4, some 2, 11, 10⟩],
          clusters := [⟨1, 0, 0, [0]⟩, ⟨2, 22 / 3, 20 / 3, [1, 2, 3]⟩] } :=
  ⟨example_costs.1, example_costs.2,
    (within_cost_decreases exampleSeeded _ exampleFinal true true (by decide)
      example_iteration1 example_iteration2).2 rfl⟩

/-! ## The member lists after an assignment pass -/

theorem memberPositions_sorted (cl : List Cluster) (j : Nat) (l : List Sample) (i : Nat) :
    (memberPositions cl j l i).Pairwise (fun a b => a < b) := by
  unfold memberPositions
  have hsub : List.Sublist (((l.enumFrom j).filter
      (fun ps => decide ((nearestScan cl ps.2).2 = (i : Int) + 1))).map Prod.fst)
      ((l.enumFrom j).map Prod.fst) :=
    (List.filter_sublist _).map Prod.fst
  rw [List.enumFrom_map_fst] at hsub
  exact List.Pairwise.sublist hsub (List.pairwise_lt_range' _ _)

theorem sum_range_list (f : Nat → Nat) (n : Nat) :
    ((List.range n).map f).sum = Finset.sum (Finset.range n) f := by
  induction n with
  | zero => simp
  | succ n ih => rw [List.range_succ, List.map_append, List.sum_append, ih,
      Finset.sum_range_succ]; simp

theorem memberPositions_count (cl : List Cluster) (K j : Nat) (l : List Sample)
    (h : ∀ s ∈ l, ∃ i : Nat, i < K ∧ (nearestScan cl s).2 = (i : Int) + 1) :
    Finset.sum (Finset.range K) (fun i => (memberPositions cl j l i).length) = l.length := by
  induction l generalizing j with
  | nil => simp [memberPositions_nil]
  | cons s l ih =>
    obtain ⟨i0, hi0, hb⟩ := h s (List.mem_cons_self _ _)
    have hstep : ∀ i : Nat, (memberPositions cl j (s :: l) i).length =
        (if i0 = i then 1 else 0) + (memberPositions cl (j + 1) l i).length := by
      intro i
      rw [memberPositions_cons, List.length_append]
      by_cases hi : i0 = i
      · have : (nearestScan cl s).2 = (i : Int) + 1 := by omega
        simp [hi, this]
      · have : ¬ (nearestScan cl s).2 = (i : Int) + 1 := by omega
        simp [hi, this]
    simp only [hstep, Finset.sum_add_distrib,
      ih (j + 1) (fun t ht => h t (List.mem_cons_of_mem _ ht)), List.length_cons]
    rw [Finset.sum_ite_eq, if_pos (Finset.mem_range.2 hi0)]
    omega

theorem assignedClusters_sizes (cl : List Cluster) (l : List Sample) :
    (assignedClusters cl l).map (fun c => c.samples.length) =
      (List.range cl.length).map (fun i : Nat => (memberPositions cl 0 l i).length) := by
  apply List.ext_getElem?
  intro i
  rw [List.getElem?_map, List.getElem?_map, assignedClusters_getElem?]
  cases hci : cl[i]? with
  | none =>
    have : cl.length ≤ i := by
      by_contra hlt
      rw [List.getElem?_eq_getElem (not_le.1 hlt)] at hci
      exact Option.noConfusion hci
    rw [List.getElem?_eq_none (by simpa using this)]
    rfl
  | some c =>
    have hlt := (List.getElem?_eq_some_iff.1 hci).1
    rw [List.getElem?_range hlt]
    rfl

/-- What a completed assignment pass leaves, on clusters numbered in order: every
sample lies in the member list of exactly one cluster, the one whose id is its label;
every member list is without repetition, in load order and within the sample vector;
and the member counts add up to the number of samples. -/
theorem assignment_partitions (km km1 : KMeans) (hids : IdsInOrder km.clusters)
    (h : km.assignSamplesToClusters = .ok km1) :
    (∀ (p : Nat) (s : Sample), km1.samples[p]? = some s →
      ∃ (i : Nat) (c : Cluster), s.getClusterID = some ((i : Int) + 1) ∧
        km1.clusters[i]? = some c ∧ c.getIDofCluster = (i : Int) + 1 ∧ p ∈ c.samples ∧
        ∀ (j : Nat) (c' : Cluster), km1.clusters[j]? = some c' → p ∈ c'.samples → j = i) ∧
    (∀ c ∈ km1.clusters, c.samples.Nodup ∧ c.samples.Pairwise (fun a b => a < b) ∧
      ∀ p ∈ c.samples, p < km1.samples.length) ∧
    (km1.clusters.map (fun c => c.samples.length)).sum = km1.samples.length := by
  have hall := assign_ok_allAssigned km km1 h
  rw [assign_eq km hall] at h
  injection h with h
  subst h
  refine ⟨?_, ?_, ?_⟩
  · intro p s hp
    simp only [List.getElem?_map] at hp
    cases hl : km.samples[p]? with
    | none => simp [hl] at hp
    | some s0 =>
      simp only [hl, Option.map_some', Option.some.injEq] at hp
      subst hp
      obtain ⟨i, hi, hb⟩ := hall s0 (List.getElem?_mem hl)
      have hget : km.clusters[i]? = some km.clusters[i] := List.getElem?_eq_getElem hi
      refine ⟨i, { km.clusters[i] with samples := memberPositions km.clusters 0 km.samples i },
        ?_, ?_, ?_, ?_, ?_⟩
      · simp [relabel, Sample.setClusterID, Sample.getClusterID, hb]
      · simp only [assignedClusters_getElem?, hget, Option.map_some']
      · exact hids i km.clusters[i] hget
      · exact (mem_memberPositions _ _ _ _).2 ⟨s0, hl, hb⟩
      · intro j c' hj hpj
        simp only [assignedClusters_getElem?] at hj
        cases hcj : km.clusters[j]? with
        | none => simp [hcj] at hj
        | some cj =>
          simp only [hcj, Option.map_some', Option.some.injEq] at hj
          subst hj
          obtain ⟨s', hs', hb'⟩ := (mem_memberPositions _ _ _ _).1 hpj
          rw [hl] at hs'
          injection hs' with hs'
          subst hs'
          omega
  · intro c hc
    obtain ⟨i, hi⟩ := List.getElem?_of_mem hc
    simp only [assignedClusters_getElem?] at hi
    cases hci : km.clusters[i]? with
    | none => simp [hci] at hi
    | some c0 =>
      simp only [hci, Option.map_some', Option.some.injEq] at hi
      subst hi
      refine ⟨memberPositions_nodup _ _ _ _, memberPositions_sorted _ _ _ _, ?_⟩
      intro p hp
      have := memberPositions_lt km.clusters 0 km.samples i p hp
      simp only [List.length_map]
      omega
  · show ((assignedClusters km.clusters km.samples).map (fun c => c.samples.length)).sum =
      (km.samples.map (relabel km.clusters)).length
    rw [assignedClusters_sizes, sum_range_list, memberPositions_count _ _ _ _ hall,
      List.length_map]

/-- C21, the code at a failing input: the records `1 0 0` and `2 DBL_MAX 0` with K = 1,
so 1 ≤ K ≤ N = 2. `initialize` creates the one cluster, with id 1, at (0, 0). The first
assignment pass records the first sample in that cluster's member list; for the second
sample the scan leaves `bestClusterID = -1`, which is the id of no cluster, so the
sample is recorded in no cluster's member list (the one list holds 1 of the 2 samples)
and the pass ends in the out-of-range lookup `clusters[-2]`. -/
theorem far_sample_in_no_member_list :
    (farLoaded.K = 1 ∧ farLoaded.samples.length = 2) ∧
    farLoaded.initialize = .ok farSeeded ∧
    farSeeded.clusters.map Cluster.getIDofCluster = [1] ∧
    (nearestScan (farSeeded.clusters.map Cluster.clearSamples) ⟨1, none, 0, 0⟩).2 = 1 ∧
    List.modify (fun c => c.addSample 0) 0 (farSeeded.clusters.map Cluster.clearSamples) =
      [⟨1, 0, 0, [0]⟩] ∧
    (nearestScan [⟨1, 0, 0, [0]⟩] ⟨2, none, maxDouble, 0⟩).2 = -1 ∧
    assignLoop 1 [⟨2, none, maxDouble, 0⟩] [⟨1, 0, 0, [0]⟩] = .error Fault.out_of_range ∧
    farSeeded.assignSamplesToClusters = .error Fault.out_of_range := by
  refine ⟨⟨rfl, rfl⟩, ?_, rfl, ?_, ?_, ?_, ?_, ?_⟩
  · simp [farLoaded, farSeeded, KMeans.initialize, initLoop, Cluster.ctor]
  · norm_num [farSeeded, nearestScan, scanStep, distSq, maxDouble, Cluster.clearSamples]
  · simp [farSeeded, Cluster.clearSamples, Cluster.addSample, List.modify,
      List.modifyTailIdx, List.modifyHead]
  · norm_num [nearestScan, scanStep, distSq]
  · norm_num [assignLoop, nearestScan, scanStep, distSq]
  · norm_num [farSeeded, KMeans.assignSamplesToClusters, assignLoop, nearestScan, scanStep,
      distSq, maxDouble, Cluster.clearSamples, Cluster.addSample, Sample.setClusterID,
      List.modify, List.modifyTailIdx, List.modifyHead]

/-! ## The arithmetic of `double`: order and special values -/

theorem round_cases (neg : Bool) (a d : Nat) :
    Double.round neg a d = .pinf ∨ Double.round neg a d = .ninf ∨
      ∃ n : Int, Double.round neg a d = .fin n := by
  unfold Double.round
  simp only
  split
  · cases neg <;> simp
  · exact Or.inr (Or.inr ⟨_, rfl⟩)

theorem round_ne_nan (neg : Bool) (a d : Nat) : Double.round neg a d ≠ .nan := by
  rcases round_cases neg a d with h | h | ⟨n, h⟩ <;> rw [h] <;> simp

/-- A value that is not negative: +inf or a finite value of a natural number of units. -/
theorem round_false_cases (a d : Nat) :
    Double.round false a d = .pinf ∨ ∃ m : Nat, Double.round false a d = .fin (m : Int) := by
  unfold Double.round
  simp only
  split
  · left; rfl
  · right; exact ⟨_, rfl⟩

theorem double_lt_trans (a b c : Double) (h1 : Double.lt a b = true)
    (h2 : Double.lt b c = true) : Double.lt a c = true := by
  cases a <;> cases b <;> cases c <;> simp_all [Double.lt]
  omega

theorem double_lt_irrefl (a : Double) : Double.lt a a = false := by
  cases a <;> simp [Double.lt]

theorem double_le_of_not_lt (a b : Double) (ha : a ≠ .nan) (hb : b ≠ .nan)
    (h : Double.lt a b = false) : Double.le b a = true := by
  cases a <;> cases b <;> simp_all [Double.lt, Double.le]

theorem double_lt_ne_nan (a b : Double) (h : Double.lt a b = true) : a ≠ .nan ∧ b ≠ .nan := by
  cases a <;> cases b <;> simp_all [Double.lt]

theorem double_ne_false (a b : Double) (h : Double.ne a b = false) : a = b ∧ a ≠ .nan := by
  cases a <;> cases b <;> simp_all [Double.ne]

theorem double_ne_self (a : Double) (h : a ≠ .nan) : Double.ne a a = false := by
  cases a <;> simp_all [Double.ne]

theorem double_ne_true (a b : Double) (h : a ≠ b) : Double.ne a b = true := by
  cases a <;> cases b <;> simp_all [Double.ne]

theorem add_fin_ne_nan (a : Double) (n : Int) (h : a ≠ .nan) :
    Double.add a (.fin n) ≠ .nan := by
  cases a with
  | fin m => exact round_ne_nan _ _ _
  | pinf => simp [Double.add]
  | ninf => simp [Double.add]
  | nan => exact absurd rfl h

theorem sub_fin_ne_nan (n : Int) (c : Double) (h : c ≠ .nan) :
    Double.sub (.fin n) c ≠ .nan := by
  cases c with
  | fin m => exact round_ne_nan _ _ _
  | pinf => simp [Double.sub, Double.neg, Double.add]
  | ninf => simp [Double.sub, Double.neg, Double.add]
  | nan => exact absurd rfl h

theorem sub_nan (a : Double) : Double.sub a .nan = .nan := by
  cases a <;> rfl

theorem square_cases (a : Double) (h : a ≠ .nan) :
    Double.square a = .pinf ∨ ∃ m : Nat, Double.square a = .fin (m : Int) := by
  cases a with
  | fin n => exact round_false_cases _ _
  | pinf => left; rfl
  | ninf => left; rfl
  | nan => exact absurd rfl h

theorem add_nonneg_cases (a b : Double)
    (ha : a = .pinf ∨ ∃ m : Nat, a = .fin (m : Int))
    (hb : b = .pinf ∨ ∃ m : Nat, b = .fin (m : Int)) :
    Double.add a b = .pinf ∨ ∃ m : Nat, Double.add a b = .fin (m : Int) := by
  rcases ha with rfl | ⟨m, rfl⟩ <;> rcases hb with rfl | ⟨k, rfl⟩
  · left; rfl
  · left; rfl
  · left; rfl
  · have hneg : decide ((m : Int) + (k : Int) < 0) = false := by
      rw [decide_eq_false_iff_not]
      omega
    simp only [Double.add, hneg]
    exact round_false_cases _ _

theorem sqrt_nonneg_cases (a : Double) (ha : a = .pinf ∨ ∃ m : Nat, a = .fin (m : Int)) :
    Double.sqrt a ≠ .nan := by
  rcases ha with rfl | ⟨m, rfl⟩
  · simp [Double.sqrt]
  · have : ¬ ((m : Int) < 0) := by omega
    simp [Double.sqrt, this]

theorem sqrt_nan : Double.sqrt .nan = .nan := rfl

theorem add_nan_left (a : Double) : Double.add .nan a = .nan := by
  cases a <;> rfl

theorem add_nan_right (a : Double) : Double.add a .nan = .nan := by
  cases a <;> rfl

/-! ## The arithmetic of `double`: rounding -/

theorem digitsLoop_zero (fuel : Nat) : Double.digitsLoop fuel 0 = 0 := by
  cases fuel <;> simp [Double.digitsLoop]

theorem digitsLoop_le (fuel n : Nat) (hn : 0 < n) (hf : n < 2 ^ fuel) :
    2 ^ Double.digitsLoop fuel n ≤ 2 * n := by
  induction fuel generalizing n with
  | zero =>
    simp at hf
    omega
  | succ f ih =>
    rw [Double.digitsLoop, if_neg (by omega)]
    have hf' : n < 2 ^ f * 2 := by rw [← pow_succ]; exact hf
    split
    · rename_i h64
      have h64' : (18446744073709551616 : Nat) ≤ n := by simpa using h64
      have h1 := ih (n / 2 ^ 64) (Nat.div_pos h64 (by positivity))
        (by simp only [Nat.reducePow]; omega)
      rw [pow_add]
      simp only [Nat.reducePow] at h1 ⊢
      omega
    · rw [pow_succ]
      by_cases h2 : n / 2 = 0
      · rw [h2, digitsLoop_zero]
        simp
        omega
      · have := ih (n / 2) (by omega) (by omega)
        omega

theorem spacing_pos (q : Nat) : 0 < Double.spacing q := by
  unfold Double.spacing
  positivity

theorem spacing_le (q : Nat) (hq : 0 < q) : Double.spacing q ≤ q := by
  unfold Double.spacing Double.digits
  have h := digitsLoop_le q q hq (Nat.lt_two_pow q)
  by_cases hd : Double.digitsLoop q q = 0
  · rw [hd]
    simpa using hq
  · have h1 : 2 ^ (Double.digitsLoop q q - 53) * 2 ≤ 2 ^ Double.digitsLoop q q := by
      rw [← pow_succ]
      exact Nat.pow_le_pow_right (by norm_num) (by omega)
    omega

theorem nearest_one_bounds (a : Nat) (ha : 0 < a) :
    0 < Double.nearest a 1 ∧ Double.nearest a 1 ≤ 2 * a := by
  unfold Double.nearest
  simp only [Nat.div_one, one_mul]
  have hu := spacing_pos a
  have hle := spacing_le a ha
  generalize Double.spacing a = u at hu hle
  have ht : 1 ≤ a / u := (Nat.one_le_div_iff hu).2 hle
  have htu : a / u * u ≤ a := Nat.div_mul_le_self a u
  have hup : ∀ t' : Nat, a / u ≤ t' → t' ≤ a / u + 1 → 0 < t' * u ∧ t' * u ≤ 2 * a := by
    intro t' h1 h2
    constructor
    · exact Nat.mul_pos (by omega) hu
    · calc t' * u ≤ (a / u + 1) * u := Nat.mul_le_mul_right u h2
        _ = a / u * u + u := by ring
        _ ≤ 2 * a := by omega
  split
  · exact hup _ (le_refl _) (by omega)
  · split
    · exact hup _ (by omega) (le_refl _)
    · exact hup _ (by omega) (by omega)

theorem two_pow_mul_le (a b c : Nat) (h : a + b + 1 ≤ c) :
    (2 : Nat) * (2 ^ a * 2 ^ b) ≤ 2 ^ c := by
  have h1 : (2 : Nat) * (2 ^ a * 2 ^ b) = 2 ^ (a + b + 1) := by
    rw [pow_succ, pow_add]
    ring
  rw [h1]
  exact Nat.pow_le_pow_right (by omega) h

/-- The conversion of a positive count below 2^64 is a positive finite double. -/
theorem ofNat_pos (n : Nat) (hn : 0 < n) (h64 : n < 2 ^ 64) :
    ∃ m : Nat, 0 < m ∧ Double.ofNat n = .fin (m : Int) := by
  have hU : 0 < Double.unitsInOne := by
    unfold Double.unitsInOne
    positivity
  obtain ⟨hpos, hle⟩ := nearest_one_bounds (n * Double.unitsInOne) (Nat.mul_pos hn hU)
  have hov : ¬ Double.overflow ≤ Double.nearest (n * Double.unitsInOne) 1 := by
    have h1 : n * Double.unitsInOne < 2 ^ 64 * 2 ^ 1074 := by
      unfold Double.unitsInOne
      exact Nat.mul_lt_mul_of_pos_right h64 (by positivity)
    have h2 : (2 : Nat) * (2 ^ 64 * 2 ^ 1074) ≤ Double.overflow := by
      unfold Double.overflow
      exact two_pow_mul_le 64 1074 2098 (by omega)
    omega
  refine ⟨Double.nearest (n * Double.unitsInOne) 1, hpos, ?_⟩
  unfold Double.ofNat Double.round
  simp only [if_neg hov]
  rfl

/-- Rounding the fraction `a * k / k` is rounding `a`. -/
theorem nearest_scale (a k : Nat) (hk : 0 < k) :
    Double.nearest (a * k) k = Double.nearest a 1 := by
  unfold Double.nearest
  simp only [Nat.mul_div_cancel a hk, Nat.div_one, one_mul]
  generalize Double.spacing a = u
  have h1 : a * k / (k * u) = a / u := by
    rw [Nat.mul_comm k u]
    exact Nat.mul_div_mul_right a u hk
  have h2 : a * k % (k * u) = k * (a % u) := by
    rw [Nat.mul_comm a k]
    exact Nat.mul_mod_mul_left k a u
  rw [h1, h2]
  have c1 : (2 * (k * (a % u)) < k * u) ↔ (2 * (a % u) < u) := by
    rw [show 2 * (k * (a % u)) = k * (2 * (a % u)) by ring]
    exact Nat.mul_lt_mul_left hk
  have c2 : (k * u < 2 * (k * (a % u))) ↔ (u < 2 * (a % u)) := by
    rw [show 2 * (k * (a % u)) = k * (2 * (a % u)) by ring]
    exact Nat.mul_lt_mul_left hk
  simp only [c1, c2]

theorem div_ne_nan (a : Double) (m : Nat) (ha : a ≠ .nan) (hm : 0 < m) :
    Double.div a (.fin (m : Int)) ≠ .nan := by
  have hm0 : ¬ ((m : Int) = 0) := by omega
  have hm1 : ¬ ((m : Int) < 0) := by omega
  cases a with
  | fin n =>
    simp only [Double.div, if_neg hm0]
    exact round_ne_nan _ _ _
  | pinf => simp [Double.div, hm1]
  | ninf => simp [Double.div, hm1]
  | nan => exact absurd rfl ha

/-! ## The arithmetic of `double`: the rounding is to nearest -/

theorem digitsLoop_gt (fuel n : Nat) (hf : n < 2 ^ fuel) : n < 2 ^ Double.digitsLoop fuel n := by
  induction fuel generalizing n with
  | zero =>
    simp at hf
    subst hf
    simp [Double.digitsLoop]
  | succ f ih =>
    rw [Double.digitsLoop]
    have hf' : n < 2 ^ f * 2 := by rw [← pow_succ]; exact hf
    by_cases h0 : n = 0
    · simp [h0]
    · rw [if_neg h0]
      split
      · rename_i h64
        have h1 := ih (n / 2 ^ 64) (by simp only [Nat.reducePow]; omega)
        rw [pow_add]
        simp only [Nat.reducePow] at h1 ⊢
        omega
      · rw [pow_succ]
        have := ih (n / 2) (by omega)
        omega

/-- A step of Heron's iteration from a guess above the root stays above the root. -/
theorem heron_step (n r : Nat) (hr : 0 < r) :
    n < ((r + n / r) / 2 + 1) * ((r + n / r) / 2 + 1) := by
  have h1 : n < (n / r + 1) * r := by
    have := Nat.div_add_mod n r
    have := Nat.mod_lt n hr
    nlinarith
  generalize n / r = q at h1
  have h2 : r + q + 1 ≤ 2 * ((r + q) / 2 + 1) := by omega
  generalize (r + q) / 2 = m at h2
  have h3 : 4 * ((q + 1) * r) ≤ (r + q + 1) * (r + q + 1) := by
    zify
    nlinarith [sq_nonneg ((r : Int) - (q + 1))]
  have h4 : (r + q + 1) * (r + q + 1) ≤ (2 * (m + 1)) * (2 * (m + 1)) :=
    Nat.mul_le_mul h2 h2
  nlinarith

theorem sqrtLoop_spec (n fuel r : Nat) (hr : 0 < r ∨ n = 0) (hf : r ≤ fuel)
    (h2 : n < (r + 1) * (r + 1)) :
    Double.sqrtLoop n fuel r * Double.sqrtLoop n fuel r ≤ n ∧
      n < (Double.sqrtLoop n fuel r + 1) * (Double.sqrtLoop n fuel r + 1) := by
  induction fuel generalizing r with
  | zero =>
    have hr0 : r = 0 := by omega
    subst hr0
    simp only [Double.sqrtLoop]
    omega
  | succ fuel ih =>
    simp only [Double.sqrtLoop]
    split
    · rename_i hlt
      apply ih
      · rcases hr with hr | hr
        · by_cases hn : n = 0
          · exact Or.inr hn
          · left
            by_cases h : r = 1
            · subst h
              simp only [Nat.div_one]
              omega
            · generalize n / r = q
              omega
        · exact Or.inr hr
      · omega
      · rcases hr with hr | hr
        · exact heron_step n r hr
        · subst hr
          positivity
    · rename_i hge
      refine ⟨?_, h2⟩
      rcases hr with hr | hr
      · have hq : r ≤ n / r := by omega
        calc r * r ≤ n / r * r := Nat.mul_le_mul_right r hq
          _ ≤ n := Nat.div_mul_le_self n r
      · subst hr
        have : r = 0 := by
          simp at hge
          omega
        subst this
        simp

/-- `isqrt` is the integer square root. -/
theorem isqrt_spec (n : Nat) :
    Double.isqrt n * Double.isqrt n ≤ n ∧ n < (Double.isqrt n + 1) * (Double.isqrt n + 1) := by
  unfold Double.isqrt
  apply sqrtLoop_spec
  · left
    positivity
  · exact le_refl _
  · have h := digitsLoop_gt n n (Nat.lt_two_pow n)
    have hd : Double.digits n = Double.digitsLoop n n := rfl
    rw [hd]
    generalize Double.digitsLoop n n = k at h
    have h2 : 2 ^ k ≤ 2 ^ (k / 2 + 1) * 2 ^ (k / 2 + 1) := by
      rw [← pow_add]
      exact Nat.pow_le_pow_right (by norm_num) (by omega)
    have h3 : 2 ^ (k / 2 + 1) * 2 ^ (k / 2 + 1) ≤
        (2 ^ (k / 2 + 1) + 1) * (2 ^ (k / 2 + 1) + 1) :=
      Nat.mul_le_mul (by omega) (by omega)
    omega

/-- `nearest` is a multiple of the spacing at most half a spacing away from the exact
value `a / d`. -/
theorem nearest_spec (a d : Nat) (hd : 0 < d) :
    Double.spacing (a / d) ∣ Double.nearest a d ∧
    2 * |((Double.nearest a d * d : Nat) : Int) - (a : Int)| ≤
      ((d * Double.spacing (a / d) : Nat) : Int) := by
  unfold Double.nearest
  simp only
  have hu := spacing_pos (a / d)
  generalize Double.spacing (a / d) = u at hu
  have hD : 0 < d * u := Nat.mul_pos hd hu
  have hdiv := Nat.div_add_mod a (d * u)
  have hmod := Nat.mod_lt a hD
  generalize a / (d * u) = t at hdiv
  generalize a % (d * u) = r at hdiv hmod
  have key : ∀ t' : Nat, t' * u * d = t' * (d * u) := fun t' => by ring
  have ha : (a : Int) = ((d * u : Nat) : Int) * t + r := by exact_mod_cast hdiv.symm
  have hdown : 2 * r ≤ d * u →
      2 * |((t * (d * u) : Nat) : Int) - (a : Int)| ≤ ((d * u : Nat) : Int) := by
    intro h
    have e : ((t * (d * u) : Nat) : Int) - (a : Int) = -(r : Int) := by
      rw [ha]
      push_cast
      ring
    rw [e, abs_neg, abs_of_nonneg (by positivity)]
    exact_mod_cast h
  have hup : d * u ≤ 2 * r →
      2 * |(((t + 1) * (d * u) : Nat) : Int) - (a : Int)| ≤ ((d * u : Nat) : Int) := by
    intro h
    have e : (((t + 1) * (d * u) : Nat) : Int) - (a : Int) =
        ((d * u : Nat) : Int) - (r : Int) := by
      rw [ha]
      push_cast
      ring
    have hnn : (0 : Int) ≤ ((d * u : Nat) : Int) - (r : Int) := by
      have : (r : Int) ≤ ((d * u : Nat) : Int) := by exact_mod_cast hmod.le
      omega
    rw [e, abs_of_nonneg hnn]
    have : ((d * u : Nat) : Int) ≤ 2 * (r : Int) := by exact_mod_cast h
    omega
  refine ⟨Dvd.intro_left _ rfl, ?_⟩
  split
  · rename_i h
    rw [key]
    exact hdown h.le
  · split
    · rename_i h1 h2
      rw [key]
      exact hup h2.le
    · rename_i h1 h2
      have hr : 2 * r = d * u := by omega
      rw [key]
      rcases Nat.mod_two_eq_zero_or_one t with h | h
      · rw [h]
        exact hdown hr.le
      · rw [h]
        exact hup hr.ge

/-! ## Over `double`: the summation loop and `calculateCenter` -/

theorem b64_sumLoop_ok (mem : List Binary64.Sample) (ps : List Nat) (acc r : Double × Double)
    (h : Binary64.Cluster.sumLoop mem ps acc = .ok r) :
    (∀ p ∈ ps, p < mem.length) ∧
    r = (((ps.filterMap (fun p => mem[p]?)).map Binary64.Sample.getX).foldl Double.add acc.1,
         ((ps.filterMap (fun p => mem[p]?)).map Binary64.Sample.getY).foldl Double.add acc.2) := by
  induction ps generalizing acc with
  | nil =>
    simp only [Binary64.Cluster.sumLoop] at h
    injection h with h
    subst h
    simp
  | cons p ps ih =>
    simp only [Binary64.Cluster.sumLoop] at h
    cases hp : mem[p]? with
    | none =>
      rw [hp] at h
      exact Except.noConfusion h
    | some s =>
      rw [hp] at h
      obtain ⟨hv, hr⟩ := ih _ h
      have hlt : p < mem.length := (List.getElem?_eq_some_iff.1 hp).1
      refine ⟨?_, ?_⟩
      · intro q hq
        rcases List.mem_cons.1 hq with rfl | hq
        · exact hlt
        · exact hv q hq
      · rw [hr]
        simp [List.filterMap_cons, hp]

theorem b64_sumLoop_eq (mem : List Binary64.Sample) (ps : List Nat) (acc : Double × Double)
    (h : ∀ p ∈ ps, p < mem.length) :
    Binary64.Cluster.sumLoop mem ps acc =
      .ok (((ps.filterMap (fun p => mem[p]?)).map Binary64.Sample.getX).foldl Double.add acc.1,
           ((ps.filterMap (fun p => mem[p]?)).map Binary64.Sample.getY).foldl Double.add
             acc.2) := by
  induction ps generalizing acc with
  | nil => simp [Binary64.Cluster.sumLoop]
  | cons p ps ih =>
    have hp : p < mem.length := h p (List.mem_cons_self _ _)
    have hps : ∀ q ∈ ps, q < mem.length := fun q hq => h q (List.mem_cons_of_mem _ hq)
    have hget : mem[p]? = some mem[p] := List.getElem?_eq_getElem hp
    simp only [Binary64.Cluster.sumLoop, hget, List.filterMap_cons, List.map_cons,
      List.foldl_cons]
    rw [ih _ hps]

theorem b64_members_length (mem : List Binary64.Sample) (c : Binary64.Cluster)
    (h : c.ValidIn mem) : (c.members mem).length = c.samples.length := by
  unfold Binary64.Cluster.members
  unfold Binary64.Cluster.ValidIn at h
  generalize c.samples = ps at h
  induction ps with
  | nil => rfl
  | cons p ps ih =>
    have hp : p < mem.length := h p (List.mem_cons_self _ _)
    have hget : mem[p]? = some mem[p] := List.getElem?_eq_getElem hp
    simp [List.filterMap_cons, hget, ih (fun q hq => h q (List.mem_cons_of_mem _ hq))]

theorem b64_isEmpty_false (ps : List Nat) (hne : ps ≠ []) : ps.isEmpty = false := by
  cases ps with
  | nil => exact absurd rfl hne
  | cons a l => rfl

/-- The value of `calculateCenter` on a cluster with members. -/
theorem b64_calculateCenter_eq (mem : List Binary64.Sample) (c : Binary64.Cluster)
    (hne : c.samples ≠ []) (hv : c.ValidIn mem) :
    c.calculateCenter mem =
      .ok (Double.ne (Binary64.mean ((c.members mem).map Binary64.Sample.getX)) c.centerX ||
             Double.ne (Binary64.mean ((c.members mem).map Binary64.Sample.getY)) c.centerY,
           { c with
             centerX := Binary64.mean ((c.members mem).map Binary64.Sample.getX),
             centerY := Binary64.mean ((c.members mem).map Binary64.Sample.getY) }) := by
  unfold Binary64.Cluster.calculateCenter
  have hlen := b64_members_length mem c hv
  unfold Binary64.Cluster.members at hlen
  rw [b64_isEmpty_false _ hne, b64_sumLoop_eq mem c.samples (.fin 0, .fin 0) hv]
  simp only [Binary64.mean, Binary64.sum, List.length_map, hlen, Binary64.Cluster.members,
    Bool.false_eq_true, if_false]

theorem b64_calculateCenter_empty (mem : List Binary64.Sample) (c : Binary64.Cluster)
    (he : c.samples = []) : c.calculateCenter mem = .ok (false, c) := by
  unfold Binary64.Cluster.calculateCenter
  simp [he]

/-- A call of `calculateCenter` that returns has read valid pointers only. -/
theorem b64_calculateCenter_valid (mem : List Binary64.Sample) (c : Binary64.Cluster)
    (r : Bool × Binary64.Cluster) (h : c.calculateCenter mem = .ok r) : c.ValidIn mem := by
  by_cases he : c.samples = []
  · intro p hp
    rw [he] at hp
    simp at hp
  · unfold Binary64.Cluster.calculateCenter at h
    rw [b64_isEmpty_false _ he] at h
    simp only [Bool.false_eq_true, if_false] at h
    cases hs : Binary64.Cluster.sumLoop mem c.samples (.fin 0, .fin 0) with
    | error e =>
      rw [hs] at h
      exact Except.noConfusion h
    | ok r' => exact (b64_sumLoop_ok mem c.samples _ r' hs).1

theorem b64_calculateCenter_recenter (mem : List Binary64.Sample) (c : Binary64.Cluster)
    (hv : c.ValidIn mem) : c.calculateCenter mem = .ok (c.moved mem, c.recenter mem) := by
  by_cases he : c.samples = []
  · rw [b64_calculateCenter_empty mem c he]
    simp [Binary64.Cluster.moved, Binary64.Cluster.recenter, he]
  · rw [b64_calculateCenter_eq mem c he hv]
    simp [Binary64.Cluster.moved, Binary64.Cluster.recenter, b64_isEmpty_false _ he]

theorem b64_centerLoop_eq (mem : List Binary64.Sample) (cs : List Binary64.Cluster) (b : Bool)
    (hv : ∀ c ∈ cs, c.ValidIn mem) :
    Binary64.centerLoop mem cs b =
      .ok (b || cs.any (fun c => c.moved mem), cs.map (fun c => c.recenter mem)) := by
  induction cs generalizing b with
  | nil => simp [Binary64.centerLoop]
  | cons c cs ih =>
    simp only [Binary64.centerLoop,
      b64_calculateCenter_recenter mem c (hv c (List.mem_cons_self _ _))]
    rw [ih _ (fun c' hc' => hv c' (List.mem_cons_of_mem _ hc'))]
    cases b <;> cases hm : c.moved mem <;> simp [hm]

/-- A run of the center loop that returns has read valid pointers only. -/
theorem b64_centerLoop_valid (mem : List Binary64.Sample) (cs : List Binary64.Cluster)
    (b : Bool) (r : Bool × List Binary64.Cluster) (h : Binary64.centerLoop mem cs b = .ok r) :
    ∀ c ∈ cs, c.ValidIn mem := by
  induction cs generalizing b r with
  | nil => simp
  | cons c cs ih =>
    simp only [Binary64.centerLoop] at h
    cases hc : c.calculateCenter mem with
    | error e =>
      rw [hc] at h
      exact Except.noConfusion h
    | ok rc =>
      rw [hc] at h
      simp only at h
      cases hr : Binary64.centerLoop mem cs (if rc.1 = true then true else b) with
      | error e =>
        rw [hr] at h
        exact Except.noConfusion h
      | ok rr =>
        intro c' hc'
        rcases List.mem_cons.1 hc' with rfl | hc'
        · exact b64_calculateCenter_valid mem _ rc hc
        · exact ih _ rr hr c' hc'

/-! ## Over `double`: the scan for the nearest center -/

theorem b64_scan_fold {pow2 : Double → Double}
    (s : Binary64.Sample) (cl : List Binary64.Cluster) (acc : Double × Int) :
    (cl.foldl (Binary64.scanStep pow2 s) acc = acc ∧
      ∀ c ∈ cl, Double.lt (Binary64.distance pow2 s c) acc.1 = false) ∨
    (∃ (i : Nat) (c : Binary64.Cluster), cl[i]? = some c ∧
        cl.foldl (Binary64.scanStep pow2 s) acc = (Binary64.distance pow2 s c, c.clusterID) ∧
        Double.lt (Binary64.distance pow2 s c) acc.1 = true ∧
        (∀ c' ∈ cl,
          Double.lt (Binary64.distance pow2 s c') (Binary64.distance pow2 s c) = false)) := by
  induction cl generalizing acc with
  | nil => left; simp
  | cons c0 cl ih =>
    simp only [List.foldl_cons]
    cases hlt : Double.lt (Binary64.distance pow2 s c0) acc.1 with
    | true =>
      have hstep : Binary64.scanStep pow2 s acc c0 =
          (Binary64.distance pow2 s c0, c0.clusterID) := by
        simp [Binary64.scanStep, hlt, Binary64.Cluster.getIDofCluster]
      rw [hstep]
      right
      rcases ih (Binary64.distance pow2 s c0, c0.clusterID) with
        ⟨heq, hall⟩ | ⟨i, c, hi, heq, hlt', hall⟩
      · refine ⟨0, c0, by simp, heq, hlt, ?_⟩
        intro c' hc'
        rcases List.mem_cons.1 hc' with rfl | hc'
        · exact double_lt_irrefl _
        · exact hall c' hc'
      · refine ⟨i + 1, c, by simpa using hi, heq, double_lt_trans _ _ _ hlt' hlt, ?_⟩
        intro c' hc'
        rcases List.mem_cons.1 hc' with rfl | hc'
        · cases h : Double.lt (Binary64.distance pow2 s c') (Binary64.distance pow2 s c) with
          | false => rfl
          | true =>
            have := double_lt_trans _ _ _ h hlt'
            rw [double_lt_irrefl] at this
            exact absurd this (by simp)
        · exact hall c' hc'
    | false =>
      have hstep : Binary64.scanStep pow2 s acc c0 = acc := by simp [Binary64.scanStep, hlt]
      rw [hstep]
      rcases ih acc with ⟨heq, hall⟩ | ⟨i, c, hi, heq, hlt', hall⟩
      · left
        refine ⟨heq, ?_⟩
        intro c' hc'
        rcases List.mem_cons.1 hc' with rfl | hc'
        · exact hlt
        · exact hall c' hc'
      · right
        refine ⟨i + 1, c, by simpa using hi, heq, hlt', ?_⟩
        intro c' hc'
        rcases List.mem_cons.1 hc' with rfl | hc'
        · cases h : Double.lt (Binary64.distance pow2 s c') (Binary64.distance pow2 s c) with
          | false => rfl
          | true =>
            have := double_lt_trans _ _ _ h hlt'
            rw [hlt] at this
            exact absurd this (by simp)
        · exact hall c' hc'

/-- The scan from the sentinel: either no distance is below
`numeric_limits<double>::max()` and the result is -1, or the result is the id of a
cluster whose distance is below it and which no cluster undercuts. -/
theorem b64_nearestScan_cases {pow2 : Double → Double}
    (s : Binary64.Sample) (cl : List Binary64.Cluster) :
    (Binary64.nearestScan pow2 cl s = (Double.maxValue, -1) ∧
      ∀ c ∈ cl, Double.lt (Binary64.distance pow2 s c) Double.maxValue = false) ∨
    (∃ (i : Nat) (c : Binary64.Cluster), cl[i]? = some c ∧
        Binary64.nearestScan pow2 cl s = (Binary64.distance pow2 s c, c.clusterID) ∧
        Double.lt (Binary64.distance pow2 s c) Double.maxValue = true ∧
        (∀ c' ∈ cl,
          Double.lt (Binary64.distance pow2 s c') (Binary64.distance pow2 s c) = false)) :=
  b64_scan_fold s cl (Double.maxValue, -1)

/-! ## Over `double`: the sample loop of the assignment pass -/

theorem b64_scan_fold_keys {pow2 : Double → Double}
    (s : Binary64.Sample) (cl : List Binary64.Cluster)
    (acc : Double × Int) :
    cl.foldl (Binary64.scanStep pow2 s) acc =
      (cl.map Binary64.Cluster.key).foldl
        (fun a k =>
          if Double.lt (Double.sqrt (Double.add (pow2 (Double.sub s.x k.2.1))
              (pow2 (Double.sub s.y k.2.2)))) a.1
          then (Double.sqrt (Double.add (pow2 (Double.sub s.x k.2.1))
              (pow2 (Double.sub s.y k.2.2))), k.1) else a) acc := by
  rw [List.foldl_map]
  rfl

theorem b64_nearestScan_congr {pow2 : Double → Double}
    (s s' : Binary64.Sample) (cl cl' : List Binary64.Cluster)
    (hk : cl.map Binary64.Cluster.key = cl'.map Binary64.Cluster.key) (hx : s.x = s'.x)
    (hy : s.y = s'.y) : Binary64.nearestScan pow2 cl s = Binary64.nearestScan pow2 cl' s' := by
  unfold Binary64.nearestScan
  rw [b64_scan_fold_keys, b64_scan_fold_keys, hk, hx, hy]

theorem b64_map_key_modify (cl : List Binary64.Cluster)
    (f : Binary64.Cluster → Binary64.Cluster) (i : Nat) (hf : ∀ c, (f c).key = c.key) :
    (cl.modify f i).map Binary64.Cluster.key = cl.map Binary64.Cluster.key := by
  apply List.ext_getElem?
  intro n
  simp only [List.getElem?_map, List.getElem?_modify]
  cases cl[n]? with
  | none => rfl
  | some c =>
    simp only [Option.map_eq_map, Option.map_some']
    split <;> simp [hf]

theorem b64_nearestScan_modify {pow2 : Double → Double}
    (s : Binary64.Sample) (cl : List Binary64.Cluster) (j i : Nat) :
    Binary64.nearestScan pow2 (cl.modify (fun c => c.addSample j) i) s =
      Binary64.nearestScan pow2 cl s :=
  b64_nearestScan_congr s s _ _ (b64_map_key_modify cl _ i (fun c => rfl)) rfl rfl

theorem b64_memberPositions_nil {pow2 : Double → Double} (cl : List Binary64.Cluster) (j i : Nat) :
    Binary64.memberPositions pow2 cl j [] i = [] := rfl

theorem b64_memberPositions_cons {pow2 : Double → Double}
    (cl : List Binary64.Cluster) (j : Nat) (s : Binary64.Sample)
    (l : List Binary64.Sample) (i : Nat) :
    Binary64.memberPositions pow2 cl j (s :: l) i =
      (if (Binary64.nearestScan pow2 cl s).2 = (i : Int) + 1 then [j] else []) ++
        Binary64.memberPositions pow2 cl (j + 1) l i := by
  unfold Binary64.memberPositions
  simp only [List.enumFrom_cons, List.filter_cons]
  split <;> rename_i h <;> simp at h <;> simp [h]

theorem b64_memberPositions_congr {pow2 : Double → Double}
    (cl cl' : List Binary64.Cluster) (j : Nat)
    (l : List Binary64.Sample) (i : Nat)
    (h : ∀ s, Binary64.nearestScan pow2 cl s = Binary64.nearestScan pow2 cl' s) :
    Binary64.memberPositions pow2 cl j l i = Binary64.memberPositions pow2 cl' j l i := by
  unfold Binary64.memberPositions
  simp [h]

/-- What a completed run of the sample loop has done. -/
theorem b64_assignLoop_ok {pow2 : Double → Double}
    (j : Nat) (l : List Binary64.Sample) (cl : List Binary64.Cluster)
    (l' : List Binary64.Sample) (cl' : List Binary64.Cluster)
    (h : Binary64.assignLoop pow2 j l cl = .ok (l', cl')) :
    l' = l.map (fun s => s.setClusterID (Binary64.nearestScan pow2 cl s).2) ∧
    (∀ s ∈ l, ∃ i : Nat, i < cl.length ∧ (Binary64.nearestScan pow2 cl s).2 = (i : Int) + 1) ∧
    ∀ i : Nat, cl'[i]? =
      (cl[i]?).map (fun c =>
        { c with samples := c.samples ++ Binary64.memberPositions pow2 cl j l i }) := by
  induction l generalizing j cl l' cl' with
  | nil =>
    simp only [Binary64.assignLoop] at h
    injection h with h
    injection h with h1 h2
    subst h1 h2
    refine ⟨rfl, by simp, ?_⟩
    intro i
    cases cl[i]? <;> simp [b64_memberPositions_nil]
  | cons s l ih =>
    simp only [Binary64.assignLoop] at h
    split at h
    · simp at h
    · rename_i hcond
      split at h
      · simp at h
      · rename_i rest' cl1 hrec
        injection h with h
        injection h with h1 h2
        subst h1 h2
        obtain ⟨hl, hall, hcl⟩ := ih _ _ _ _ hrec
        have hb0 : ¬ ((Binary64.nearestScan pow2 cl s).2 - 1 < 0) := fun hc => hcond (Or.inl hc)
        have hb1 : ((Binary64.nearestScan pow2 cl s).2 - 1).toNat < cl.length := by
          by_contra hc
          exact hcond (Or.inr (not_lt.1 hc))
        have hb : (Binary64.nearestScan pow2 cl s).2 =
            (((Binary64.nearestScan pow2 cl s).2 - 1).toNat : Int) + 1 := by
          omega
        have hscan : ∀ t, Binary64.nearestScan pow2 (cl.modify (fun c => c.addSample j)
            ((Binary64.nearestScan pow2 cl s).2 - 1).toNat) t = Binary64.nearestScan pow2 cl t :=
          fun t => b64_nearestScan_modify t cl j _
        refine ⟨?_, ?_, ?_⟩
        · rw [hl]
          simp only [List.map_cons, hscan]
        · intro t ht
          rcases List.mem_cons.1 ht with rfl | ht
          · exact ⟨_, hb1, hb⟩
          · obtain ⟨i, hi, hbi⟩ := hall t ht
            rw [List.length_modify] at hi
            rw [hscan] at hbi
            exact ⟨i, hi, hbi⟩
        · intro i
          rw [hcl i, List.getElem?_modify, b64_memberPositions_cons,
            b64_memberPositions_congr _ _ _ _ _ hscan]
          cases cl[i]? with
          | none => rfl
          | some c =>
            simp only [Option.map_eq_map, Option.map_some']
            congr 1
            by_cases hi : ((Binary64.nearestScan pow2 cl s).2 - 1).toNat = i
            · have : (Binary64.nearestScan pow2 cl s).2 = (i : Int) + 1 := by omega
              rw [if_pos hi, if_pos this]
              simp [Binary64.Cluster.addSample]
            · have : ¬ (Binary64.nearestScan pow2 cl s).2 = (i : Int) + 1 := by omega
              rw [if_neg hi, if_neg this]
              simp

/-- When the sample loop completes. -/
theorem b64_assignLoop_total {pow2 : Double → Double}
    (j : Nat) (l : List Binary64.Sample) (cl : List Binary64.Cluster)
    (h : ∀ s ∈ l, ∃ i : Nat, i < cl.length ∧ (Binary64.nearestScan pow2 cl s).2 = (i : Int) + 1) :
    ∃ l' cl', Binary64.assignLoop pow2 j l cl = .ok (l', cl') := by
  induction l generalizing j cl with
  | nil => exact ⟨[], cl, rfl⟩
  | cons s l ih =>
    obtain ⟨i, hi, hb⟩ := h s (List.mem_cons_self _ _)
    have hcond : ¬ ((Binary64.nearestScan pow2 cl s).2 - 1 < 0 ∨
        cl.length ≤ ((Binary64.nearestScan pow2 cl s).2 - 1).toNat) := by
      omega
    have hrest : ∀ t ∈ l, ∃ i : Nat,
        i < (cl.modify (fun c => c.addSample j)
          ((Binary64.nearestScan pow2 cl s).2 - 1).toNat).length ∧
        (Binary64.nearestScan pow2 (cl.modify (fun c => c.addSample j)
          ((Binary64.nearestScan pow2 cl s).2 - 1).toNat) t).2 = (i : Int) + 1 := by
      intro t ht
      obtain ⟨i, hi, hb⟩ := h t (List.mem_cons_of_mem _ ht)
      exact ⟨i, by rw [List.length_modify]; exact hi, by rw [b64_nearestScan_modify]; exact hb⟩
    obtain ⟨l', cl', hrec⟩ := ih (j + 1) _ hrest
    refine ⟨s.setClusterID (Binary64.nearestScan pow2 cl s).2 :: l', cl', ?_⟩
    simp only [Binary64.assignLoop, if_neg hcond, hrec]

/-! ## Over `double`: one iteration in closed form -/

theorem b64_nearestScan_clear {pow2 : Double → Double}
    (cl : List Binary64.Cluster) (s : Binary64.Sample) :
    Binary64.nearestScan pow2 (cl.map Binary64.Cluster.clearSamples) s =
      Binary64.nearestScan pow2 cl s := by
  apply b64_nearestScan_congr _ _ _ _ _ rfl rfl
  rw [List.map_map]
  rfl

theorem b64_assignedClusters_getElem? {pow2 : Double → Double}
    (cl : List Binary64.Cluster) (l : List Binary64.Sample)
    (i : Nat) :
    (Binary64.assignedClusters pow2 cl l)[i]? =
      (cl[i]?).map (fun c => { c with samples := Binary64.memberPositions pow2 cl 0 l i }) := by
  unfold Binary64.assignedClusters
  rw [List.getElem?_map, List.enum, List.getElem?_enumFrom]
  cases cl[i]? <;> simp

theorem b64_assignedClusters_length {pow2 : Double → Double}
    (cl : List Binary64.Cluster) (l : List Binary64.Sample) :
    (Binary64.assignedClusters pow2 cl l).length = cl.length := by
  simp [Binary64.assignedClusters, List.enum]

/-- The assignment pass in closed form, when every sample finds a cluster. -/
theorem b64_assign_eq {pow2 : Double → Double} (km : Binary64.KMeans)
    (h : Binary64.AllAssigned pow2 km.clusters km.samples) :
    km.assignSamplesToClusters pow2 =
      .ok { km with samples := km.samples.map (Binary64.relabel pow2 km.clusters),
                    clusters := Binary64.assignedClusters pow2 km.clusters km.samples } := by
  have h' : ∀ s ∈ km.samples, ∃ i : Nat,
      i < (km.clusters.map Binary64.Cluster.clearSamples).length ∧
      (Binary64.nearestScan pow2 (km.clusters.map Binary64.Cluster.clearSamples) s).2 =
        (i : Int) + 1 := by
    intro s hs
    obtain ⟨i, hi, hb⟩ := h s hs
    exact ⟨i, by simpa using hi, by rw [b64_nearestScan_clear]; exact hb⟩
  obtain ⟨l', cl', hrun⟩ := b64_assignLoop_total 0 km.samples _ h'
  obtain ⟨hl, -, hcl⟩ := b64_assignLoop_ok _ _ _ _ _ hrun
  unfold Binary64.KMeans.assignSamplesToClusters
  rw [hrun]
  simp only
  congr 2
  · rw [hl]
    apply List.map_congr_left
    intro s _
    simp [Binary64.relabel, b64_nearestScan_clear]
  · apply List.ext_getElem?
    intro i
    rw [hcl i, b64_assignedClusters_getElem?, List.getElem?_map,
      b64_memberPositions_congr _ _ _ _ _ (b64_nearestScan_clear km.clusters)]
    cases km.clusters[i]? <;> simp [Binary64.Cluster.clearSamples]

/-- A completed assignment pass has found a cluster for every sample. -/
theorem b64_assign_ok_allAssigned {pow2 : Double → Double} (km km1 : Binary64.KMeans)
    (h : km.assignSamplesToClusters pow2 = .ok km1) :
    Binary64.AllAssigned pow2 km.clusters km.samples := by
  unfold Binary64.KMeans.assignSamplesToClusters at h
  split at h
  · simp at h
  · rename_i l' cl' hrun
    obtain ⟨-, hall, -⟩ := b64_assignLoop_ok _ _ _ _ _ hrun
    intro s hs
    obtain ⟨i, hi, hb⟩ := hall s hs
    exact ⟨i, by simpa using hi, by rw [b64_nearestScan_clear] at hb; exact hb⟩

theorem b64_memberPositions_lt {pow2 : Double → Double} (cl : List Binary64.Cluster) (j : Nat)
    (l : List Binary64.Sample) (i : Nat) :
    ∀ p ∈ Binary64.memberPositions pow2 cl j l i, p < j + l.length := by
  intro p hp
  unfold Binary64.memberPositions at hp
  rw [List.mem_map] at hp
  obtain ⟨⟨q, s⟩, hq, rfl⟩ := hp
  have := List.mem_enumFrom (List.mem_of_mem_filter hq)
  exact this.2.1

theorem b64_assignedClusters_valid {pow2 : Double → Double}
    (cl : List Binary64.Cluster) (l l' : List Binary64.Sample)
    (hlen : l'.length = l.length) :
    ∀ c ∈ Binary64.assignedClusters pow2 cl l, c.ValidIn l' := by
  intro c hc
  obtain ⟨i, hi⟩ := List.getElem?_of_mem hc
  rw [b64_assignedClusters_getElem?] at hi
  cases hci : cl[i]? with
  | none => simp [hci] at hi
  | some c0 =>
    simp [hci] at hi
    subst hi
    intro p hp
    have := b64_memberPositions_lt cl 0 l i p hp
    omega

/-- One iteration in closed form, when every sample finds a cluster. -/
theorem b64_iteration_eq {pow2 : Double → Double} (km : Binary64.KMeans)
    (h : Binary64.AllAssigned pow2 km.clusters km.samples) :
    km.iteration pow2 =
      .ok ((Binary64.assignedClusters pow2 km.clusters km.samples).any
              (fun c => c.moved (km.samples.map (Binary64.relabel pow2 km.clusters))),
           { km with
             samples := km.samples.map (Binary64.relabel pow2 km.clusters),
             clusters := (Binary64.assignedClusters pow2 km.clusters km.samples).map
               (fun c => c.recenter (km.samples.map (Binary64.relabel pow2 km.clusters))) }) := by
  unfold Binary64.KMeans.iteration
  rw [b64_assign_eq km h]
  simp only
  rw [b64_centerLoop_eq _ _ _ (b64_assignedClusters_valid _ _ _ (by simp))]
  simp

/-- A completed iteration has found a cluster for every sample. -/
theorem b64_iteration_ok_allAssigned {pow2 : Double → Double}
    (km : Binary64.KMeans) (r : Bool × Binary64.KMeans)
    (h : km.iteration pow2 = .ok r) : Binary64.AllAssigned pow2 km.clusters km.samples := by
  unfold Binary64.KMeans.iteration at h
  split at h
  · simp at h
  · rename_i km1 h1
    exact b64_assign_ok_allAssigned km km1 h1

/-- A completed iteration in closed form. -/
theorem b64_iteration_ok {pow2 : Double → Double} (km km' : Binary64.KMeans) (b : Bool)
    (h : km.iteration pow2 = .ok (b, km')) :
    Binary64.AllAssigned pow2 km.clusters km.samples ∧
    km' = { km with
      samples := km.samples.map (Binary64.relabel pow2 km.clusters),
      clusters := (Binary64.assignedClusters pow2 km.clusters km.samples).map
        (fun c => c.recenter (km.samples.map (Binary64.relabel pow2 km.clusters))) } ∧
    b = (Binary64.assignedClusters pow2 km.clusters km.samples).any
      (fun c => c.moved (km.samples.map (Binary64.relabel pow2 km.clusters))) := by
  have hall := b64_iteration_ok_allAssigned km _ h
  rw [b64_iteration_eq km hall] at h
  injection h with h
  injection h with h1 h2
  exact ⟨hall, h2.symm, h1.symm⟩

/-- A run of `updateKM` that returns ends with an iteration that left `changed` false. -/
theorem b64_last_iteration {pow2 : Double → Double} (fuel : Nat) (km0 km' : Binary64.KMeans)
    (P : Binary64.KMeans → Prop) (hP : P km0)
    (hstep : ∀ (k k' : Binary64.KMeans) (b : Bool), P k → k.iteration pow2 = .ok (b, k') → P k')
    (hrun : Binary64.KMeans.updateKM pow2 fuel km0 = .ok km') :
    ∃ kmL, P kmL ∧ kmL.iteration pow2 = .ok (false, km') := by
  induction fuel generalizing km0 with
  | zero => simp [Binary64.KMeans.updateKM] at hrun
  | succ n ih =>
    simp only [Binary64.KMeans.updateKM] at hrun
    cases hit : km0.iteration pow2 with
    | error e =>
      rw [hit] at hrun
      exact Except.noConfusion hrun
    | ok r =>
      obtain ⟨b, km1⟩ := r
      rw [hit] at hrun
      simp only at hrun
      cases b with
      | true =>
        simp only [if_true] at hrun
        exact ih km1 (hstep km0 km1 true hP hit) hrun
      | false =>
        simp only [Bool.false_eq_true, if_false] at hrun
        injection hrun with hrun
        subst hrun
        exact ⟨km0, hP, hit⟩

/-! ## Over `double`: the state `initialize` leaves -/

theorem b64_initLoop_length (k : Int) (l : List Binary64.Sample) :
    (Binary64.initLoop k l).length = l.length := by
  induction l generalizing k with
  | nil => rfl
  | cons s l ih => simp [Binary64.initLoop, ih]

theorem b64_initLoop_getElem? (k : Int) (l : List Binary64.Sample) (i : Nat) :
    (Binary64.initLoop k l)[i]? = l[i]?.map (fun s => Binary64.Cluster.ctor (k + i) s.x s.y) := by
  induction l generalizing k i with
  | nil => simp [Binary64.initLoop]
  | cons s l ih =>
    cases i with
    | zero => simp [Binary64.initLoop, Binary64.Sample.getX, Binary64.Sample.getY]
    | succ i =>
      simp only [Binary64.initLoop, List.getElem?_cons_succ, ih]
      congr 1
      funext t
      push_cast
      congr 1
      ring

theorem b64_initialize_eq (km : Binary64.KMeans) (h0 : 0 ≤ km.K)
    (hN : km.K ≤ km.samples.length) :
    km.initialize =
      .ok { km with
        clusters := km.clusters ++ Binary64.initLoop 1 (km.samples.take km.K.toNat) } := by
  unfold Binary64.KMeans.initialize
  rw [if_neg]
  omega

theorem b64_initLoop_ids (l : List Binary64.Sample) :
    Binary64.IdsInOrder (Binary64.initLoop 1 l) := by
  intro i c hc
  rw [b64_initLoop_getElem?] at hc
  cases hl : l[i]? with
  | none => simp [hl] at hc
  | some s =>
    simp only [hl, Option.map_some', Option.some.injEq] at hc
    subst hc
    simp only [Binary64.Cluster.ctor]
    ring

theorem b64_initLoop_center (l : List Binary64.Sample) (k : Int) (c : Binary64.Cluster)
    (hc : c ∈ Binary64.initLoop k l) : ∃ t ∈ l, c.centerX = t.x ∧ c.centerY = t.y := by
  obtain ⟨i, hi⟩ := List.getElem?_of_mem hc
  rw [b64_initLoop_getElem?] at hi
  cases hl : l[i]? with
  | none => simp [hl] at hi
  | some s =>
    simp only [hl, Option.map_some', Option.some.injEq] at hi
    subst hi
    exact ⟨s, List.getElem?_mem hl, rfl, rfl⟩

theorem b64_isFinite_ne_nan (a : Double) (h : a.isFinite = true) : a ≠ .nan := by
  cases a <;> simp_all [Double.isFinite]

/-- The state `initialize` leaves on an engine without clusters. -/
theorem b64_initialize_inv (km km0 : Binary64.KMeans) (hc : km.clusters = [])
    (h1 : 1 ≤ km.K) (hN : km.K ≤ km.samples.length) (hinit : km.initialize = .ok km0) :
    km0.samples = km.samples ∧
      km0.clusters = Binary64.initLoop 1 (km.samples.take km.K.toNat) ∧
      Binary64.IdsInOrder km0.clusters ∧
      (Binary64.FiniteSamples km.samples → Binary64.CentersOrdered km0.clusters) := by
  rw [b64_initialize_eq km (by omega) hN] at hinit
  injection hinit with hinit
  subst hinit
  have hcl : km.clusters ++ Binary64.initLoop 1 (km.samples.take km.K.toNat) =
      Binary64.initLoop 1 (km.samples.take km.K.toNat) := by
    rw [hc]; rfl
  refine ⟨rfl, hcl, ?_, ?_⟩
  · show Binary64.IdsInOrder (km.clusters ++ Binary64.initLoop 1 (km.samples.take km.K.toNat))
    rw [hcl]
    exact b64_initLoop_ids _
  · intro hfin
    show Binary64.CentersOrdered
      (km.clusters ++ Binary64.initLoop 1 (km.samples.take km.K.toNat))
    rw [hcl]
    intro c hcm
    obtain ⟨t, ht, hx, hy⟩ := b64_initLoop_center _ _ c hcm
    obtain ⟨h1, h2⟩ := hfin t (List.mem_of_mem_take ht)
    rw [hx, hy]
    exact ⟨b64_isFinite_ne_nan _ h1, b64_isFinite_ne_nan _ h2⟩

/-! ## Over `double`: no NaN arises -/

theorem b64_distance_ne_nan {pow2 : Double → Double} (hpow : Double.IsPow2 pow2)
    (s : Binary64.Sample) (c : Binary64.Cluster)
    (hx : s.x.isFinite = true) (hy : s.y.isFinite = true) (hcx : c.centerX ≠ .nan)
    (hcy : c.centerY ≠ .nan) : Binary64.distance pow2 s c ≠ .nan := by
  unfold Binary64.distance
  simp only [Binary64.Sample.getX, Binary64.Sample.getY, Binary64.Cluster.getXofCluster,
    Binary64.Cluster.getYofCluster]
  apply sqrt_nonneg_cases
  apply add_nonneg_cases
  · apply hpow.2.2.1
    cases hsx : s.x with
    | fin n => exact sub_fin_ne_nan n _ hcx
    | pinf => rw [hsx] at hx; simp [Double.isFinite] at hx
    | ninf => rw [hsx] at hx; simp [Double.isFinite] at hx
    | nan => rw [hsx] at hx; simp [Double.isFinite] at hx
  · apply hpow.2.2.1
    cases hsy : s.y with
    | fin n => exact sub_fin_ne_nan n _ hcy
    | pinf => rw [hsy] at hy; simp [Double.isFinite] at hy
    | ninf => rw [hsy] at hy; simp [Double.isFinite] at hy
    | nan => rw [hsy] at hy; simp [Double.isFinite] at hy

theorem double_lt_left (a b : Double) (h : Double.lt a b = true) :
    a.isFinite = true ∨ a = .ninf := by
  cases a <;> cases b <;> simp_all [Double.lt, Double.isFinite]

theorem sqrt_ne_ninf (a : Double) : Double.sqrt a ≠ .ninf := by
  cases a with
  | fin n =>
    simp only [Double.sqrt]
    split <;> simp
  | pinf => simp [Double.sqrt]
  | ninf => simp [Double.sqrt]
  | nan => simp [Double.sqrt]

theorem sqrt_isFinite (a : Double) (h : (Double.sqrt a).isFinite = true) :
    a.isFinite = true := by
  cases a <;> simp_all [Double.sqrt, Double.isFinite]

theorem add_isFinite (a b : Double) (h : (Double.add a b).isFinite = true) :
    a.isFinite = true ∧ b.isFinite = true := by
  cases a <;> cases b <;> simp_all [Double.add, Double.isFinite]

theorem sub_isFinite (a b : Double) (h : (Double.sub a b).isFinite = true) :
    a.isFinite = true ∧ b.isFinite = true := by
  obtain ⟨ha, hb⟩ := add_isFinite _ _ h
  refine ⟨ha, ?_⟩
  cases b <;> simp_all [Double.neg, Double.isFinite]

theorem pow2_isFinite {pow2 : Double → Double} (hpow : Double.IsPow2 pow2) (a : Double)
    (h : (pow2 a).isFinite = true) : a.isFinite = true := by
  cases a with
  | fin n => rfl
  | pinf => rw [hpow.2.2.2.1] at h; exact h
  | ninf => rw [hpow.2.2.2.2] at h; exact h
  | nan => rw [hpow.1] at h; exact h

/-- A sample from which the code computes a distance below some bound has finite
coordinates. -/
theorem b64_reach_finite {pow2 : Double → Double} (hpow : Double.IsPow2 pow2)
    (s : Binary64.Sample) (c : Binary64.Cluster) (b : Double)
    (h : Double.lt (Binary64.distance pow2 s c) b = true) :
    s.x.isFinite = true ∧ s.y.isFinite = true := by
  rcases double_lt_left _ _ h with hf | hn
  · obtain ⟨hx, hy⟩ := add_isFinite _ _ (sqrt_isFinite _ hf)
    exact ⟨(sub_isFinite _ _ (pow2_isFinite hpow _ hx)).1,
      (sub_isFinite _ _ (pow2_isFinite hpow _ hy)).1⟩
  · exact absurd hn (sqrt_ne_ninf _)

/-- A run that returns has started on samples with finite coordinates: the first
assignment pass has found a cluster within reach of every sample. -/
theorem b64_run_finite {pow2 : Double → Double} (hpow : Double.IsPow2 pow2) (fuel : Nat)
    (km0 km' : Binary64.KMeans) (hrun : Binary64.KMeans.updateKM pow2 fuel km0 = .ok km') :
    Binary64.FiniteSamples km0.samples := by
  cases fuel with
  | zero => simp [Binary64.KMeans.updateKM] at hrun
  | succ n =>
    simp only [Binary64.KMeans.updateKM] at hrun
    cases hit : km0.iteration pow2 with
    | error e =>
      rw [hit] at hrun
      exact Except.noConfusion hrun
    | ok r =>
      have hall := b64_iteration_ok_allAssigned km0 r hit
      intro s hs
      obtain ⟨i, -, hbest⟩ := hall s hs
      rcases b64_nearestScan_cases s km0.clusters with ⟨hno, -⟩ | ⟨j, c, -, -, hlt, -⟩
      · rw [hno] at hbest
        simp only at hbest
        omega
      · exact b64_reach_finite hpow s c _ hlt

theorem b64_foldl_add_ne_nan (l : List Double) (acc : Double) (hacc : acc ≠ .nan)
    (hl : ∀ d ∈ l, d.isFinite = true) : l.foldl Double.add acc ≠ .nan := by
  induction l generalizing acc with
  | nil => simpa using hacc
  | cons d l ih =>
    simp only [List.foldl_cons]
    apply ih
    · have hd := hl d (List.mem_cons_self _ _)
      cases d with
      | fin n => exact add_fin_ne_nan acc n hacc
      | pinf => simp [Double.isFinite] at hd
      | ninf => simp [Double.isFinite] at hd
      | nan => simp [Double.isFinite] at hd
    · exact fun e he => hl e (List.mem_cons_of_mem _ he)

/-- The mean of at least one and fewer than 2^64 finite doubles is not a NaN. -/
theorem b64_mean_ne_nan (l : List Double) (hne : l ≠ []) (h64 : l.length < 2 ^ 64)
    (hl : ∀ d ∈ l, d.isFinite = true) : Binary64.mean l ≠ .nan := by
  unfold Binary64.mean Binary64.sum
  have hpos : 0 < l.length := List.length_pos.2 hne
  obtain ⟨m, hm, hof⟩ := ofNat_pos l.length hpos h64
  rw [hof]
  exact div_ne_nan _ m (b64_foldl_add_ne_nan l _ (by simp) hl) hm

theorem b64_memberPositions_length_le {pow2 : Double → Double}
    (cl : List Binary64.Cluster) (j : Nat)
    (l : List Binary64.Sample) (i : Nat) :
    (Binary64.memberPositions pow2 cl j l i).length ≤ l.length := by
  unfold Binary64.memberPositions
  rw [List.length_map]
  calc _ ≤ (l.enumFrom j).length := List.length_filter_le _ _
    _ = l.length := List.enumFrom_length

theorem b64_members_mem (mem : List Binary64.Sample) (c : Binary64.Cluster) :
    ∀ s ∈ c.members mem, s ∈ mem := by
  intro s hs
  unfold Binary64.Cluster.members at hs
  rw [List.mem_filterMap] at hs
  obtain ⟨p, -, hp⟩ := hs
  exact List.getElem?_mem hp

theorem b64_relabel_finite {pow2 : Double → Double}
    (cl : List Binary64.Cluster) (l : List Binary64.Sample)
    (h : Binary64.FiniteSamples l) : Binary64.FiniteSamples (l.map (Binary64.relabel pow2 cl)) := by
  intro s hs
  obtain ⟨t, ht, rfl⟩ := List.mem_map.1 hs
  exact h t ht

/-- What every iteration keeps, on samples with finite coordinates: the ids in order,
the finite coordinates, the number of samples, and centers that are not NaN. -/
theorem b64_iteration_inv {pow2 : Double → Double}
    (N : Nat) (h64 : N < 2 ^ 64) (k k' : Binary64.KMeans) (b : Bool)
    (hP : Binary64.IdsInOrder k.clusters ∧ Binary64.FiniteSamples k.samples ∧
      Binary64.CentersOrdered k.clusters ∧ k.samples.length = N)
    (hit : k.iteration pow2 = .ok (b, k')) :
    Binary64.IdsInOrder k'.clusters ∧ Binary64.FiniteSamples k'.samples ∧
      Binary64.CentersOrdered k'.clusters ∧ k'.samples.length = N := by
  obtain ⟨hids, hfin, hcen, hlen⟩ := hP
  obtain ⟨hall, hk', -⟩ := b64_iteration_ok k k' b hit
  subst hk'
  have hget : ∀ (i : Nat) (c' : Binary64.Cluster),
      ((Binary64.assignedClusters pow2 k.clusters k.samples).map
        (fun c => c.recenter (k.samples.map (Binary64.relabel pow2 k.clusters))))[i]? = some c' →
      ∃ c, k.clusters[i]? = some c ∧
        c' = Binary64.Cluster.recenter (k.samples.map (Binary64.relabel pow2 k.clusters))
          { c with samples := Binary64.memberPositions pow2 k.clusters 0 k.samples i } := by
    intro i c' hi
    rw [List.getElem?_map, b64_assignedClusters_getElem?] at hi
    cases hci : k.clusters[i]? with
    | none => simp [hci] at hi
    | some c =>
      simp only [hci, Option.map_some', Option.some.injEq] at hi
      exact ⟨c, rfl, hi.symm⟩
  refine ⟨?_, b64_relabel_finite _ _ hfin, ?_, by simpa using hlen⟩
  · intro i c' hi
    obtain ⟨c, hci, rfl⟩ := hget i c' hi
    have := hids i c hci
    simp only [Binary64.Cluster.recenter]
    split <;> exact this
  · intro c' hc'
    obtain ⟨i, hi⟩ := List.getElem?_of_mem hc'
    obtain ⟨c, hci, rfl⟩ := hget i c' hi
    have hold := hcen c (List.getElem?_mem hci)
    simp only [Binary64.Cluster.recenter]
    split
    · exact hold
    · rename_i hne
      have hne' : Binary64.memberPositions pow2 k.clusters 0 k.samples i ≠ [] := by
        intro he
        apply hne
        simp [he]
      have hv : Binary64.Cluster.ValidIn (k.samples.map (Binary64.relabel pow2 k.clusters))
          { c with samples := Binary64.memberPositions pow2 k.clusters 0 k.samples i } := by
        intro p hp
        have := b64_memberPositions_lt k.clusters 0 k.samples i p hp
        simp only [List.length_map]
        omega
      have hlenm := b64_members_length _ _ hv
      simp only at hlenm
      have hmem := b64_members_mem (k.samples.map (Binary64.relabel pow2 k.clusters))
        { c with samples := Binary64.memberPositions pow2 k.clusters 0 k.samples i }
      have hfin' := @b64_relabel_finite pow2 k.clusters _ hfin
      have hle := @b64_memberPositions_length_le pow2 k.clusters 0 k.samples i
      have hpos : 0 < (Binary64.memberPositions pow2 k.clusters 0 k.samples i).length :=
        List.length_pos.2 hne'
      constructor
      · apply b64_mean_ne_nan
        · intro he
          have := congrArg List.length he
          simp only [List.length_map, List.length_nil] at this
          omega
        · simp only [List.length_map]
          omega
        · intro d hd
          obtain ⟨s, hs, rfl⟩ := List.mem_map.1 hd
          exact (hfin' s (hmem s hs)).1
      · apply b64_mean_ne_nan
        · intro he
          have := congrArg List.length he
          simp only [List.length_map, List.length_nil] at this
          omega
        · simp only [List.length_map]
          omega
        · intro d hd
          obtain ⟨s, hs, rfl⟩ := List.mem_map.1 hd
          exact (hfin' s (hmem s hs)).2

/-! ## Over `double`: the state a run ends in -/

theorem b64_not_moved_recenter (mem : List Binary64.Sample) (c : Binary64.Cluster)
    (h : c.moved mem = false) : c.recenter mem = c := by
  unfold Binary64.Cluster.recenter
  unfold Binary64.Cluster.moved at h
  cases he : c.samples.isEmpty with
  | true => simp
  | false =>
    rw [he] at h
    simp only [Bool.not_false, Bool.true_and, Bool.or_eq_false_iff] at h
    obtain ⟨hx, -⟩ := double_ne_false _ _ h.1
    obtain ⟨hy, -⟩ := double_ne_false _ _ h.2
    simp only [Bool.false_eq_true, if_false, hx, hy]

theorem b64_assignedClusters_keys {pow2 : Double → Double}
    (cl : List Binary64.Cluster) (l : List Binary64.Sample) :
    (Binary64.assignedClusters pow2 cl l).map Binary64.Cluster.key =
      cl.map Binary64.Cluster.key := by
  apply List.ext_getElem?
  intro i
  rw [List.getElem?_map, List.getElem?_map, b64_assignedClusters_getElem?]
  cases cl[i]? <;> rfl

/-- An iteration that ends with `changed = false` leaves the state of its assignment
pass: no center has been given another value. -/
theorem b64_converged_fixed {pow2 : Double → Double}
    (k k' : Binary64.KMeans) (hit : k.iteration pow2 = .ok (false, k')) :
    Binary64.AllAssigned pow2 k.clusters k.samples ∧
    k'.samples = k.samples.map (Binary64.relabel pow2 k.clusters) ∧
    k'.clusters = Binary64.assignedClusters pow2 k.clusters k.samples ∧
    k'.clusters.map Binary64.Cluster.key = k.clusters.map Binary64.Cluster.key := by
  obtain ⟨hall, hk', hb⟩ := b64_iteration_ok k k' false hit
  have hfix : (Binary64.assignedClusters pow2 k.clusters k.samples).map
      (fun c => c.recenter (k.samples.map (Binary64.relabel pow2 k.clusters))) =
      Binary64.assignedClusters pow2 k.clusters k.samples := by
    conv_rhs => rw [← List.map_id (Binary64.assignedClusters pow2 k.clusters k.samples)]
    apply List.map_congr_left
    intro c hc
    apply b64_not_moved_recenter
    cases hm : c.moved (k.samples.map (Binary64.relabel pow2 k.clusters)) with
    | false => rfl
    | true =>
      have : (Binary64.assignedClusters pow2 k.clusters k.samples).any
          (fun c => c.moved (k.samples.map (Binary64.relabel pow2 k.clusters))) = true :=
        List.any_eq_true.2 ⟨c, hc, hm⟩
      rw [← hb] at this
      exact absurd this (by simp)
  rw [hfix] at hk'
  subst hk'
  exact ⟨hall, rfl, rfl, b64_assignedClusters_keys _ _⟩

theorem b64_distance_key {pow2 : Double → Double} (s s' : Binary64.Sample) (c c' : Binary64.Cluster)
    (hk : c.key = c'.key) (hx : s.x = s'.x) (hy : s.y = s'.y) :
    Binary64.distance pow2 s c = Binary64.distance pow2 s' c' := by
  simp only [Binary64.Cluster.key, Prod.mk.injEq] at hk
  simp only [Binary64.distance, Binary64.Sample.getX, Binary64.Sample.getY,
    Binary64.Cluster.getXofCluster, Binary64.Cluster.getYofCluster, hk.2.1, hk.2.2, hx, hy]

theorem b64_getElem?_key (cl cl' : List Binary64.Cluster)
    (hk : cl'.map Binary64.Cluster.key = cl.map Binary64.Cluster.key) (i : Nat)
    (c' : Binary64.Cluster) (hi : cl'[i]? = some c') :
    ∃ c, cl[i]? = some c ∧ c.key = c'.key := by
  have h := congrArg (fun L => L[i]?) hk
  simp only [List.getElem?_map, hi, Option.map_some'] at h
  cases hci : cl[i]? with
  | none => simp [hci] at h
  | some c =>
    simp only [hci, Option.map_some', Option.some.injEq] at h
    exact ⟨c, rfl, h.symm⟩

/-- After an iteration in which no center moved, on samples with finite coordinates and
centers that are not NaN: every sample carries the id of some cluster, and the
distance the code computes to the cluster with that id is at most the distance it
computes to any cluster. -/
theorem b64_converged_nearest {pow2 : Double → Double} (hpow : Double.IsPow2 pow2)
    (kmL km' : Binary64.KMeans)
    (hids : Binary64.IdsInOrder kmL.clusters) (hfin : Binary64.FiniteSamples kmL.samples)
    (hcen : Binary64.CentersOrdered kmL.clusters)
    (hit : kmL.iteration pow2 = .ok (false, km')) :
    ∀ p ∈ km'.samples, ∃ (i : Nat) (c : Binary64.Cluster),
      p.getClusterID = some ((i : Int) + 1) ∧ km'.clusters[i]? = some c ∧
      Double.lt (Binary64.distance pow2 p c) Double.maxValue = true ∧
      ∀ c' ∈ km'.clusters,
        Double.le (Binary64.distance pow2 p c) (Binary64.distance pow2 p c') = true := by
  obtain ⟨hall, hs, hc, hk⟩ := b64_converged_fixed kmL km' hit
  intro p' hp'
  rw [hs] at hp'
  obtain ⟨p, hp, rfl⟩ := List.mem_map.1 hp'
  obtain ⟨i, hi, hb⟩ := hall p hp
  rcases b64_nearestScan_cases p kmL.clusters with ⟨heq, -⟩ | ⟨i0, c0, hi0, heq, hlt, hmin⟩
  · rw [heq] at hb
    simp only at hb
    omega
  · rw [heq] at hb
    simp only at hb
    have hid0 := hids i0 c0 hi0
    have hii : i0 = i := by omega
    subst hii
    have hci : km'.clusters[i0]? =
        some { c0 with
          samples := Binary64.memberPositions pow2 kmL.clusters 0 kmL.samples i0 } := by
      rw [hc, b64_assignedClusters_getElem?, hi0]
      rfl
    have hpf := hfin p hp
    have hd0 : Binary64.distance pow2 (Binary64.relabel pow2 kmL.clusters p)
        { c0 with samples := Binary64.memberPositions pow2 kmL.clusters 0 kmL.samples i0 } =
        Binary64.distance pow2 p c0 := b64_distance_key _ _ _ _ rfl rfl rfl
    refine ⟨i0, _, ?_, hci, ?_, ?_⟩
    · simp [Binary64.relabel, Binary64.Sample.setClusterID, Binary64.Sample.getClusterID, heq,
        hid0]
    · rw [hd0]
      exact hlt
    · intro c' hc'
      obtain ⟨j, hj⟩ := List.getElem?_of_mem hc'
      obtain ⟨c'', hj'', hkey⟩ := b64_getElem?_key kmL.clusters km'.clusters hk j c' hj
      have hd' : Binary64.distance pow2 (Binary64.relabel pow2 kmL.clusters p) c' =
          Binary64.distance pow2 p c'' := b64_distance_key _ _ _ _ hkey.symm rfl rfl
      rw [hd0, hd']
      have hmem'' := List.getElem?_mem hj''
      have hcen'' := hcen c'' hmem''
      have hcen0 := hcen c0 (List.getElem?_mem hi0)
      exact double_le_of_not_lt _ _
        (b64_distance_ne_nan hpow p c'' hpf.1 hpf.2 hcen''.1 hcen''.2)
        (b64_distance_ne_nan hpow p c0 hpf.1 hpf.2 hcen0.1 hcen0.2) (hmin c'' hmem'')

/-- After any completed iteration every cluster with members has valid member pointers
and the center `calculateCenter` computes from them. -/
theorem b64_iteration_mean {pow2 : Double → Double} (km km' : Binary64.KMeans) (b : Bool)
    (hit : km.iteration pow2 = .ok (b, km')) :
    ∀ c ∈ km'.clusters, c.samples ≠ [] →
      c.ValidIn km'.samples ∧
      c.getXofCluster = Binary64.mean ((c.members km'.samples).map Binary64.Sample.getX) ∧
      c.getYofCluster = Binary64.mean ((c.members km'.samples).map Binary64.Sample.getY) := by
  obtain ⟨hall, hk', -⟩ := b64_iteration_ok km km' b hit
  subst hk'
  intro c' hc' hne
  simp only at hc' ⊢
  obtain ⟨c, hc, rfl⟩ := List.mem_map.1 hc'
  have hv := b64_assignedClusters_valid km.clusters km.samples
    (km.samples.map (Binary64.relabel pow2 km.clusters)) (by simp) c hc
  have hs : (c.recenter (km.samples.map (Binary64.relabel pow2 km.clusters))).samples =
      c.samples := by
    unfold Binary64.Cluster.recenter
    split <;> rfl
  rw [hs] at hne
  have hmem : ∀ mem, Binary64.Cluster.members mem
      (c.recenter (km.samples.map (Binary64.relabel pow2 km.clusters))) = c.members mem := by
    intro mem
    simp only [Binary64.Cluster.members, hs]
  refine ⟨?_, ?_, ?_⟩
  · intro p hp
    rw [hs] at hp
    exact hv p hp
  · rw [hmem]
    simp [Binary64.Cluster.recenter, b64_isEmpty_false _ hne, Binary64.Cluster.getXofCluster]
  · rw [hmem]
    simp [Binary64.Cluster.recenter, b64_isEmpty_false _ hne, Binary64.Cluster.getYofCluster]

/-! ## Over `double`: runs with a single cluster -/

theorem b64_members_range (pre l : List Binary64.Sample) :
    (List.range' pre.length l.length).filterMap (fun p => (pre ++ l)[p]?) = l := by
  induction l generalizing pre with
  | nil => simp
  | cons s l ih =>
    have hrec := ih (pre ++ [s])
    simp only [List.length_append, List.length_singleton, List.append_assoc,
      List.singleton_append] at hrec
    simp only [List.length_cons, List.range'_succ, List.filterMap_cons]
    rw [List.getElem?_append_right (le_refl _)]
    simp only [Nat.sub_self, List.getElem?_cons_zero]
    rw [hrec]

theorem b64_single_scan {pow2 : Double → Double} (c : Binary64.Cluster) (s : Binary64.Sample)
    (h : Double.lt (Binary64.distance pow2 s c) Double.maxValue = true) :
    Binary64.nearestScan pow2 [c] s = (Binary64.distance pow2 s c, c.clusterID) := by
  simp [Binary64.nearestScan, Binary64.scanStep, h, Binary64.Cluster.getIDofCluster]

theorem b64_single_positions {pow2 : Double → Double}
    (c : Binary64.Cluster) (l : List Binary64.Sample)
    (hid : c.clusterID = 1)
    (h : ∀ s ∈ l, Double.lt (Binary64.distance pow2 s c) Double.maxValue = true) :
    Binary64.memberPositions pow2 [c] 0 l 0 = List.range l.length := by
  unfold Binary64.memberPositions
  have hf : (l.enumFrom 0).filter
      (fun ps => decide ((Binary64.nearestScan pow2 [c] ps.2).2 = ((0 : Nat) : Int) + 1)) =
      l.enumFrom 0 := by
    rw [List.filter_eq_self]
    rintro ⟨j, s⟩ hjs
    have hs : s ∈ l := by
      have := (List.mem_enumFrom hjs).2.2
      rw [this]
      exact List.getElem_mem _
    simp [b64_single_scan c s (h s hs), hid]
  rw [hf, List.enumFrom_map_fst, List.range_eq_range']

theorem b64_distance_center {pow2 : Double → Double} (hpow : Double.IsPow2 pow2)
    (s : Binary64.Sample) (c : Binary64.Cluster) (b : Double)
    (h : Double.lt (Binary64.distance pow2 s c) b = true) :
    c.centerX ≠ .nan ∧ c.centerY ≠ .nan := by
  constructor
  · intro hx
    simp only [Binary64.distance, Binary64.Cluster.getXofCluster, hx, sub_nan, hpow.1,
      add_nan_left, sqrt_nan] at h
    simp [Double.lt] at h
  · intro hy
    simp only [Binary64.distance, Binary64.Cluster.getYofCluster, hy, sub_nan, hpow.1,
      add_nan_right, sqrt_nan] at h
    simp [Double.lt] at h

/-- One iteration on an engine with a single cluster of id 1 from which the code
computes a distance below `numeric_limits<double>::max()` to every sample. -/
theorem b64_single_iteration {pow2 : Double → Double} (km : Binary64.KMeans) (c : Binary64.Cluster)
    (hcl : km.clusters = [c]) (hid : c.clusterID = 1) (hne : km.samples ≠ [])
    (h : ∀ s ∈ km.samples, Double.lt (Binary64.distance pow2 s c) Double.maxValue = true) :
    km.iteration pow2 =
      .ok (Double.ne (Binary64.mean (km.samples.map Binary64.Sample.getX)) c.centerX ||
             Double.ne (Binary64.mean (km.samples.map Binary64.Sample.getY)) c.centerY,
        { km with
          samples := km.samples.map (fun s => s.setClusterID 1),
          clusters := [⟨1, Binary64.mean (km.samples.map Binary64.Sample.getX),
            Binary64.mean (km.samples.map Binary64.Sample.getY),
            List.range km.samples.length⟩] }) := by
  have hall : Binary64.AllAssigned pow2 km.clusters km.samples := by
    rw [hcl]
    intro s hs
    exact ⟨0, by simp, by rw [b64_single_scan c s (h s hs), hid]; rfl⟩
  have hrel : km.samples.map (Binary64.relabel pow2 [c]) =
      km.samples.map (fun s => s.setClusterID 1) := by
    apply List.map_congr_left
    intro s hs
    simp [Binary64.relabel, b64_single_scan c s (h s hs), hid]
  have hass : Binary64.assignedClusters pow2 [c] km.samples =
      [{ c with samples := List.range km.samples.length }] := by
    simp [Binary64.assignedClusters, List.enum, b64_single_positions c km.samples hid h]
  have hmem : ∀ (g : Int) (u v : Double),
      Binary64.Cluster.members (km.samples.map (fun s => s.setClusterID 1))
        ⟨g, u, v, List.range km.samples.length⟩ =
      km.samples.map (fun s => s.setClusterID 1) := by
    intro g u v
    have := b64_members_range [] (km.samples.map (fun s => s.setClusterID 1))
    simp only [List.length_nil, List.nil_append, List.length_map] at this
    simp only [Binary64.Cluster.members, List.range_eq_range']
    exact this
  have hemp : (List.range km.samples.length).isEmpty = false := by
    cases hs : km.samples with
    | nil => exact absurd hs hne
    | cons a l => simp [List.range_succ]
  have hx : (km.samples.map (fun s => s.setClusterID 1)).map Binary64.Sample.getX =
      km.samples.map Binary64.Sample.getX := by
    rw [List.map_map]
    rfl
  have hy : (km.samples.map (fun s => s.setClusterID 1)).map Binary64.Sample.getY =
      km.samples.map Binary64.Sample.getY := by
    rw [List.map_map]
    rfl
  rw [b64_iteration_eq km hall, hcl, hrel, hass]
  simp only [List.any_cons, List.any_nil, Bool.or_false, List.map_cons, List.map_nil,
    Binary64.Cluster.moved, Binary64.Cluster.recenter, hemp, hmem, hx, hy, Bool.not_false,
    Bool.true_and, Bool.false_eq_true, if_false, hid]

/-! ## Over `double`: member positions -/

theorem b64_mem_memberPositions {pow2 : Double → Double}
    (cl : List Binary64.Cluster) (l : List Binary64.Sample)
    (i p : Nat) :
    p ∈ Binary64.memberPositions pow2 cl 0 l i ↔
      ∃ s, l[p]? = some s ∧ (Binary64.nearestScan pow2 cl s).2 = (i : Int) + 1 := by
  unfold Binary64.memberPositions
  simp only [List.mem_map, List.mem_filter, decide_eq_true_eq, Prod.exists]
  constructor
  · rintro ⟨q, s, ⟨hmem, hb⟩, rfl⟩
    rw [List.mk_mem_enumFrom_iff_le_and_getElem?_sub] at hmem
    exact ⟨s, by simpa using hmem.2, hb⟩
  · rintro ⟨s, hs, hb⟩
    refine ⟨p, s, ⟨?_, hb⟩, rfl⟩
    rw [List.mk_mem_enumFrom_iff_le_and_getElem?_sub]
    exact ⟨Nat.zero_le _, by simpa using hs⟩

theorem b64_memberPositions_nodup {pow2 : Double → Double} (cl : List Binary64.Cluster) (j : Nat)
    (l : List Binary64.Sample) (i : Nat) : (Binary64.memberPositions pow2 cl j l i).Nodup := by
  unfold Binary64.memberPositions
  have hsub : List.Sublist (((l.enumFrom j).filter
      (fun ps => decide ((Binary64.nearestScan pow2 cl ps.2).2 = (i : Int) + 1))).map Prod.fst)
      ((l.enumFrom j).map Prod.fst) :=
    (List.filter_sublist _).map Prod.fst
  rw [List.enumFrom_map_fst] at hsub
  exact List.Nodup.sublist hsub (List.nodup_range' _ _)

/-! ## Over `double`: operations that are exact -/

theorem b64_value_cases (x : Double) (h : x.isValue = true) :
    ∃ n : Int, x = .fin n ∧ Double.round (decide (n < 0)) n.natAbs 1 = .fin n := by
  cases x with
  | fin n => exact ⟨n, rfl, by simpa [Double.isValue] using h⟩
  | pinf => simp [Double.isValue] at h
  | ninf => simp [Double.isValue] at h
  | nan => simp [Double.isValue] at h

theorem b64_round_zero (d : Nat) : Double.round false 0 d = .fin 0 := by
  have h0 : Double.nearest 0 d = 0 := by
    unfold Double.nearest
    simp
  have hov : ¬ Double.overflow ≤ 0 := by
    unfold Double.overflow
    exact Nat.not_le.2 (by positivity)
  unfold Double.round
  simp [h0, hov]

theorem b64_add_zero_value (x : Double) (h : x.isValue = true) :
    Double.add (.fin 0) x = x := by
  obtain ⟨n, rfl, hr⟩ := b64_value_cases x h
  simp only [Double.add, zero_add]
  exact hr

theorem b64_ofNat_one : Double.ofNat 1 = .fin (Double.unitsInOne : Int) := by decide!

theorem b64_div_one_value (x : Double) (h : x.isValue = true) :
    Double.div x (Double.ofNat 1) = x := by
  obtain ⟨n, rfl, hr⟩ := b64_value_cases x h
  have hU : 0 < Double.unitsInOne := by
    unfold Double.unitsInOne
    positivity
  have hU0 : ¬ ((Double.unitsInOne : Int) = 0) := by omega
  have hU1 : decide ((Double.unitsInOne : Int) < 0) = false := by
    rw [decide_eq_false_iff_not]
    omega
  rw [b64_ofNat_one]
  simp only [Double.div, if_neg hU0, hU1, Bool.bne_false, Int.natAbs_ofNat]
  unfold Double.round at hr ⊢
  rw [nearest_scale _ _ hU]
  exact hr

theorem b64_mean_singleton (x : Double) (h : x.isValue = true) : Binary64.mean [x] = x := by
  simp only [Binary64.mean, Binary64.sum, List.foldl_cons, List.foldl_nil,
    List.length_singleton]
  rw [b64_add_zero_value x h, b64_div_one_value x h]

theorem b64_value_ne_nan (x : Double) (h : x.isValue = true) : x ≠ .nan := by
  obtain ⟨n, rfl, -⟩ := b64_value_cases x h
  simp

theorem b64_sub_self (n : Int) : Double.sub (.fin n) (.fin n) = .fin 0 := by
  simp only [Double.sub, Double.neg, Double.add, add_neg_cancel, lt_self_iff_false,
    decide_False, Int.natAbs_zero]
  exact b64_round_zero 1

theorem b64_square_zero : Double.square (.fin 0) = .fin 0 := by
  simp only [Double.square, Int.natAbs_zero, mul_zero]
  exact b64_round_zero _

/-- The correctly rounded square has what is used of `std::pow(x, 2)`. -/
theorem square_isPow2 : Double.IsPow2 Double.square :=
  ⟨rfl, b64_square_zero, square_cases, rfl, rfl⟩

theorem b64_add_zero_zero : Double.add (.fin 0) (.fin 0) = .fin 0 := by
  simp only [Double.add, add_zero, lt_self_iff_false, decide_False, Int.natAbs_zero]
  exact b64_round_zero 1

theorem b64_sqrt_zero : Double.sqrt (.fin 0) = .fin 0 := by decide!

theorem b64_zero_lt_max : Double.lt (.fin 0) Double.maxValue = true := by decide!

/-- The code computes the distance 0 from a sample to a center at its own position. -/
theorem b64_distance_self {pow2 : Double → Double} (hpow : Double.IsPow2 pow2)
    (s : Binary64.Sample) (c : Binary64.Cluster)
    (hx : s.x.isValue = true) (hy : s.y.isValue = true) (hcx : c.centerX = s.x)
    (hcy : c.centerY = s.y) : Binary64.distance pow2 s c = .fin 0 := by
  obtain ⟨n, hn, -⟩ := b64_value_cases _ hx
  obtain ⟨m, hm, -⟩ := b64_value_cases _ hy
  simp only [Binary64.distance, Binary64.Sample.getX, Binary64.Sample.getY,
    Binary64.Cluster.getXofCluster, Binary64.Cluster.getYofCluster, hcx, hcy, hn, hm,
    b64_sub_self, hpow.2.1, b64_add_zero_zero, b64_sqrt_zero]

/-! ## Over `double`: runs seeded at every sample -/

/-- With a cluster seeded at every sample, on samples that the code tells apart, the
scan gives the i-th sample the id i. -/
theorem b64_seeded_best {pow2 : Double → Double} (hpow : Double.IsPow2 pow2)
    (l : List Binary64.Sample) (hval : Binary64.ValueSamples l)
    (hsep : Binary64.Separated pow2 l) (i : Nat) (s : Binary64.Sample) (hi : l[i]? = some s) :
    (Binary64.nearestScan pow2 (Binary64.initLoop 1 l) s).2 = (i : Int) + 1 := by
  obtain ⟨hvx, hvy⟩ := hval s (List.getElem?_mem hi)
  have hown : (Binary64.initLoop 1 l)[i]? = some (Binary64.Cluster.ctor (1 + i) s.x s.y) := by
    rw [b64_initLoop_getElem?, hi]
    rfl
  have hd0 : Binary64.distance pow2 s (Binary64.Cluster.ctor (1 + i) s.x s.y) = .fin 0 :=
    b64_distance_self hpow s _ hvx hvy rfl rfl
  rcases b64_nearestScan_cases s (Binary64.initLoop 1 l) with
    ⟨-, hall⟩ | ⟨i0, c0, hi0, heq, -, hmin⟩
  · have := hall _ (List.getElem?_mem hown)
    rw [hd0, b64_zero_lt_max] at this
    exact absurd this (by simp)
  · have hle := hmin _ (List.getElem?_mem hown)
    rw [hd0] at hle
    rw [b64_initLoop_getElem?] at hi0
    cases hli : l[i0]? with
    | none => simp [hli] at hi0
    | some t =>
      simp only [hli, Option.map_some', Option.some.injEq] at hi0
      subst hi0
      by_cases hii : i = i0
      · subst hii
        rw [heq]
        simp only [Binary64.Cluster.ctor]
        ring
      · have := hsep i i0 s t hi hli hii
        have hd : Binary64.distance pow2 s (Binary64.Cluster.ctor ((i0 : Int) + 1) t.getX t.getY) =
            Binary64.distance pow2 s (Binary64.Cluster.ctor (1 + (i0 : Int)) t.x t.y) := rfl
        rw [hd, hle] at this
        exact absurd this (by simp)

theorem b64_seeded_allAssigned {pow2 : Double → Double} (hpow : Double.IsPow2 pow2)
    (l : List Binary64.Sample) (hval : Binary64.ValueSamples l)
    (hsep : Binary64.Separated pow2 l) : Binary64.AllAssigned pow2 (Binary64.initLoop 1 l) l := by
  intro s hs
  obtain ⟨i, hi⟩ := List.getElem?_of_mem hs
  refine ⟨i, ?_, b64_seeded_best hpow l hval hsep i s hi⟩
  rw [b64_initLoop_length]
  exact (List.getElem?_eq_some_iff.1 hi).1

theorem b64_seeded_positions {pow2 : Double → Double} (hpow : Double.IsPow2 pow2)
    (l : List Binary64.Sample) (hval : Binary64.ValueSamples l)
    (hsep : Binary64.Separated pow2 l) (i : Nat) (s : Binary64.Sample) (hi : l[i]? = some s) :
    Binary64.memberPositions pow2 (Binary64.initLoop 1 l) 0 l i = [i] := by
  rw [← List.perm_singleton]
  rw [List.perm_ext_iff_of_nodup (b64_memberPositions_nodup _ _ _ _) (List.nodup_singleton i)]
  intro p
  rw [b64_mem_memberPositions, List.mem_singleton]
  constructor
  · rintro ⟨u, hu, hb⟩
    have := b64_seeded_best hpow l hval hsep p u hu
    rw [this] at hb
    omega
  · rintro rfl
    exact ⟨s, hi, b64_seeded_best hpow l hval hsep p s hi⟩

/-- With a cluster seeded at every sample, on samples that the code tells apart, the
i-th cluster after the first iteration: its seed as center, the i-th sample as its
only member, and `calculateCenter` has returned false on it. -/
theorem b64_seeded_cluster {pow2 : Double → Double} (hpow : Double.IsPow2 pow2)
    (l : List Binary64.Sample) (hval : Binary64.ValueSamples l)
    (hsep : Binary64.Separated pow2 l) (i : Nat) (s : Binary64.Sample) (hi : l[i]? = some s) :
    (Binary64.assignedClusters pow2 (Binary64.initLoop 1 l) l)[i]? =
      some ⟨(i : Int) + 1, s.x, s.y, [i]⟩ ∧
    Binary64.Cluster.recenter (l.map (Binary64.relabel pow2 (Binary64.initLoop 1 l)))
      ⟨(i : Int) + 1, s.x, s.y, [i]⟩ = ⟨(i : Int) + 1, s.x, s.y, [i]⟩ ∧
    Binary64.Cluster.moved (l.map (Binary64.relabel pow2 (Binary64.initLoop 1 l)))
      ⟨(i : Int) + 1, s.x, s.y, [i]⟩ = false := by
  obtain ⟨hvx, hvy⟩ := hval s (List.getElem?_mem hi)
  have hmem : Binary64.Cluster.members (l.map (Binary64.relabel pow2 (Binary64.initLoop 1 l)))
      ⟨(i : Int) + 1, s.x, s.y, [i]⟩ = [Binary64.relabel pow2 (Binary64.initLoop 1 l) s] := by
    simp [Binary64.Cluster.members, hi]
  have hmx : Binary64.mean [(Binary64.relabel pow2 (Binary64.initLoop 1 l) s).getX] = s.x :=
    b64_mean_singleton s.x hvx
  have hmy : Binary64.mean [(Binary64.relabel pow2 (Binary64.initLoop 1 l) s).getY] = s.y :=
    b64_mean_singleton s.y hvy
  refine ⟨?_, ?_, ?_⟩
  · rw [b64_assignedClusters_getElem?, b64_initLoop_getElem?, hi,
      b64_seeded_positions hpow l hval hsep i s hi]
    simp only [Option.map_some', Binary64.Cluster.ctor, Option.some.injEq,
      Binary64.Cluster.mk.injEq, and_true]
    omega
  · simp only [Binary64.Cluster.recenter, hmem, List.map_cons, List.map_nil, hmx, hmy]
    rfl
  · simp only [Binary64.Cluster.moved, hmem, List.map_cons, List.map_nil, hmx, hmy,
      double_ne_self _ (b64_value_ne_nan _ hvx), double_ne_self _ (b64_value_ne_nan _ hvy)]
    rfl

/-! ## Over `double`: one more iteration on a state a run has ended in -/

theorem b64_memberPositions_map {pow2 : Double → Double} (cl cl' : List Binary64.Cluster)
    (f : Binary64.Sample → Binary64.Sample) (j : Nat) (l : List Binary64.Sample) (i : Nat)
    (h : ∀ s, Binary64.nearestScan pow2 cl' (f s) = Binary64.nearestScan pow2 cl s) :
    Binary64.memberPositions pow2 cl' j (l.map f) i = Binary64.memberPositions pow2 cl j l i := by
  induction l generalizing j with
  | nil => rfl
  | cons s l ih =>
    rw [List.map_cons, b64_memberPositions_cons, b64_memberPositions_cons, ih, h]

/-- After an iteration in which no center moved, one more iteration changes nothing
and ends with `changed = false` again. -/
theorem b64_converged_again {pow2 : Double → Double} (kmL km' : Binary64.KMeans)
    (hit : kmL.iteration pow2 = .ok (false, km')) : km'.iteration pow2 = .ok (false, km') := by
  obtain ⟨hall, hs, hc, hk⟩ := b64_converged_fixed kmL km' hit
  obtain ⟨-, -, hb⟩ := b64_iteration_ok kmL km' false hit
  have hscan : ∀ s, Binary64.nearestScan pow2 km'.clusters (Binary64.relabel pow2 kmL.clusters s) =
      Binary64.nearestScan pow2 kmL.clusters s :=
    fun s => b64_nearestScan_congr _ _ _ _ hk rfl rfl
  have hall' : Binary64.AllAssigned pow2 km'.clusters km'.samples := by
    intro s' hs'
    rw [hs] at hs'
    obtain ⟨s, hsm, rfl⟩ := List.mem_map.1 hs'
    obtain ⟨i, hi, hbi⟩ := hall s hsm
    refine ⟨i, ?_, by rw [hscan]; exact hbi⟩
    rw [hc, b64_assignedClusters_length]
    exact hi
  have hsamples : km'.samples.map (Binary64.relabel pow2 km'.clusters) = km'.samples := by
    rw [hs, List.map_map]
    apply List.map_congr_left
    intro s _
    simp only [Function.comp]
    have := hscan s
    simp only [Binary64.relabel, Binary64.Sample.setClusterID] at this ⊢
    rw [this]
  have hclusters : Binary64.assignedClusters pow2 km'.clusters km'.samples = km'.clusters := by
    apply List.ext_getElem?
    intro i
    rw [b64_assignedClusters_getElem?]
    conv_lhs => rw [hs, b64_memberPositions_map kmL.clusters _ _ _ _ _ hscan]
    rw [hc, b64_assignedClusters_getElem?]
    cases kmL.clusters[i]? <;> simp
  have hmoved : (Binary64.assignedClusters pow2 kmL.clusters kmL.samples).any
      (fun c => c.moved (kmL.samples.map (Binary64.relabel pow2 kmL.clusters))) = false := hb.symm
  rw [← hc, ← hs] at hmoved
  rw [b64_iteration_eq km' hall', hsamples, hclusters, hmoved]
  have hfix : km'.clusters.map (fun c => c.recenter km'.samples) = km'.clusters := by
    conv_rhs => rw [← List.map_id km'.clusters]
    apply List.map_congr_left
    intro c hcm
    apply b64_not_moved_recenter
    rw [List.any_eq_false] at hmoved
    simpa using hmoved c hcm
  rw [hfix]

/-! ## Over `double`: the example runs

In the runs below `std::pow(x, 2)` is the correctly rounded square. -/

theorem nearTie_seeding : nearTieLoaded.initialize = .ok nearTieSeeded := by decide!

theorem nearTie_run :
    Binary64.KMeans.updateKM Double.square 1 nearTieSeeded = .ok nearTieFinal := by decide!

theorem third_seeding : thirdLoaded.initialize = .ok thirdSeeded := by decide!

theorem third_run :
    Binary64.KMeans.updateKM Double.square 2 thirdSeeded = .ok thirdFinal := by decide!

theorem tenth_seeding : tenthLoaded.initialize = .ok tenthSeeded := by decide!

theorem tenth_run :
    Binary64.KMeans.updateKM Double.square 1 tenthSeeded = .error Fault.out_of_fuel ∧
    Binary64.KMeans.updateKM Double.square 2 tenthSeeded = .ok tenthFinal := by decide!

theorem half_run :
    halfLoaded.initialize = .ok halfSeeded ∧
    halfSeeded.iteration Double.square = .ok (true, halfFinal) ∧
    Binary64.KMeans.updateKM Double.square 1 halfSeeded = .error Fault.out_of_fuel ∧
    Binary64.KMeans.updateKM Double.square 2 halfSeeded = .ok halfFinal := by decide!

theorem equal_run :
    equalLoaded.initialize = .ok equalSeeded ∧
    equalSeeded.iteration Double.square = .ok (true, equalFirst) ∧
    Binary64.KMeans.updateKM Double.square 3 equalSeeded = .error Fault.out_of_fuel ∧
    Binary64.KMeans.updateKM Double.square 4 equalSeeded = .ok equalFinal := by decide!

/-- The sentinel in `double`: at the records `1 0 0`, `2 1e200 0` with K = 1 the square of
the difference overflows, the distance is +inf, the scan ends with -1 and the pass in
the out-of-range lookup. -/
theorem huge_pass :
    Binary64.distance Double.square ⟨2, none, Double.ofRatio (10 ^ 200) 1, .fin 0⟩
      ⟨1, .fin 0, .fin 0, []⟩ = .pinf ∧
    Binary64.nearestScan Double.square hugeSeeded.clusters
      ⟨2, none, Double.ofRatio (10 ^ 200) 1, .fin 0⟩ = (Double.maxValue, -1) ∧
    hugeSeeded.assignSamplesToClusters Double.square = .error Fault.out_of_range := by
  decide!

/-- Two samples the code does not tell apart: at the records `1 0 0`, `2 1e-200 0` with
K = 2 the square of the difference underflows to 0, both samples get the label 1, and
the run returns after two iterations. -/
theorem tiny_run :
    tinyLoaded.initialize = .ok tinySeeded ∧
    Binary64.distance Double.square ⟨2, none, Double.ofRatio 1 (10 ^ 200), .fin 0⟩
      ⟨1, .fin 0, .fin 0, []⟩ = .fin 0 ∧
    Binary64.KMeans.updateKM Double.square 1 tinySeeded = .error Fault.out_of_fuel ∧
    Binary64.KMeans.updateKM Double.square 2 tinySeeded = .ok tinyFinal := by decide!

/-- A sum that overflows: `calculateCenter` on two members at
(`numeric_limits<double>::max()`, 0) stores the center (+inf, 0) and returns true. -/
theorem overflow_center :
    Binary64.Cluster.calculateCenter
      [⟨1, none, Double.maxValue, .fin 0⟩, ⟨2, none, Double.maxValue, .fin 0⟩]
      ⟨1, .fin 0, .fin 0, [0, 1]⟩ = .ok (true, ⟨1, .pinf, .fin 0, [0, 1]⟩) := by decide!

/-! ## Main results over `double`: `calculateCenter` and the state a run ends in -/

/-- C2. For a cluster with a non-empty member list (whose pointers point into the sample
vector), `calculateCenter` succeeds and sets `centerX` to the sum of the members' x
divided by the member count and `centerY` to the sum of the members' y divided by the
member count, both in the arithmetic of `double`: the sum is accumulated from 0 in
member order, the count is converted to `double`, and every addition and the division
round. It leaves id and member list alone, and returns true exactly when the new
`centerX` differs from the previous one or the new `centerY` differs from the previous
one under `!=` on `double`. -/
theorem calculateCenter_double_mean (mem : List Binary64.Sample) (c : Binary64.Cluster)
    (hne : c.samples ≠ []) (hv : c.ValidIn mem) :
    ∃ (changed : Bool) (c' : Binary64.Cluster),
      c.calculateCenter mem = .ok (changed, c') ∧
      c'.centerX =
        Double.div (((c.members mem).map Binary64.Sample.getX).foldl Double.add (.fin 0))
          (Double.ofNat (c.members mem).length) ∧
      c'.centerY =
        Double.div (((c.members mem).map Binary64.Sample.getY).foldl Double.add (.fin 0))
          (Double.ofNat (c.members mem).length) ∧
      c'.clusterID = c.clusterID ∧ c'.samples = c.samples ∧
      (changed = true ↔
        (Double.ne c'.centerX c.centerX = true ∨ Double.ne c'.centerY c.centerY = true)) := by
  refine ⟨_, _, b64_calculateCenter_eq mem c hne hv, ?_, ?_, rfl, rfl, ?_⟩
  · simp [Binary64.mean, Binary64.sum]
  · simp [Binary64.mean, Binary64.sum]
  · simp

/-- C2 on a concrete input: the cluster with center (0.1, 0) holding three samples at
(0.1, 0). The sum 0.1 + 0.1 + 0.1 rounds to 0.30000000000000004 and the quotient by 3
to 0.10000000000000002, the double 7205759403792795 * 2^-56, which differs from the
double 0.1: the call returns true. -/
theorem calculateCenter_double_mean_witness :
    ∃ (changed : Bool) (c' : Binary64.Cluster),
      Binary64.Cluster.calculateCenter
        [⟨1, none, Double.ofRatio 1 10, .fin 0⟩, ⟨2, none, Double.ofRatio 1 10, .fin 0⟩,
          ⟨3, none, Double.ofRatio 1 10, .fin 0⟩]
        ⟨1, Double.ofRatio 1 10, .fin 0, [0, 1, 2]⟩ = .ok (changed, c') ∧
      c'.centerX = Double.dyadic 7205759403792795 (-56) ∧ c'.centerY = .fin 0 ∧
      changed = true := by
  obtain ⟨ch, c', h, hx, hy, -, -, hch⟩ :=
    calculateCenter_double_mean
      [⟨1, none, Double.ofRatio 1 10, .fin 0⟩, ⟨2, none, Double.ofRatio 1 10, .fin 0⟩,
        ⟨3, none, Double.ofRatio 1 10, .fin 0⟩]
      ⟨1, Double.ofRatio 1 10, .fin 0, [0, 1, 2]⟩ (by simp) (by decide)
  have e1 : Double.div
      (((Binary64.Cluster.members
        [⟨1, none, Double.ofRatio 1 10, .fin 0⟩, ⟨2, none, Double.ofRatio 1 10, .fin 0⟩,
          ⟨3, none, Double.ofRatio 1 10, .fin 0⟩]
        ⟨1, Double.ofRatio 1 10, .fin 0, [0, 1, 2]⟩).map Binary64.Sample.getX).foldl
          Double.add (.fin 0))
      (Double.ofNat (Binary64.Cluster.members
        [⟨1, none, Double.ofRatio 1 10, .fin 0⟩, ⟨2, none, Double.ofRatio 1 10, .fin 0⟩,
          ⟨3, none, Double.ofRatio 1 10, .fin 0⟩]
        ⟨1, Double.ofRatio 1 10, .fin 0, [0, 1, 2]⟩).length) =
      Double.dyadic 7205759403792795 (-56) := by decide!
  have e2 : Double.div
      (((Binary64.Cluster.members
        [⟨1, none, Double.ofRatio 1 10, .fin 0⟩, ⟨2, none, Double.ofRatio 1 10, .fin 0⟩,
          ⟨3, none, Double.ofRatio 1 10, .fin 0⟩]
        ⟨1, Double.ofRatio 1 10, .fin 0, [0, 1, 2]⟩).map Binary64.Sample.getY).foldl
          Double.add (.fin 0))
      (Double.ofNat (Binary64.Cluster.members
        [⟨1, none, Double.ofRatio 1 10, .fin 0⟩, ⟨2, none, Double.ofRatio 1 10, .fin 0⟩,
          ⟨3, none, Double.ofRatio 1 10, .fin 0⟩]
        ⟨1, Double.ofRatio 1 10, .fin 0, [0, 1, 2]⟩).length) = .fin 0 := by decide!
  have e3 : Double.ne (Double.dyadic 7205759403792795 (-56)) (Double.ofRatio 1 10) = true := by
    decide!
  rw [e1] at hx
  rw [e2] at hy
  refine ⟨ch, c', h, hx, hy, ?_⟩
  rw [hch, hx]
  exact Or.inl e3

/-- C6. When `updateKM` returns on the state `initialize` leaves (1 ≤ K ≤ N, N a
`size_t`), every sample of the final state carries a label g that is the id of a
cluster, and the distance the code computes (`sqrt(pow(dx, 2) + pow(dy, 2))` in
`double`) from the sample to the center of the cluster with id g is at most the
distance it computes to the center of any cluster, under `<=` on `double`, all centers
being the final ones. This holds whatever way the library's `std::pow(x, 2)` rounds. -/
theorem final_labels_nearest_double (pow2 : Double → Double) (hpow : Double.IsPow2 pow2)
    (km km0 km' : Binary64.KMeans) (fuel : Nat) (hc : km.clusters = []) (h1 : 1 ≤ km.K)
    (hN : km.K ≤ km.samples.length) (h64 : km.samples.length < 2 ^ 64)
    (hinit : km.initialize = .ok km0)
    (hrun : Binary64.KMeans.updateKM pow2 fuel km0 = .ok km') :
    ∀ p ∈ km'.samples, ∃ g : Int, p.getClusterID = some g ∧
      (∃ c ∈ km'.clusters, c.getIDofCluster = g) ∧
      ∀ c ∈ km'.clusters, c.getIDofCluster = g → ∀ c' ∈ km'.clusters,
        Double.le (Binary64.distance pow2 p c) (Binary64.distance pow2 p c') = true := by
  obtain ⟨hs0, -, hids, hcen⟩ := b64_initialize_inv km km0 hc h1 hN hinit
  have hfin : Binary64.FiniteSamples km.samples := by
    rw [← hs0]
    exact b64_run_finite hpow fuel km0 km' hrun
  obtain ⟨kmL, ⟨hidsL, hfinL, hcenL, hlenL⟩, hit⟩ :=
    b64_last_iteration fuel km0 km'
      (fun k => Binary64.IdsInOrder k.clusters ∧ Binary64.FiniteSamples k.samples ∧
        Binary64.CentersOrdered k.clusters ∧ k.samples.length = km.samples.length)
      ⟨hids, by rw [hs0]; exact hfin, hcen hfin, by rw [hs0]⟩
      (fun k k' b hP hk => b64_iteration_inv km.samples.length h64 k k' b hP hk) hrun
  have hids' := (b64_iteration_inv km.samples.length h64 kmL km' false
    ⟨hidsL, hfinL, hcenL, hlenL⟩ hit).1
  have hnear := b64_converged_nearest hpow kmL km' hidsL hfinL hcenL hit
  intro p hp
  obtain ⟨i, c, hlabel, hci, -, hmin⟩ := hnear p hp
  refine ⟨(i : Int) + 1, hlabel, ⟨c, List.getElem?_mem hci, hids' i c hci⟩, ?_⟩
  intro c1 hc1 hid1 c' hc'
  obtain ⟨j, hj⟩ := List.getElem?_of_mem hc1
  have hji : j = i := by
    have := hids' j c1 hj
    simp only [Binary64.Cluster.getIDofCluster] at hid1
    omega
  subst hji
  rw [hci] at hj
  injection hj with hj
  subst hj
  exact hmin c' hc'

/-- C6 on a concrete input: the records `1 0 1e-9`, `2 2 0`, `3 1 0`, `4 -1 2e-9` with
K = 2, `std::pow(x, 2)` being the correctly rounded square. The run returns after one
iteration with the labels 1, 2, 1, 1: for the third sample the code computes the
distance 1 to both centers (the root of 1 + 1e-18 rounds to 1) and keeps the first. -/
theorem final_labels_nearest_double_witness :
    nearTieLoaded.initialize = .ok nearTieSeeded ∧
    Binary64.KMeans.updateKM Double.square 1 nearTieSeeded = .ok nearTieFinal ∧
    nearTieFinal.samples.map Binary64.Sample.getClusterID = [some 1, some 2, some 1, some 1] ∧
    ∀ p ∈ nearTieFinal.samples, ∃ g : Int, p.getClusterID = some g ∧
      (∃ c ∈ nearTieFinal.clusters, c.getIDofCluster = g) ∧
      ∀ c ∈ nearTieFinal.clusters, c.getIDofCluster = g → ∀ c' ∈ nearTieFinal.clusters,
        Double.le (Binary64.distance Double.square p c)
          (Binary64.distance Double.square p c') = true :=
  ⟨nearTie_seeding, nearTie_run, rfl,
    final_labels_nearest_double Double.square square_isPow2 nearTieLoaded nearTieSeeded
      nearTieFinal 1 rfl (by decide) (by decide) (by decide!) nearTie_seeding nearTie_run⟩

/-- C7. When `updateKM` returns on the state `initialize` leaves (1 ≤ K ≤ N), every
cluster of the final state with a non-empty member list has member pointers into the
sample vector and a center whose x is the arithmetic mean of its members' x and whose
y is the arithmetic mean of its members' y, the mean being formed in `double` as
`calculateCenter` forms it: the members' coordinates added up from 0 in member order
and the sum divided by the member count, every operation rounding. This holds whatever
way the library's `std::pow(x, 2)` rounds. -/
theorem final_centers_double_mean (pow2 : Double → Double) (km km0 km' : Binary64.KMeans)
    (fuel : Nat) (hc : km.clusters = []) (h1 : 1 ≤ km.K) (hN : km.K ≤ km.samples.length)
    (hinit : km.initialize = .ok km0)
    (hrun : Binary64.KMeans.updateKM pow2 fuel km0 = .ok km') :
    ∀ c ∈ km'.clusters, c.samples ≠ [] →
      c.ValidIn km'.samples ∧
      c.getXofCluster =
        Double.div (((c.members km'.samples).map Binary64.Sample.getX).foldl Double.add (.fin 0))
          (Double.ofNat (c.members km'.samples).length) ∧
      c.getYofCluster =
        Double.div (((c.members km'.samples).map Binary64.Sample.getY).foldl Double.add (.fin 0))
          (Double.ofNat (c.members km'.samples).length) := by
  obtain ⟨kmL, -, hit⟩ := b64_last_iteration fuel km0 km' (fun _ => True) trivial
    (fun _ _ _ _ _ => trivial) hrun
  intro c hcm hne
  obtain ⟨hv, hx, hy⟩ := b64_iteration_mean kmL km' false hit c hcm hne
  refine ⟨hv, ?_, ?_⟩
  · rw [hx]
    simp [Binary64.mean, Binary64.sum]
  · rw [hy]
    simp [Binary64.mean, Binary64.sum]

/-- C7 on a concrete input: the records `1 0 0`, `2 0 0`, `3 1 0` with K = 1. The run
returns after two iterations with the center at x = 0.3333333333333333, the double
6004799503160661 * 2^-54 that the quotient of the sum 1 by the count 3 rounds to. -/
theorem final_centers_double_mean_witness :
    thirdLoaded.initialize = .ok thirdSeeded ∧
    Binary64.KMeans.updateKM Double.square 2 thirdSeeded = .ok thirdFinal ∧
    thirdFinal.clusters.map Binary64.Cluster.getXofCluster =
      [Double.dyadic 6004799503160661 (-54)] ∧
    ∀ c ∈ thirdFinal.clusters, c.samples ≠ [] →
      c.ValidIn thirdFinal.samples ∧
      c.getXofCluster =
        Double.div
          (((c.members thirdFinal.samples).map Binary64.Sample.getX).foldl Double.add (.fin 0))
          (Double.ofNat (c.members thirdFinal.samples).length) ∧
      c.getYofCluster =
        Double.div
          (((c.members thirdFinal.samples).map Binary64.Sample.getY).foldl Double.add (.fin 0))
          (Double.ofNat (c.members thirdFinal.samples).length) :=
  ⟨third_seeding, third_run, rfl,
    final_centers_double_mean Double.square thirdLoaded thirdSeeded thirdFinal 2 rfl
      (by decide) (by decide) third_seeding third_run⟩

/-! ## Main results over `double`: the runs with K = 1 -/

/-- C14 as stated fails on the records `1 0 0`, `2 1 0` with K = 1, where every value
the code computes is exact: the first iteration moves the center from the seed (0, 0)
to the mean (0.5, 0), so it ends with `changed = true` and the loop does not stop after
it; `updateKM` returns only after a second iteration. -/
theorem single_cluster_second_iteration :
    halfLoaded.initialize = .ok halfSeeded ∧
    halfSeeded.iteration Double.square = .ok (true, halfFinal) ∧
    Binary64.KMeans.updateKM Double.square 1 halfSeeded = .error Fault.out_of_fuel ∧
    Binary64.KMeans.updateKM Double.square 2 halfSeeded = .ok halfFinal ∧
    halfFinal.clusters = [⟨1, Double.dyadic 1 (-1), .fin 0, [0, 1]⟩] :=
  ⟨half_run.1, half_run.2.1, half_run.2.2.1, half_run.2.2.2, rfl⟩

/-- C14, amended. With K = 1 and a non-empty list of samples from each of which the code
computes a distance below `numeric_limits<double>::max()` to the first sample and to
the mean of all samples, the run ends with the single cluster of id 1, whose members
are all the samples and whose center is the mean of all samples, the mean being formed
in `double` as `calculateCenter` forms it (the coordinates added up from 0 in load
order and the sum divided by the count, every operation rounding); `updateKM` returns
after at most two iterations: after exactly one when that mean is equal to the first
sample's position under `!=` on `double`, and not before the second otherwise. This
holds whatever way the library's `std::pow(x, 2)` rounds. -/
theorem single_cluster_run_double (pow2 : Double → Double) (hpow : Double.IsPow2 pow2)
    (km : Binary64.KMeans) (s0 : Binary64.Sample) (rest : List Binary64.Sample)
    (hc : km.clusters = []) (hK : km.K = 1) (hl : km.samples = s0 :: rest)
    (h0 : ∀ s ∈ km.samples,
      Double.lt (Binary64.distance pow2 s ⟨1, s0.x, s0.y, []⟩) Double.maxValue = true)
    (hm : ∀ s ∈ km.samples,
      Double.lt
        (Binary64.distance pow2 s
          ⟨1, Binary64.mean (km.samples.map Binary64.Sample.getX),
            Binary64.mean (km.samples.map Binary64.Sample.getY), []⟩)
        Double.maxValue = true) :
    ∃ km0 km', km.initialize = .ok km0 ∧
      Binary64.KMeans.updateKM pow2 2 km0 = .ok km' ∧
      km'.clusters =
        [⟨1, Binary64.mean (km.samples.map Binary64.Sample.getX),
          Binary64.mean (km.samples.map Binary64.Sample.getY),
          List.range km.samples.length⟩] ∧
      km'.samples = km.samples.map (fun s => s.setClusterID 1) ∧
      (∀ c ∈ km'.clusters, c.members km'.samples = km'.samples) ∧
      ((Double.ne (Binary64.mean (km.samples.map Binary64.Sample.getX)) s0.x ||
          Double.ne (Binary64.mean (km.samples.map Binary64.Sample.getY)) s0.y) = false →
        Binary64.KMeans.updateKM pow2 1 km0 = .ok km') ∧
      ((Double.ne (Binary64.mean (km.samples.map Binary64.Sample.getX)) s0.x ||
          Double.ne (Binary64.mean (km.samples.map Binary64.Sample.getY)) s0.y) = true →
        Binary64.KMeans.updateKM pow2 1 km0 = .error Fault.out_of_fuel) := by
  have hne : km.samples ≠ [] := by rw [hl]; exact List.cons_ne_nil _ _
  have hinit : km.initialize =
      .ok { km with clusters := [⟨1, s0.x, s0.y, []⟩] } := by
    rw [b64_initialize_eq km (by omega) (by rw [hK, hl]; simp)]
    simp [hc, hK, hl, Binary64.initLoop, Binary64.Cluster.ctor, Binary64.Sample.getX,
      Binary64.Sample.getY]
  have it1 := b64_single_iteration { km with clusters := [⟨1, s0.x, s0.y, []⟩] }
    ⟨1, s0.x, s0.y, []⟩ rfl rfl hne h0
  simp only at it1
  have hs0 : s0 ∈ km.samples := by rw [hl]; exact List.mem_cons_self _ _
  obtain ⟨hmx, hmy⟩ := b64_distance_center hpow _ _ _ (hm s0 hs0)
  simp only at hmx hmy
  have hx : (km.samples.map (fun s => s.setClusterID 1)).map Binary64.Sample.getX =
      km.samples.map Binary64.Sample.getX := by
    rw [List.map_map]
    rfl
  have hy : (km.samples.map (fun s => s.setClusterID 1)).map Binary64.Sample.getY =
      km.samples.map Binary64.Sample.getY := by
    rw [List.map_map]
    rfl
  have hagain : (km.samples.map (fun s => s.setClusterID 1)).map
      (fun s => s.setClusterID 1) = km.samples.map (fun s => s.setClusterID 1) := by
    rw [List.map_map]
    rfl
  have h1' : ∀ s ∈ km.samples.map (fun s => s.setClusterID 1),
      Double.lt (Binary64.distance pow2 s
        ⟨1, Binary64.mean (km.samples.map Binary64.Sample.getX),
          Binary64.mean (km.samples.map Binary64.Sample.getY),
          List.range km.samples.length⟩) Double.maxValue = true := by
    intro s' hs'
    obtain ⟨s, hs, rfl⟩ := List.mem_map.1 hs'
    have hd := @b64_distance_key pow2 (s.setClusterID 1) s
      ⟨1, Binary64.mean (km.samples.map Binary64.Sample.getX),
        Binary64.mean (km.samples.map Binary64.Sample.getY), List.range km.samples.length⟩
      ⟨1, Binary64.mean (km.samples.map Binary64.Sample.getX),
        Binary64.mean (km.samples.map Binary64.Sample.getY), []⟩ rfl rfl rfl
    rw [hd]
    exact hm s hs
  have it2 := b64_single_iteration
    { km with
      samples := km.samples.map (fun s => s.setClusterID 1),
      clusters := [⟨1, Binary64.mean (km.samples.map Binary64.Sample.getX),
        Binary64.mean (km.samples.map Binary64.Sample.getY),
        List.range km.samples.length⟩] } _ rfl rfl (by simpa using hne) h1'
  simp only [hx, hy, hagain, List.length_map, double_ne_self _ hmx, double_ne_self _ hmy,
    Bool.or_false] at it2
  have hmembers : ∀ (g : Int) (u v : Double),
      Binary64.Cluster.members (km.samples.map (fun s => s.setClusterID 1))
        ⟨g, u, v, List.range km.samples.length⟩ =
      km.samples.map (fun s => s.setClusterID 1) := by
    intro g u v
    have := b64_members_range [] (km.samples.map (fun s => s.setClusterID 1))
    simp only [List.length_nil, List.nil_append, List.length_map] at this
    simp only [Binary64.Cluster.members, List.range_eq_range']
    exact this
  refine ⟨{ km with clusters := [⟨1, s0.x, s0.y, []⟩] },
    { km with
      samples := km.samples.map (fun s => s.setClusterID 1),
      clusters := [⟨1, Binary64.mean (km.samples.map Binary64.Sample.getX),
        Binary64.mean (km.samples.map Binary64.Sample.getY),
        List.range km.samples.length⟩] }, hinit, ?_, rfl, rfl, ?_, ?_, ?_⟩
  · cases hb : (Double.ne (Binary64.mean (km.samples.map Binary64.Sample.getX)) s0.x ||
        Double.ne (Binary64.mean (km.samples.map Binary64.Sample.getY)) s0.y) with
    | false =>
      rw [hb] at it1
      simp only [Binary64.KMeans.updateKM, it1, Bool.false_eq_true, if_false]
    | true =>
      rw [hb] at it1
      simp only [Binary64.KMeans.updateKM, it1, if_true, it2, Bool.false_eq_true, if_false]
  · intro c hcm
    simp only [List.mem_singleton] at hcm
    subst hcm
    exact hmembers _ _ _
  · intro hb
    rw [hb] at it1
    simp only [Binary64.KMeans.updateKM, it1, Bool.false_eq_true, if_false]
  · intro hb
    rw [hb] at it1
    simp only [Binary64.KMeans.updateKM, it1, if_true]

/-- C14, amended, on a concrete input: the records `1 0.1 0`, `2 0.1 0`, `3 0.1 0` with
K = 1. The mean the code computes is x = 0.10000000000000002, not the double 0.1 of the
seed, so the first iteration ends with `changed = true` and the run returns after the
second. -/
theorem single_cluster_run_double_witness :
    ∃ km0 km', tenthLoaded.initialize = .ok km0 ∧
      Binary64.KMeans.updateKM Double.square 2 km0 = .ok km' ∧
      km'.clusters = [⟨1, Double.dyadic 7205759403792795 (-56), .fin 0, [0, 1, 2]⟩] ∧
      km'.samples =
        [⟨1, some 1, Double.ofRatio 1 10, .fin 0⟩, ⟨2, some 1, Double.ofRatio 1 10, .fin 0⟩,
          ⟨3, some 1, Double.ofRatio 1 10, .fin 0⟩] ∧
      Binary64.KMeans.updateKM Double.square 1 km0 = .error Fault.out_of_fuel := by
  obtain ⟨km0, km', h1, h2, h3, h4, -, -, h5⟩ :=
    single_cluster_run_double Double.square square_isPow2 tenthLoaded
      ⟨1, none, Double.ofRatio 1 10, .fin 0⟩
      [⟨2, none, Double.ofRatio 1 10, .fin 0⟩, ⟨3, none, Double.ofRatio 1 10, .fin 0⟩]
      rfl rfl rfl (by decide!) (by decide!)
  have ex : Binary64.mean (tenthLoaded.samples.map Binary64.Sample.getX) =
      Double.dyadic 7205759403792795 (-56) := by decide!
  have ey : Binary64.mean (tenthLoaded.samples.map Binary64.Sample.getY) = .fin 0 := by
    decide!
  have eb : (Double.ne (Double.dyadic 7205759403792795 (-56)) (Double.ofRatio 1 10) ||
      Double.ne (.fin 0) (.fin 0)) = true := by decide!
  rw [ex, ey] at h3 h5
  exact ⟨km0, km', h1, h2, h3, h4, h5 eb⟩

/-! ## Main results over `double`: the runs with K = N -/

/-- C15 as stated fails on the records `1 0.1 0`, `2 0.1 0`, `3 0.1 0` with K = N = 3:
the scan gives all three samples the id 1, the first of the three equally near
clusters, so clusters 2 and 3 have no member; and the first iteration moves the center
of cluster 1 from 0.1 to the mean 0.10000000000000002 that the code computes, so it
ends with `changed = true`. The run returns after four iterations with all three
samples in cluster 1. -/
theorem equal_points_one_cluster :
    equalLoaded.K = equalLoaded.samples.length ∧
    equalLoaded.initialize = .ok equalSeeded ∧
    equalSeeded.iteration Double.square = .ok (true, equalFirst) ∧
    equalSeeded.clusters.map Binary64.Cluster.getXofCluster =
      [Double.ofRatio 1 10, Double.ofRatio 1 10, Double.ofRatio 1 10] ∧
    equalFirst.clusters.map Binary64.Cluster.getXofCluster =
      [Double.dyadic 7205759403792795 (-56), Double.ofRatio 1 10, Double.ofRatio 1 10] ∧
    Binary64.KMeans.updateKM Double.square 3 equalSeeded = .error Fault.out_of_fuel ∧
    Binary64.KMeans.updateKM Double.square 4 equalSeeded = .ok equalFinal ∧
    equalFinal.samples.map Binary64.Sample.getClusterID = [some 1, some 1, some 1] ∧
    equalFinal.clusters.map Binary64.Cluster.samples = [[0, 1, 2], [], []] :=
  ⟨rfl, equal_run.1, equal_run.2.1, rfl, rfl, equal_run.2.2.1, equal_run.2.2.2, rfl, rfl⟩

/-- C15, amended. With K = N ≥ 1, on samples whose coordinates are finite doubles and
of which the code tells every two apart (it computes a distance above 0 from each
sample to the seed taken from any other), `initialize` seeds a cluster at every sample,
the i-th sample in load order gets the label i and is the only member of cluster i,
the first iteration of `updateKM` moves no center, so the run ends after it with the
centers as seeded, and one more iteration would change nothing either. This holds
whatever way the library's `std::pow(x, 2)` rounds. -/
theorem all_seeds_run_double (pow2 : Double → Double) (hpow : Double.IsPow2 pow2)
    (km : Binary64.KMeans) (hc : km.clusters = []) (h1 : 1 ≤ km.K)
    (hKN : km.K = km.samples.length) (hval : Binary64.ValueSamples km.samples)
    (hsep : Binary64.Separated pow2 km.samples) :
    ∃ km0 km', km.initialize = .ok km0 ∧
      km0.iteration pow2 = .ok (false, km') ∧
      Binary64.KMeans.updateKM pow2 1 km0 = .ok km' ∧
      km'.clusters.length = km.samples.length ∧
      (∀ (i : Nat) (s : Binary64.Sample), km.samples[i]? = some s →
        km0.clusters[i]? = some ⟨(i : Int) + 1, s.x, s.y, []⟩ ∧
        km'.samples[i]? = some (s.setClusterID ((i : Int) + 1)) ∧
        km'.clusters[i]? = some ⟨(i : Int) + 1, s.x, s.y, [i]⟩) ∧
      km'.iteration pow2 = .ok (false, km') := by
  have htake : km.samples.take km.K.toNat = km.samples := by
    apply List.take_of_length_le
    omega
  have hinit : km.initialize =
      .ok { km with clusters := Binary64.initLoop 1 km.samples } := by
    rw [b64_initialize_eq km (by omega) (by omega), hc, htake]
    rfl
  have hall := b64_seeded_allAssigned hpow km.samples hval hsep
  have hcl : ∀ (i : Nat) (s : Binary64.Sample), km.samples[i]? = some s →
      ((Binary64.assignedClusters pow2 (Binary64.initLoop 1 km.samples) km.samples).map
        (fun c => c.recenter
          (km.samples.map (Binary64.relabel pow2 (Binary64.initLoop 1 km.samples)))))[i]? =
        some ⟨(i : Int) + 1, s.x, s.y, [i]⟩ := by
    intro i s hi
    obtain ⟨ha, hr, -⟩ := b64_seeded_cluster hpow km.samples hval hsep i s hi
    rw [List.getElem?_map, ha, Option.map_some', hr]
  have hflag : (Binary64.assignedClusters pow2 (Binary64.initLoop 1 km.samples) km.samples).any
      (fun c => c.moved
        (km.samples.map (Binary64.relabel pow2 (Binary64.initLoop 1 km.samples)))) = false := by
    rw [List.any_eq_false]
    intro c hcm
    obtain ⟨i, hi⟩ := List.getElem?_of_mem hcm
    have hlt : i < km.samples.length := by
      have := (List.getElem?_eq_some_iff.1 hi).1
      rw [b64_assignedClusters_length, b64_initLoop_length] at this
      exact this
    obtain ⟨ha, -, hm⟩ := b64_seeded_cluster hpow km.samples hval hsep i _
      (List.getElem?_eq_getElem hlt)
    rw [ha] at hi
    injection hi with hi
    subst hi
    simp [hm]
  have hit : Binary64.KMeans.iteration pow2
      { km with clusters := Binary64.initLoop 1 km.samples } =
      .ok (false,
        { km with
          samples := km.samples.map (Binary64.relabel pow2 (Binary64.initLoop 1 km.samples)),
          clusters := (Binary64.assignedClusters pow2 (Binary64.initLoop 1 km.samples)
            km.samples).map (fun c => c.recenter
              (km.samples.map (Binary64.relabel pow2 (Binary64.initLoop 1 km.samples)))) }) := by
    rw [b64_iteration_eq _ hall]
    simp only [hflag]
  refine ⟨_, _, hinit, hit, ?_, ?_, ?_, b64_converged_again _ _ hit⟩
  · simp [Binary64.KMeans.updateKM, hit]
  · simp [b64_assignedClusters_length, b64_initLoop_length]
  · intro i s hi
    refine ⟨?_, ?_, hcl i s hi⟩
    · simp only [b64_initLoop_getElem?, hi, Option.map_some', Binary64.Cluster.ctor,
        Option.some.injEq, Binary64.Cluster.mk.injEq, and_true]
      omega
    · simp only [List.getElem?_map, hi, Option.map_some', Binary64.relabel,
        b64_seeded_best hpow _ hval hsep i s hi]

/-- C15, amended, on a concrete input: the records `1 0 0`, `2 1 0` with K = 2. -/
theorem all_seeds_run_double_witness :
    ∃ km0 km', apartLoaded.initialize = .ok km0 ∧
      Binary64.KMeans.updateKM Double.square 1 km0 = .ok km' ∧
      km'.samples[1]? = some ⟨2, some 2, Double.ofNat 1, .fin 0⟩ ∧
      km'.clusters[1]? = some ⟨2, Double.ofNat 1, .fin 0, [1]⟩ := by
  obtain ⟨km0, km', h1, -, h2, -, h3, -⟩ :=
    all_seeds_run_double Double.square square_isPow2 apartLoaded rfl (by decide)
      (by decide) (by decide!) (by decide!)
  obtain ⟨-, h4, h5⟩ := h3 1 ⟨2, none, Double.ofNat 1, .fin 0⟩ rfl
  exact ⟨km0, km', h1, h2, h4, h5⟩

end KM
